import Mathlib

/-!
# Commutable set systems: the enumeration engine of `enumerable/commutable.hpp`

A shallow embedding of the class `CommutableSystem` and theorems about it.

Conventions of the embedding.

* `node_t` is `Nat`; levels (`int32_t`) are `Int`. Inside `Complete` levels
  start at 0 and grow by one per generation, so no 32-bit wrap-around is
  modelled there. Where the caller chooses a level (`Candidates::Add`), the
  statement about the queue takes it in the range where the `+ 1` of
  line 343 stays inside `int32_t` (`int32Min`, `int32Max`).
* The virtual hooks of the class are the fields of `Problem`; each of them is
  a pure function of its arguments. The defaults written in the header are
  the definitions of the namespace `Default`.
* A `std::vector` is a `List`; `std::priority_queue` with `std::greater` is a
  list from which the least element (lexicographic order of the tuple) is
  taken.
* The loops `while (true)` and `while (!pq_.empty())` are driven by a fuel
  argument; `Run.outOfFuel` is the only artefact of that.
* A callback `std::function<bool(...)>` is a state transformer
  `σ → α → Bool × σ`: the state `σ` stands for whatever the closure captures.
-/

set_option autoImplicit false

namespace CommutableSystem

/-! ## Outcomes -/

/-- How a piece of the engine can end: a normal return, a propagated
`std::runtime_error`, undefined behaviour (an access outside a vector), or
the fuel of the model running out. -/
inductive Run (α : Type) where
  | done (a : α)
  | thrown
  | undefined
  | outOfFuel
  deriving DecidableEq, Repr

/-- `CommutableNode<node_t>`: the node vector and the level vector. -/
abbrev CommutableNode := List Nat × List Int

/-- A `std::function<bool(α)>` whose captured state is `σ`. -/
abbrev Callback (σ α : Type) := σ → α → Bool × σ

/-! ## The problem interface -/

/-- The virtual member functions of `CommutableSystem` (and `graph_size_`).
`RestrictedProblem` is pure virtual in the header: it is a parameter here, the
list of the solutions it hands to its callback, in order (see
`RestrictedProblem.run`). `RestrictedCands` and `ValidSeeds`, which take a
callback, are embedded by their bodies in the header and are not fields.
`Resort` returns `none` when it throws. -/
structure Problem (Aux : Type) where
  graph_size : Nat
  IsGood : List Nat → Bool
  RestrictedProblem : List Nat → Nat → List (List Nat)
  CanAdd : List Nat → Aux → Nat → Bool
  RestrMultiple : Bool
  IsSeed : Nat → Option (List Nat) → Bool
  CompleteCandNum : Option (List Nat) → Nat → Nat → Nat → Option Nat
  InitAux : List Nat → Aux
  UpdateAux : Aux → List Nat → Nat → Aux
  Resort : List Nat → List Int → Nat → Option (List Nat × List Int)

namespace Default

/-- `CanAdd`, lines 87-91: copy `s`, push `v`, ask `IsGood`. -/
def CanAdd {Aux : Type} (IsGood : List Nat → Bool) (s : List Nat) (_aux : Aux) (v : Nat) : Bool :=
  let cnd := s ++ [v]
  IsGood cnd

/-- `RestrMultiple`, line 96. -/
def RestrMultiple : Bool := true

/-- `IsSeed`, lines 102-104. -/
def IsSeed (IsGood : List Nat → Bool) (v : Nat) (_s : Option (List Nat)) : Bool :=
  IsGood [v]

/-- `CompleteCandNum`, lines 124-140: the `idx`-th candidate of a stream, the
return value `false` being `none`. -/
def CompleteCandNum (graph_size : Nat) (ground_set : Option (List Nat))
    (_new_elem _iterator_num idx : Nat) : Option Nat :=
  match ground_set with
  | none => if idx < graph_size then some idx else none
  | some g => if idx < g.length then g[idx]? else none

/-- `InitAux`, line 161, for the default `Aux = int32_t`. -/
def InitAux (_s : List Nat) : Int := 0

/-- `UpdateAux`, line 163. -/
def UpdateAux {Aux : Type} (aux : Aux) (_s : List Nat) (_pos : Nat) : Aux := aux

/-- `Resort`, lines 208-212: it throws. -/
def Resort (_s : List Nat) (_level : List Int) (_seed : Nat) : Option (List Nat × List Int) :=
  none

end Default

/-- A problem that supplies `IsGood`, `RestrictedProblem` and `Resort` and
leaves every other hook at its default. -/
def Problem.ofIsGood (graph_size : Nat) (IsGood : List Nat → Bool)
    (RestrictedProblem : List Nat → Nat → List (List Nat))
    (Resort : List Nat → List Int → Nat → Option (List Nat × List Int)) : Problem Int where
  graph_size := graph_size
  IsGood := IsGood
  RestrictedProblem := RestrictedProblem
  CanAdd := Default.CanAdd IsGood
  RestrMultiple := Default.RestrMultiple
  IsSeed := Default.IsSeed IsGood
  CompleteCandNum := Default.CompleteCandNum graph_size
  InitAux := Default.InitAux
  UpdateAux := Default.UpdateAux
  Resort := Resort

/-! ## The candidate queue (class `Candidates`, lines 301-356) -/

/-- `CandIter`: level, node, iterator number. -/
structure CandIter where
  level : Int
  node : Nat
  iter : Nat
  deriving DecidableEq, Repr

/-- An entry of `info_`: iteration idx, owner node, owner lvl. -/
structure IterInfo where
  idx : Nat
  owner : Nat
  lvl : Int
  deriving DecidableEq, Repr

/-- The order of `std::pair<int32_t, node_t>`, strict. -/
def pairLt (a b : Int × Nat) : Prop :=
  a.1 < b.1 ∨ (a.1 = b.1 ∧ a.2 < b.2)

instance (a b : Int × Nat) : Decidable (pairLt a b) := by
  unfold pairLt; infer_instance

/-- The order of `std::tuple<int32_t, node_t, size_t>`, strict. -/
def CandIter.lt (a b : CandIter) : Prop :=
  a.level < b.level ∨ (a.level = b.level ∧ (a.node < b.node ∨ (a.node = b.node ∧ a.iter < b.iter)))

instance (a b : CandIter) : Decidable (CandIter.lt a b) := by
  unfold CandIter.lt; infer_instance

/-- `pq_.top()` of the min-heap: the least entry, `none` on an empty heap. -/
def pqTop : List CandIter → Option CandIter
  | [] => none
  | x :: xs =>
    match pqTop xs with
    | none => some x
    | some m => if CandIter.lt m x then some m else some x

/-- The members `pq_` and `info_` of `Candidates`; `s_`, `aux_` and
`ground_set_` are references to variables of `Complete` and are passed to
each operation. -/
structure Candidates where
  pq : List CandIter
  info : List IterInfo
  deriving DecidableEq, Repr

/-- A freshly constructed `Candidates`. -/
def Candidates.empty : Candidates := ⟨[], []⟩

/-- `InsertInPQ`, lines 337-345. The index of the stream is passed to
`CompleteCandNum` and then incremented; an entry is pushed when a candidate
comes back. (`iterator_num` is always an index of `info_`; outside it the
C++ is undefined and the model leaves the queue as it is.) -/
def Candidates.InsertInPQ {Aux : Type} (P : Problem Aux) (ground_set : Option (List Nat))
    (c : Candidates) (iterator_num : Nat) : Candidates :=
  match c.info[iterator_num]? with
  | none => c
  | some inf =>
    let info1 := c.info.set iterator_num { inf with idx := inf.idx + 1 }
    match P.CompleteCandNum ground_set inf.owner iterator_num inf.idx with
    | some cand => { pq := ⟨inf.lvl + 1, cand, iterator_num⟩ :: c.pq, info := info1 }
    | none => { pq := c.pq, info := info1 }

/-- `Add`, lines 320-323. -/
def Candidates.Add {Aux : Type} (P : Problem Aux) (ground_set : Option (List Nat))
    (c : Candidates) (v : Nat) (lv : Int) : Candidates :=
  Candidates.InsertInPQ P ground_set { c with info := c.info ++ [⟨0, v, lv⟩] } c.info.length

/-- `CanReallyAdd`, lines 326-336. -/
def Candidates.CanReallyAdd {Aux : Type} (P : Problem Aux) (s : List Nat) (aux : Aux)
    (v : Nat) : Bool :=
  if v ∈ s then false else P.CanAdd s aux v

/-- `Next`, lines 309-319. The result is `some (n, lv)` for `true` and `none`
for `false`, with the queue after the call. -/
def Candidates.Next {Aux : Type} (P : Problem Aux) (ground_set : Option (List Nat))
    (s : List Nat) (aux : Aux) : Nat → Candidates → Run (Option (Nat × Int) × Candidates)
  | 0, _ => .outOfFuel
  | fuel + 1, c =>
    match pqTop c.pq with
    | none => .done (none, c)
    | some p =>
      let c1 := Candidates.InsertInPQ P ground_set { c with pq := c.pq.erase p } p.iter
      if Candidates.CanReallyAdd P s aux p.node then .done (some (p.node, p.level), c1)
      else Candidates.Next P ground_set s aux fuel c1

/-! ## Completion (`Complete`, lines 362-418) -/

/-- `is_in_target`, lines 368-377. -/
def is_in_target (target : Option (List Nat)) (v : Nat) : Bool :=
  match target with
  | some t => decide (v ∈ t)
  | none => true

/-- `std::swap(s.front(), s.back())`. -/
def swapFrontBack : List Nat → List Nat
  | [] => []
  | a :: t =>
    match t.getLast? with
    | none => [a]
    | some b => b :: (t.dropLast ++ [a])

/-- How the inner loop of `Complete` is left: `finished = true; break`, the
`break` after a seed change, or one of the three `return false`. -/
inductive PassExit where
  | finished (s : List Nat) (level : List Int)
  | seedChange (s : List Nat) (level : List Int)
  | failed (s : List Nat) (level : List Int)
  deriving DecidableEq, Repr

/-- The inner `while (true)` of `Complete`, lines 384-414. -/
def Complete.loop {Aux : Type} (P : Problem Aux) (ground_set target : Option (List Nat))
    (fail_on_seed_change : Bool) (fail_if_smaller_than : Int × Nat) :
    Nat → List Nat → List Int → Aux → Candidates → Nat → Run PassExit
  | 0, _, _, _, _, _ => .outOfFuel
  | fuel + 1, s, level, aux, candidates, next_in_s =>
    match Candidates.Next P ground_set s aux fuel candidates with
    | .outOfFuel => .outOfFuel
    | .thrown => .thrown
    | .undefined => .undefined
    | .done (none, _) => .done (.finished s level)
    | .done (some (next, next_lvl), candidates1) =>
      if next_in_s ≥ s.length ∨ s[next_in_s]? ≠ some next then
        if !is_in_target target next then .done (.failed s level)
        else if pairLt (next_lvl, next) fail_if_smaller_than then .done (.failed s level)
        else
          let s1 := s ++ [next]
          let level1 := level ++ [next_lvl]
          let aux1 := P.UpdateAux aux s1 (s1.length - 1)
          if next < s1.headD next then
            let s2 := swapFrontBack s1
            if fail_on_seed_change || fail_if_smaller_than.1 != -1 then .done (.failed s2 level1)
            else .done (.seedChange s2 level1)
          else
            Complete.loop P ground_set target fail_on_seed_change fail_if_smaller_than fuel
              s1 level1 aux1 (Candidates.Add P ground_set candidates1 next next_lvl) next_in_s
      else
        Complete.loop P ground_set target fail_on_seed_change fail_if_smaller_than fuel
          s level aux (Candidates.Add P ground_set candidates1 next next_lvl) (next_in_s + 1)

/-- `Complete`, lines 362-418: the returned flag with `s` and `level` as the
call leaves them. `s[0]` of an empty vector is undefined behaviour. -/
def Complete {Aux : Type} (P : Problem Aux) :
    Nat → List Nat → List Int → Option (List Nat) → Option (List Nat) → Bool → Int × Nat →
    Run (Bool × List Nat × List Int)
  | 0, _, _, _, _, _, _ => .outOfFuel
  | fuel + 1, s, level, ground_set, target, fail_on_seed_change, fail_if_smaller_than =>
    match s with
    | [] => .undefined
    | s0 :: _ =>
      let aux := P.InitAux s
      let candidates := Candidates.Add P ground_set Candidates.empty s0 0
      match Complete.loop P ground_set target fail_on_seed_change fail_if_smaller_than fuel
          s level aux candidates 1 with
      | .outOfFuel => .outOfFuel
      | .thrown => .thrown
      | .undefined => .undefined
      | .done (.failed s1 level1) => .done (false, s1, level1)
      | .done (.finished s1 level1) =>
        match s1 with
        | [] => .undefined
        | f :: _ =>
          match P.Resort s1 level1 f with
          | none => .thrown
          | some (s2, level2) => .done (true, s2, level2)
      | .done (.seedChange s1 level1) =>
        match s1 with
        | [] => .undefined
        | f :: _ =>
          match P.Resort s1 level1 f with
          | none => .thrown
          | some (s2, level2) =>
            Complete P fuel s2 level2 ground_set target fail_on_seed_change fail_if_smaller_than

/-! ## The older completion (`OldComplete`, `CompleteInside`, lines 110-299) -/

/-- The `for` of `CompleteCands` over the candidates still to visit. -/
def CompleteCands.loop {σ : Type} (cb : Callback σ Nat) : List Nat → σ → σ
  | [], st => st
  | i :: rest, st =>
    let r := cb st i
    if !r.1 then r.2 else CompleteCands.loop cb rest r.2

/-- `CompleteCands`, lines 110-122 (the default). -/
def CompleteCands {Aux σ : Type} (P : Problem Aux) (ground_set : Option (List Nat))
    (_new_elem _sol_size : Nat) (cb : Callback σ Nat) (st : σ) : σ :=
  match ground_set with
  | none => CompleteCands.loop cb (List.range P.graph_size) st
  | some g => CompleteCands.loop cb g st

/-- `CandSet` with `cand_level`: the min-heap of `(level, node)` pairs and
the map from a candidate to its level, as a list of bindings. -/
abbrev CandState := List (Int × Nat) × List (Nat × Int)

/-- `UpdateStep`, lines 168-181 (the default): every candidate of `v` that is
not in `s` and can be added is given the level `level + 1` and pushed. -/
def UpdateStep {Aux : Type} (P : Problem Aux) (s : List Nat) (v : Nat) (level : Int)
    (sol_size : Nat) (q : CandState) (ground_set : Option (List Nat)) (aux : Aux) :
    CandState :=
  CompleteCands P ground_set v sol_size
    (fun (st : CandState) cnd =>
      if cnd ∈ s then (true, st)
      else if !P.CanAdd s aux cnd then (true, st)
      else (true, ((level + 1, cnd) :: st.1,
        (cnd, level + 1) :: st.2.filter (fun e => e.1 != cnd))))
    q

/-- `candidates.top()` of the min-heap of pairs. -/
def candTop : List (Int × Nat) → Option (Int × Nat)
  | [] => none
  | x :: xs =>
    match candTop xs with
    | none => some x
    | some m => if pairLt m x then some m else some x

/-- The `while (!candidates.empty())` of `NextCand`. Each turn pops one
entry, so the number of entries bounds the turns. -/
def NextCand.loop {Aux : Type} (P : Problem Aux) (s : List Nat) (aux : Aux) :
    Nat → List (Int × Nat) → (Nat × Int) × List (Int × Nat)
  | 0, candidates => ((P.graph_size, -1), candidates)
  | k + 1, candidates =>
    match candTop candidates with
    | none => ((P.graph_size, -1), candidates)
    | some p =>
      let candidates1 := candidates.erase p
      if p.2 ∈ s then NextCand.loop P s aux k candidates1
      else if !P.CanAdd s aux p.2 then NextCand.loop P s aux k candidates1
      else ((p.2, p.1), candidates1)

/-- `NextCand`, lines 186-203 (the default): the next candidate with its
level, or `(graph_size_, -1)`, and the heap after the call. -/
def NextCand {Aux : Type} (P : Problem Aux) (s : List Nat) (candidates : List (Int × Nat))
    (aux : Aux) : (Nat × Int) × List (Int × Nat) :=
  NextCand.loop P s aux candidates.length candidates

/-- The loops `for (i = 0; i < s.size(); i++) UpdateStep(s, s[i], level[i], ...)`
of lines 224-226 and 248-251; a read of `level[i]` outside `level` is
undefined behaviour. -/
def UpdateStep.all {Aux : Type} (P : Problem Aux) (s : List Nat) (level : List Int)
    (ground_set : Option (List Nat)) (aux : Aux) : List Nat → CandState → Run CandState
  | [], q => .done q
  | i :: rest, q =>
    match s[i]?, level[i]? with
    | some v, some l =>
      UpdateStep.all P s level ground_set aux rest (UpdateStep P s v l i q ground_set aux)
    | _, _ => .undefined

/-- The loop of lines 233-236: the position at which `(l, n)` is inserted,
searched downwards from `pos`; `none` is a read outside `level` or `s`. -/
def insertPos (s : List Nat) (level : List Int) (n : Nat) (l : Int) : Nat → Option Nat
  | 0 => some 0
  | pos + 1 =>
    match level[pos]?, s[pos]? with
    | some lp, some sp =>
      if l < lp ∨ (l = lp ∧ n < sp) then insertPos s level n l pos else some (pos + 1)
    | _, _ => none

/-- The `while (true)` of `OldComplete`, lines 228-256. -/
def OldComplete.loop {Aux : Type} (P : Problem Aux) (stop_on_seed_change : Bool) :
    Nat → List Nat → List Int → Aux → CandState → Bool → Run (Bool × List Nat × List Int)
  | 0, _, _, _, _, _ => .outOfFuel
  | fuel + 1, s, level, aux, q, seed_change =>
    let r := NextCand P s q.1 aux
    let n := r.1.1
    let l := r.1.2
    if n = P.graph_size then .done (seed_change, s, level)
    else
      match insertPos s level n l s.length with
      | none => .undefined
      | some pos =>
        let s1 := s.take pos ++ n :: s.drop pos
        let level1 := level.take pos ++ l :: level.drop pos
        if n < s1.headD n then
          if stop_on_seed_change then .done (true, s1, level1)
          else
            match P.Resort s1 level1 n with
            | none => .thrown
            | some (s2, level2) =>
              let aux2 := P.InitAux s2
              match UpdateStep.all P s2 level2 none aux2 (List.range s2.length) ([], []) with
              | .outOfFuel => .outOfFuel
              | .thrown => .thrown
              | .undefined => .undefined
              | .done q2 => OldComplete.loop P stop_on_seed_change fuel s2 level2 aux2 q2 true
        else
          let aux1 := P.UpdateAux aux s1 pos
          OldComplete.loop P stop_on_seed_change fuel s1 level1 aux1
            (UpdateStep P s1 n l (s1.length - 1) (r.2, q.2) none aux1) seed_change

/-- `OldComplete`, lines 217-258: the returned flag (a seed change happened)
with `s` and `level` as the call leaves them. An empty `s` throws. -/
def OldComplete {Aux : Type} (P : Problem Aux) (fuel : Nat) (s : List Nat) (level : List Int)
    (stop_on_seed_change : Bool) : Run (Bool × List Nat × List Int) :=
  if s.isEmpty then .thrown
  else
    let aux := P.InitAux s
    match UpdateStep.all P s level none aux (List.range s.length) ([], []) with
    | .outOfFuel => .outOfFuel
    | .thrown => .thrown
    | .undefined => .undefined
    | .done q => OldComplete.loop P stop_on_seed_change fuel s level aux q false

/-- The `while (true)` of `CompleteInside`, lines 274-298. -/
def CompleteInside.loop {Aux : Type} (P : Problem Aux) (inside : List Nat)
    (change_seed : Bool) :
    Nat → List Nat → List Int → Aux → CandState → Run (List Nat × List Int)
  | 0, _, _, _, _ => .outOfFuel
  | fuel + 1, s, level, aux, q =>
    let r := NextCand P s q.1 aux
    let n := r.1.1
    let l := r.1.2
    if n = P.graph_size then .done (s, level)
    else
      match insertPos s level n l s.length with
      | none => .undefined
      | some pos =>
        let s1 := s.take pos ++ n :: s.drop pos
        let level1 := level.take pos ++ l :: level.drop pos
        if n < s1.headD n ∧ change_seed = true then
          match P.Resort s1 level1 n with
          | none => .thrown
          | some (s2, level2) =>
            let aux2 := P.InitAux s2
            match UpdateStep.all P s2 level2 (some inside) aux2 (List.range s2.length)
                ([], []) with
            | .outOfFuel => .outOfFuel
            | .thrown => .thrown
            | .undefined => .undefined
            | .done q2 => CompleteInside.loop P inside change_seed fuel s2 level2 aux2 q2
        else
          let aux1 := P.UpdateAux aux s1 pos
          CompleteInside.loop P inside change_seed fuel s1 level1 aux1
            (UpdateStep P s1 n l (s1.length - 1) (r.2, q.2) (some inside) aux1)

/-- `CompleteInside`, lines 263-299: `s` and `level` as the call leaves
them. An empty `s` throws. -/
def CompleteInside {Aux : Type} (P : Problem Aux) (fuel : Nat) (s : List Nat)
    (level : List Int) (inside : List Nat) (change_seed : Bool) : Run (List Nat × List Int) :=
  if s.isEmpty then .thrown
  else
    let aux := P.InitAux s
    match UpdateStep.all P s level (some inside) aux (List.range s.length) ([], []) with
    | .outOfFuel => .outOfFuel
    | .thrown => .thrown
    | .undefined => .undefined
    | .done q => CompleteInside.loop P inside change_seed fuel s level aux q

/-! ## Roots (`GetRoot`, lines 46-54) -/

/-- `GetRoot`: the state of the callback after the call. The value the
callback returns is dropped, as in the source. -/
def GetRoot {Aux σ : Type} (P : Problem Aux) (fuel : Nat) (i : Nat)
    (cb : Callback σ CommutableNode) (st : σ) : Run σ :=
  if !P.IsSeed i none then .done st
  else
    match Complete P fuel [i] [0] none none true (-1, 0) with
    | .outOfFuel => .outOfFuel
    | .thrown => .thrown
    | .undefined => .undefined
    | .done (r, root) => if !r then .done (cb st root).2 else .done st

/-! ## Children (`GetPrefix`, `ValidSeeds`, `RestrictedCands`, `Children`) -/

/-- A callback that may itself end abnormally: the lambdas of `Children`
call `Complete`. -/
abbrev RunCallback (σ α : Type) := σ → α → Run (Bool × σ)

/-- A callback that always returns normally. -/
def Callback.toRun {σ α : Type} (cb : Callback σ α) : RunCallback σ α :=
  fun st a => .done (cb st a)

/-- `std::vector::resize(n)`: cut to `n` elements, or pad with
value-initialised ones. -/
def resize {α : Type} (l : List α) (n : Nat) (d : α) : List α :=
  l.take n ++ List.replicate (n - l.length) d

/-- `GetPrefix`, lines 423-431; `none` when `Resort` throws. The index `i`
is the position of the first `v`, or `s.size()` when there is none. -/
def GetPrefix {Aux : Type} (P : Problem Aux) (s : List Nat) (level : List Int)
    (seed v : Nat) : Option (List Nat × List Int) :=
  match P.Resort s level seed with
  | none => none
  | some (s1, level1) =>
    let i := s1.findIdx (fun x => x == v)
    some (resize s1 (i + 1) 0, resize level1 (i + 1) 0)

/-- The `for` of `ValidSeeds` over the rest of `sol`. -/
def ValidSeeds.loop {Aux σ : Type} (P : Problem Aux) (sol : List Nat) (cand : Nat)
    (cb : RunCallback σ Nat) : List Nat → σ → Run σ
  | [], st => .done st
  | seed :: rest, st =>
    if !P.IsSeed seed (some sol) then ValidSeeds.loop P sol cand cb rest st
    else if cand ≤ seed then ValidSeeds.loop P sol cand cb rest st
    else
      match cb st seed with
      | .outOfFuel => .outOfFuel
      | .thrown => .thrown
      | .undefined => .undefined
      | .done (true, st1) => ValidSeeds.loop P sol cand cb rest st1
      | .done (false, st1) => .done st1

/-- `ValidSeeds`, lines 433-440. -/
def ValidSeeds {Aux σ : Type} (P : Problem Aux) (sol : List Nat) (cand : Nat)
    (cb : RunCallback σ Nat) (st : σ) : Run σ :=
  ValidSeeds.loop P sol cand cb sol st

/-- The `for` of `RestrictedCands` over the nodes still to visit.
`std::binary_search` in the sorted copy of `s` is membership in `s`. -/
def RestrictedCands.loop {σ : Type} (s : List Nat) (cb : RunCallback σ Nat) :
    List Nat → σ → Run σ
  | [], st => .done st
  | i :: rest, st =>
    if i ∈ s then RestrictedCands.loop s cb rest st
    else
      match cb st i with
      | .outOfFuel => .outOfFuel
      | .thrown => .thrown
      | .undefined => .undefined
      | .done (true, st1) => RestrictedCands.loop s cb rest st1
      | .done (false, st1) => .done st1

/-- `RestrictedCands`, lines 146-155 (the default). -/
def RestrictedCands {Aux σ : Type} (P : Problem Aux) (s : List Nat) (_level : List Int)
    (cb : RunCallback σ Nat) (st : σ) : Run σ :=
  RestrictedCands.loop s cb (List.range P.graph_size) st

/-- Modelled from the spec: the body of `RestrictedProblem`, which is pure
virtual in the header. Sections 4.1, 4.4 and 9 of the specification: the
oracle emits each solution of the restricted problem as a node list (it may
return a collected list), and the boolean a callback returns tells whether
the enumeration goes on. The call `RestrictedProblem(s, cand, cb)` hands the
solutions to `cb` one by one until it returns `false`. -/
def RestrictedProblem.run {σ : Type} (cb : RunCallback σ (List Nat)) :
    List (List Nat) → σ → Run σ
  | [], st => .done st
  | sol :: rest, st =>
    match cb st sol with
    | .outOfFuel => .outOfFuel
    | .thrown => .thrown
    | .undefined => .undefined
    | .done (true, st1) => RestrictedProblem.run cb rest st1
    | .done (false, st1) => .done st1

/-- The loop of lines 473-479: `some b` is the value of `starts_with_core`,
`none` a read of `child[i]` outside `child`. -/
def startsWithCore : List Nat → List Nat → Option Bool
  | [], _ => some true
  | _ :: _, [] => none
  | a :: core, b :: child => if a ≠ b then some false else startsWithCore core child

/-- The last steps of the innermost lambda, lines 490-493: call the emission
callback, clear `not_done` when it returns `false`, return `not_done`. -/
def Children.emit {σ : Type} (cb : Callback σ CommutableNode) (st : Bool × σ)
    (child : List Nat) (lvl : List Int) : Run (Bool × Bool × σ) :=
  let r := cb st.2 (child, lvl)
  let not_done := if !r.1 then false else st.1
  .done (not_done, (not_done, r.2))

/-- The innermost lambda of `Children`, lines 453-494, run for one `seed`.
Its state is `not_done` with the state of the emission callback. `child`
and `lvl` start as copies of `core` and `clvl`; `child[0]`, `lvl.back()` and
`child.back()` of an empty vector are undefined behaviour. -/
def Children.onSeed {Aux σ : Type} (P : Problem Aux) (fuel : Nat) (s : List Nat)
    (level : List Int) (cb : Callback σ CommutableNode) (cand : Nat) (sol : List Nat) :
    RunCallback (Bool × σ) Nat := fun st seed =>
  match GetPrefix P sol level seed cand with
  | none => .thrown
  | some (core, clvl) =>
    match core.head? with
    | none => .undefined
    | some c0 =>
      let correct_seed := core.foldl (fun m n => if n < m then n else m) c0
      if seed ≠ correct_seed then .done (true, st)
      else
        match clvl.getLast?, core.getLast? with
        | some lvl_back, some child_back =>
          match Complete P fuel core clvl none none true (lvl_back, child_back) with
          | .outOfFuel => .outOfFuel
          | .thrown => .thrown
          | .undefined => .undefined
          | .done (false, _, _) => .done (true, st)
          | .done (true, child, lvl) =>
            match startsWithCore core child with
            | none => .undefined
            | some false => .done (true, st)
            | some true =>
              match Complete P fuel core.dropLast clvl.dropLast none (some s) false (-1, 0) with
              | .outOfFuel => .outOfFuel
              | .thrown => .thrown
              | .undefined => .undefined
              | .done (false, _, _) => .done (true, st)
              | .done (true, p, _) =>
                if P.RestrMultiple then
                  match Complete P fuel core clvl (some (p ++ [cand])) (some sol) false
                      (-1, 0) with
                  | .outOfFuel => .outOfFuel
                  | .thrown => .thrown
                  | .undefined => .undefined
                  | .done (false, _, _) => .done (true, st)
                  | .done (true, _, _) => Children.emit cb st child lvl
                else Children.emit cb st child lvl
        | _, _ => .undefined

/-- The middle lambda of `Children`, lines 452-496, run for one `sol`. -/
def Children.onSol {Aux σ : Type} (P : Problem Aux) (fuel : Nat) (s : List Nat)
    (level : List Int) (cb : Callback σ CommutableNode) (cand : Nat) :
    RunCallback (Bool × σ) (List Nat) := fun st sol =>
  match ValidSeeds P sol cand (Children.onSeed P fuel s level cb cand sol) st with
  | .outOfFuel => .outOfFuel
  | .thrown => .thrown
  | .undefined => .undefined
  | .done st1 => .done (st1.1, st1)

/-- The outer lambda of `Children`, lines 451-498, run for one `cand`. -/
def Children.onCand {Aux σ : Type} (P : Problem Aux) (fuel : Nat) (s : List Nat)
    (level : List Int) (cb : Callback σ CommutableNode) :
    RunCallback (Bool × σ) Nat := fun st cand =>
  match RestrictedProblem.run (Children.onSol P fuel s level cb cand)
      (P.RestrictedProblem s cand) st with
  | .outOfFuel => .outOfFuel
  | .thrown => .thrown
  | .undefined => .undefined
  | .done st1 => .done (st1.1, st1)

/-- `Children`, lines 446-500: the returned `not_done` with the state of the
emission callback. -/
def Children {Aux σ : Type} (P : Problem Aux) (fuel : Nat) (s : List Nat)
    (level : List Int) (cb : Callback σ CommutableNode) (st : σ) : Run (Bool × σ) :=
  RestrictedCands P s level (Children.onCand P fuel s level cb) (true, st)

/-- `ListChildren`, lines 56-64: the state of the callback after the call. -/
def ListChildren {Aux σ : Type} (P : Problem Aux) (fuel : Nat) (node : CommutableNode)
    (cb : Callback σ CommutableNode) (st : σ) : Run σ :=
  match Children P fuel node.1 node.2 (fun st1 n => cb st1 n) st with
  | .outOfFuel => .outOfFuel
  | .thrown => .thrown
  | .undefined => .undefined
  | .done r => .done r.2

/-! ## Observing a callback -/

/-- The callback `cb` with a log of its invocations: each argument with the
value `cb` returned for it, in order. -/
def record {σ α : Type} (cb : Callback σ α) : Callback (σ × List (α × Bool)) α :=
  fun st a =>
    let r := cb st.1 a
    (r.1, (r.2, st.2 ++ [(a, r.1)]))

/-! ## Instances -/

/-- The order of `(level, node)`, not strict. -/
def pairLe (a b : Int × Nat) : Prop := ¬ pairLt b a

instance (a b : Int × Nat) : Decidable (pairLe a b) := by
  unfold pairLe; infer_instance

/-- Modelled from the spec: `Resort`, which throws in the header. Section 4.3
of the specification: the seed stays in position 0 and the indices
`1..|s|` are sorted by `(level, node)` ascending. Vectors of different
lengths are returned as they are. -/
def resortSpec (s : List Nat) (level : List Int) (_seed : Nat) :
    Option (List Nat × List Int) :=
  match s, level with
  | s0 :: st, l0 :: lt =>
    if st.length = lt.length then
      let sorted := (lt.zip st).insertionSort (fun a b => pairLe a b)
      some (s0 :: sorted.map Prod.snd, l0 :: sorted.map Prod.fst)
    else some (s, level)
  | _, _ => some (s, level)

/-- `IsGood` of the maximal-clique problem: any two different nodes of `s`
are adjacent. -/
def isClique (adj : Nat → Nat → Bool) (s : List Nat) : Bool :=
  s.all (fun u => s.all (fun v => u == v || adj u v))

/-- Adjacency in the triangle on the nodes 0, 1, 2. -/
def adjK3 (u v : Nat) : Bool := u != v && decide (u < 3) && decide (v < 3)

/-- The restricted problem of the maximal cliques: the one clique made of
`v` and of its neighbours in `s`. -/
def cliqueOracle (adj : Nat → Nat → Bool) (s : List Nat) (v : Nat) : List (List Nat) :=
  [s.filter (fun u => adj u v) ++ [v]]

/-- The maximal-clique problem of a graph on `N` nodes: `IsGood` = clique,
every other hook at its default, `Resort` as in the specification. -/
def cliqueProblem (N : Nat) (adj : Nat → Nat → Bool) : Problem Int :=
  Problem.ofIsGood N (isClique adj) (cliqueOracle adj) resortSpec

/-- The triangle of scenario 1. -/
def K3 : Problem Int := cliqueProblem 3 adjK3

/-- Adjacency in the star with centre 0 and leaves 1, 2, 3. -/
def adjStar (u v : Nat) : Bool :=
  u != v && (u == 0 || v == 0) && decide (u < 4) && decide (v < 4)

/-- The star on four nodes; its maximal cliques are the three edges. -/
def star4 : Problem Int := cliqueProblem 4 adjStar

/-- A set system that is not hereditary: the good sets are the sets of at
most one node and the whole ground set `{0, 1, 2}`. -/
def gapGood (X : List Nat) : Bool :=
  decide (X.length ≤ 1) || (decide (X.length = 3) && [0, 1, 2].all (fun v => decide (v ∈ X)))

/-- The problem of `gapGood` on three nodes, every other hook at its default. -/
def gapProblem : Problem Int :=
  Problem.ofIsGood 3 gapGood (fun _ _ => []) resortSpec

/-- A callback without state that always asks to go on. -/
def cbTrue {α : Type} : Callback Unit α := fun _ _ => (true, ())

/-- A callback that counts its invocations and returns `false` at the `k`-th
one (and at every later one). -/
def cbStopAt {α : Type} (k : Nat) : Callback Nat α := fun n _ => (decide (n + 1 < k), n + 1)

/-! ## Predicates used in the statements -/

/-- The node vector an exit of the inner loop leaves behind. -/
def PassExit.s : PassExit → List Nat
  | .finished s _ => s
  | .seedChange s _ => s
  | .failed s _ => s

/-- The level vector an exit of the inner loop leaves behind. -/
def PassExit.level : PassExit → List Int
  | .finished _ l => l
  | .seedChange _ l => l
  | .failed _ l => l

/-- Seed minimality: `s[0]` is a least element of `s`. -/
def SeedMin : List Nat → Prop
  | [] => True
  | a :: t => ∀ x ∈ t, a ≤ x

instance (s : List Nat) : Decidable (SeedMin s) := by
  cases s with
  | nil => exact isTrue trivial
  | cons a t => unfold SeedMin; infer_instance

/-- The hook `Resort` returns a permutation of the node vector. -/
def ResortPermutes {Aux : Type} (P : Problem Aux) : Prop :=
  ∀ s level seed s1 level1, P.Resort s level seed = some (s1, level1) → s1.Perm s

/-- The hook `Resort` leaves position 0 of the node vector alone. -/
def ResortKeepsFront {Aux : Type} (P : Problem Aux) : Prop :=
  ∀ s level seed s1 level1, P.Resort s level seed = some (s1, level1) → s1.head? = s.head?

/-- The nodes `ValidSeeds` lets through for `sol` and `cand`, as the two
`continue` of its loop select them. -/
def validSeedsOf {Aux : Type} (P : Problem Aux) (sol : List Nat) (cand : Nat) : List Nat :=
  sol.filter (fun seed => P.IsSeed seed (some sol) && decide (seed < cand))

/-- A run of the walker that has not been cancelled: `not_done` holds
and every logged call returned `true`. -/
def Running {σ α : Type} (st : Bool × σ × List (α × Bool)) : Prop :=
  st.1 = true ∧ ∀ e ∈ st.2.2, e.2 = true

/-- A run of the walker cancelled by its last call: `not_done` is cleared,
the last logged call returned `false` and every earlier one `true`. -/
def Cancelled {σ α : Type} (st : Bool × σ × List (α × Bool)) : Prop :=
  st.1 = false ∧ ∃ pre a, st.2.2 = pre ++ [(a, false)] ∧ ∀ e ∈ pre, e.2 = true

/-- The queue invariant: every entry of the heap is the outstanding item of
its stream (the candidate at the last consumed index, one level above the
owner), and no stream has two entries. -/
def Candidates.Consistent {Aux : Type} (P : Problem Aux) (g : Option (List Nat))
    (c : Candidates) : Prop :=
  (∀ p ∈ c.pq, ∃ inf, c.info[p.iter]? = some inf ∧ 1 ≤ inf.idx ∧
      P.CompleteCandNum g inf.owner p.iter (inf.idx - 1) = some p.node ∧
      p.level = inf.lvl + 1) ∧
  (c.pq.map CandIter.iter).Nodup

/-- Some stream over `[0, N)` has been read, with the current `s` and `aux`,
up to its outstanding item, and everything read was rejected. -/
def Candidates.Covered {Aux : Type} (P : Problem Aux) (s : List Nat) (aux : Aux)
    (c : Candidates) : Prop :=
  ∃ j inf, c.info[j]? = some inf ∧ 1 ≤ inf.idx ∧
    (∀ v, v + 1 < inf.idx → v < P.graph_size → Candidates.CanReallyAdd P s aux v = false) ∧
    (inf.idx - 1 < P.graph_size → (⟨inf.lvl + 1, inf.idx - 1, j⟩ : CandIter) ∈ c.pq)

/-- The number of candidates in a stream of the default `CompleteCandNum`:
`graph_size_` with no ground set, the size of the ground set otherwise. -/
def Default.streamLength (graph_size : Nat) (ground_set : Option (List Nat)) : Nat :=
  match ground_set with
  | none => graph_size
  | some g => g.length

/-- The values a stream of the default `CompleteCandNum` can yield. -/
def Default.candValues (graph_size : Nat) (ground_set : Option (List Nat)) : List Nat :=
  match ground_set with
  | none => List.range graph_size
  | some g => g

/-- The positions the streams of a queue have not read yet, for streams of
length `L`. -/
def Candidates.unread (L : Nat) (c : Candidates) : Nat :=
  (c.info.map (fun inf => L + 1 - inf.idx)).sum

/-- The number of entries of `values` that are not in `s`. -/
def notYetIn (values s : List Nat) : Nat :=
  (values.filter (fun x => decide (x ∉ s))).length

/-- Lines 393-409, what one iteration of the inner loop of `Complete` does
with a node `next` that is not `s[next_in_s]`: it leaves the loop
(`Sum.inl`), or goes on with the longer `s`, `level` and the updated `aux`
(`Sum.inr`). -/
def Complete.onInsert {Aux : Type} (P : Problem Aux) (target : Option (List Nat))
    (fail_on_seed_change : Bool) (fail_if_smaller_than : Int × Nat) (s : List Nat)
    (level : List Int) (aux : Aux) (next : Nat) (next_lvl : Int) :
    PassExit ⊕ (List Nat × List Int × Aux) :=
  if !is_in_target target next then .inl (.failed s level)
  else if pairLt (next_lvl, next) fail_if_smaller_than then .inl (.failed s level)
  else
    if next < (s ++ [next]).headD next then
      if fail_on_seed_change || fail_if_smaller_than.1 != -1 then
        .inl (.failed (swapFrontBack (s ++ [next])) (level ++ [next_lvl]))
      else .inl (.seedChange (swapFrontBack (s ++ [next])) (level ++ [next_lvl]))
    else .inr (s ++ [next], level ++ [next_lvl],
      P.UpdateAux aux (s ++ [next]) ((s ++ [next]).length - 1))

/-- Lines 415-417 and the `return false` of the inner loop: what `Complete`
does once the inner loop is left, `again` being the next turn of the outer
`while (true)`. -/
def Complete.afterPass {Aux : Type} (P : Problem Aux)
    (again : List Nat → List Int → Run (Bool × List Nat × List Int)) :
    Run PassExit → Run (Bool × List Nat × List Int)
  | .outOfFuel => .outOfFuel
  | .thrown => .thrown
  | .undefined => .undefined
  | .done (.failed s1 level1) => .done (false, s1, level1)
  | .done (.finished s1 level1) =>
    match s1 with
    | [] => .undefined
    | f :: _ =>
      match P.Resort s1 level1 f with
      | none => .thrown
      | some (s2, level2) => .done (true, s2, level2)
  | .done (.seedChange s1 level1) =>
    match s1 with
    | [] => .undefined
    | f :: _ =>
      match P.Resort s1 level1 f with
      | none => .thrown
      | some (s2, level2) => again s2 level2

/-- Every registered stream has been read at least once, and a stream whose
last consumed index gave a candidate has the item of that candidate in the
heap. -/
def Candidates.Outstanding {Aux : Type} (P : Problem Aux) (g : Option (List Nat))
    (c : Candidates) : Prop :=
  ∀ j inf, c.info[j]? = some inf → 1 ≤ inf.idx ∧
    ∀ cand, P.CompleteCandNum g inf.owner j (inf.idx - 1) = some cand →
      (⟨inf.lvl + 1, cand, j⟩ : CandIter) ∈ c.pq

/-- The least value of `int32_t`. -/
def int32Min : Int := -2147483648

/-- The greatest value of `int32_t`. -/
def int32Max : Int := 2147483647

/-- The owner levels of the registered streams, in the order of `info_`. -/
def Candidates.ownerLevels (c : Candidates) : List Int :=
  c.info.map IterInfo.lvl

/-- The queues a sequence of calls of `Add` and `Next` (that return) can
produce from a freshly constructed `Candidates`. The level given to `Add` is
an `int32_t` below `INT32_MAX`: line 343 adds one to the owner level in
`int32_t`, and at `INT32_MAX` that addition overflows. -/
inductive Candidates.Reachable {Aux : Type} (P : Problem Aux) (g : Option (List Nat)) :
    Candidates → Prop where
  | empty : Candidates.Reachable P g Candidates.empty
  | add (c : Candidates) (v : Nat) (lv : Int) :
      int32Min ≤ lv → lv < int32Max →
      Candidates.Reachable P g c → Candidates.Reachable P g (Candidates.Add P g c v lv)
  | next (c : Candidates) (s : List Nat) (aux : Aux) (fuel : Nat) (r : Option (Nat × Int))
      (c1 : Candidates) :
      Candidates.Reachable P g c → Candidates.Next P g s aux fuel c = .done (r, c1) →
      Candidates.Reachable P g c1

/-- The owner nodes of the registered streams, in the order of `info_`. -/
def Candidates.owners (c : Candidates) : List Nat :=
  c.info.map IterInfo.owner

/-- The hook `Resort` returns a node vector of the length it was given. -/
def ResortKeepsLength {Aux : Type} (P : Problem Aux) : Prop :=
  ∀ s level seed s1 level1, P.Resort s level seed = some (s1, level1) → s1.length = s.length

/-- The loop of lines 460-465 of `Children`: the least node of `child`,
starting from `child[0]`. -/
def correctSeed (c0 : Nat) (child : List Nat) : Nat :=
  child.foldl (fun m n => if n < m then n else m) c0

/-- `MaxRoots`, line 44. -/
def MaxRoots {Aux : Type} (P : Problem Aux) : Nat := P.graph_size

/-- Modelled from the spec: the walk over the roots, which belongs to the
enumerator that drives the engine and is not in the header. Sections 6 and 8
of the specification: the enumerator is driven over all roots, calling
`get_root(i, cb)` for the indices `i` below `max_roots()` in turn. -/
def GetRoots {Aux σ : Type} (P : Problem Aux) (fuel : Nat) (cb : Callback σ CommutableNode) :
    List Nat → σ → Run σ
  | [], st => .done st
  | i :: rest, st =>
    match GetRoot P fuel i cb st with
    | .outOfFuel => .outOfFuel
    | .thrown => .thrown
    | .undefined => .undefined
    | .done st1 => GetRoots P fuel cb rest st1

/-- The graph on one node. -/
def oneNode : Problem Int := cliqueProblem 1 (fun _ _ => false)

/-- A set system on four nodes whose good sets are the sets of even nodes:
the odd nodes are not seeds. -/
def evens4 : Problem Int :=
  Problem.ofIsGood 4 (fun X => X.all (fun v => v % 2 == 0)) (fun _ _ => []) resortSpec

/-! # Theorems -/

/-! ## The heap -/

theorem pqTop_eq_none {l : List CandIter} (h : pqTop l = none) : l = [] := by
  cases l with
  | nil => rfl
  | cons x xs =>
    simp only [pqTop] at h
    split at h
    · simp at h
    · split at h <;> simp at h

theorem pqTop_mem {l : List CandIter} {m : CandIter} (h : pqTop l = some m) : m ∈ l := by
  induction l generalizing m with
  | nil => simp [pqTop] at h
  | cons x xs ih =>
    simp only [pqTop] at h
    split at h
    · simp only [Option.some.injEq] at h
      simp [h]
    · rename_i m1 hm1
      split at h
      · simp only [Option.some.injEq] at h
        subst h
        exact List.mem_cons_of_mem _ (ih hm1)
      · simp only [Option.some.injEq] at h
        simp [h]

theorem Next_post {Aux : Type} (P : Problem Aux) (g : Option (List Nat)) (s : List Nat)
    (aux : Aux) : ∀ (fuel : Nat) (c : Candidates) (r : Option (Nat × Int)) (c1 : Candidates),
    Candidates.Next P g s aux fuel c = .done (r, c1) →
    (∀ n lv, r = some (n, lv) → n ∉ s ∧ P.CanAdd s aux n = true) ∧ (r = none → c1.pq = []) := by
  intro fuel
  induction fuel with
  | zero => intro c r c1 h; simp [Candidates.Next] at h
  | succ k ih =>
    intro c r c1 h
    simp only [Candidates.Next] at h
    split at h
    · rename_i hn
      simp only [Run.done.injEq, Prod.mk.injEq] at h
      obtain ⟨rfl, rfl⟩ := h
      exact ⟨by simp, fun _ => pqTop_eq_none hn⟩
    · rename_i p hp
      split at h
      · rename_i hadd
        simp only [Run.done.injEq, Prod.mk.injEq] at h
        obtain ⟨rfl, rfl⟩ := h
        refine ⟨?_, by simp⟩
        intro n lv hnl
        simp only [Option.some.injEq, Prod.mk.injEq] at hnl
        obtain ⟨rfl, rfl⟩ := hnl
        unfold Candidates.CanReallyAdd at hadd
        split at hadd
        · simp at hadd
        · rename_i hmem
          exact ⟨hmem, hadd⟩
      · exact ih _ _ _ h

/-! ## `ValidSeeds` -/

theorem mem_dropLast_cons {α : Type} {a e : α} {l : List α} (h : e ∈ (a :: l).dropLast) :
    e = a ∨ e ∈ l.dropLast := by
  cases l with
  | nil => simp at h
  | cons b l => simpa [List.dropLast] using h

theorem ValidSeeds_loop_record {Aux σ : Type} (P : Problem Aux) (sol : List Nat) (cand : Nat)
    (cb : Callback σ Nat) : ∀ (rest : List Nat) (st : σ) (log : List (Nat × Bool)),
    ∃ st1 new,
      ValidSeeds.loop P sol cand (Callback.toRun (record cb)) rest (st, log)
        = .done (st1, log ++ new) ∧
      new.map Prod.fst <+:
        rest.filter (fun seed => P.IsSeed seed (some sol) && decide (seed < cand)) ∧
      (∀ e ∈ new.dropLast, e.2 = true) ∧
      ((∀ e ∈ new, e.2 = true) → new.map Prod.fst =
        rest.filter (fun seed => P.IsSeed seed (some sol) && decide (seed < cand))) := by
  intro rest
  induction rest with
  | nil =>
    intro st log
    exact ⟨st, [], by simp [ValidSeeds.loop], by simp, by simp, by simp⟩
  | cons seed rest ih =>
    intro st log
    by_cases h1 : P.IsSeed seed (some sol) = true
    · by_cases h2 : cand ≤ seed
      · obtain ⟨st1, new, e1, e2, e3, e4⟩ := ih st log
        refine ⟨st1, new, ?_, ?_, e3, ?_⟩
        · simp [ValidSeeds.loop, h1, h2, e1]
        · simpa [List.filter_cons, h1, Nat.not_lt.2 h2] using e2
        · simpa [List.filter_cons, h1, Nat.not_lt.2 h2] using e4
      · have h3 : seed < cand := Nat.lt_of_not_le h2
        cases hb : (cb st seed).1 with
        | true =>
          obtain ⟨st1, new, e1, e2, e3, e4⟩ := ih (cb st seed).2 (log ++ [(seed, true)])
          refine ⟨st1, (seed, true) :: new, ?_, ?_, ?_, ?_⟩
          · simp [ValidSeeds.loop, h1, h2, Callback.toRun, record, hb, e1]
          · simpa [List.filter_cons, h1, h3] using e2
          · intro e he
            rcases mem_dropLast_cons he with rfl | he
            · rfl
            · exact e3 e he
          · intro hall
            have := e4 (fun e he => hall e (List.mem_cons_of_mem _ he))
            simp [List.filter_cons, h1, h3, this]
        | false =>
          refine ⟨(cb st seed).2, [(seed, false)], ?_, ?_, ?_, ?_⟩
          · simp [ValidSeeds.loop, h1, h2, Callback.toRun, record, hb]
          · simp [List.filter_cons, h1, h3]
          · simp
          · intro hall
            have := hall (seed, false) (by simp)
            simp at this
    · obtain ⟨st1, new, e1, e2, e3, e4⟩ := ih st log
      refine ⟨st1, new, ?_, ?_, e3, ?_⟩
      · simp [ValidSeeds.loop, h1, e1]
      · simpa [List.filter_cons, h1] using e2
      · simpa [List.filter_cons, h1] using e4

/-! ## Invariants of `Complete` -/

theorem swapFrontBack_concat (a x : Nat) (t : List Nat) :
    swapFrontBack ((a :: t) ++ [x]) = x :: (t ++ [a]) := by
  simp [swapFrontBack, List.getLast?_append, List.dropLast_concat]

theorem swapFrontBack_perm (l : List Nat) : (swapFrontBack l).Perm l := by
  cases l with
  | nil => simp [swapFrontBack]
  | cons a t =>
    simp only [swapFrontBack]
    cases h : t.getLast? with
    | none => simp [List.getLast?_eq_none_iff.1 h]
    | some b =>
      have ht : t.dropLast ++ [b] = t := List.dropLast_append_getLast? b (by simp [h])
      have h1 : (b :: (t.dropLast ++ [a])).Perm (a :: (t.dropLast ++ [b])) := by
        have : (t.dropLast ++ [a]).Perm (a :: t.dropLast) := List.perm_append_singleton a _
        have h2 : (t.dropLast ++ [b]).Perm (b :: t.dropLast) := List.perm_append_singleton b _
        exact ((List.Perm.cons b this).trans (List.Perm.swap a b _)).trans
          (List.Perm.cons a h2.symm)
      simpa [ht] using h1

theorem Complete.loop_inv {Aux : Type} (P : Problem Aux) (g t : Option (List Nat))
    (fosc : Bool) (fis : Int × Nat) (I : List Nat → Prop)
    (happ : ∀ s next, I s → next ∉ s → is_in_target t next = true →
      ¬ next < (s ++ [next]).headD next → I (s ++ [next]))
    (hswap : ∀ s next, I s → next ∉ s → is_in_target t next = true →
      next < (s ++ [next]).headD next → I (swapFrontBack (s ++ [next]))) :
    ∀ (fuel : Nat) (s : List Nat) (level : List Int) (aux : Aux) (c : Candidates) (n : Nat)
      (e : PassExit), I s →
      Complete.loop P g t fosc fis fuel s level aux c n = .done e → I e.s := by
  intro fuel
  induction fuel with
  | zero => intro s level aux c n e _ h; simp [Complete.loop] at h
  | succ k ih =>
    intro s level aux c n e hI h
    rw [Complete.loop] at h
    split at h
    · simp at h
    · simp at h
    · simp at h
    · simp only [Run.done.injEq] at h
      subst h
      exact hI
    · rename_i next next_lvl c1 hnext
      have hns : next ∉ s := ((Next_post P g s aux k c _ c1 hnext).1 next next_lvl rfl).1
      split at h
      · split at h
        · simp only [Run.done.injEq] at h
          subst h
          exact hI
        · rename_i htgt
          have htgt1 : is_in_target t next = true := by simpa using htgt
          split at h
          · simp only [Run.done.injEq] at h
            subst h
            exact hI
          · simp only [] at h
            by_cases hlt : next < (s ++ [next]).headD next
            · rw [if_pos hlt] at h
              split at h
              · simp only [Run.done.injEq] at h
                subst h
                exact hswap s next hI hns htgt1 hlt
              · simp only [Run.done.injEq] at h
                subst h
                exact hswap s next hI hns htgt1 hlt
            · rw [if_neg hlt] at h
              exact ih _ _ _ _ _ _ (happ s next hI hns htgt1 hlt) h
      · exact ih _ _ _ _ _ _ hI h

theorem Complete_inv {Aux : Type} (P : Problem Aux) (g t : Option (List Nat))
    (fosc : Bool) (fis : Int × Nat) (I : List Nat → Prop)
    (happ : ∀ s next, I s → next ∉ s → is_in_target t next = true →
      ¬ next < (s ++ [next]).headD next → I (s ++ [next]))
    (hswap : ∀ s next, I s → next ∉ s → is_in_target t next = true →
      next < (s ++ [next]).headD next → I (swapFrontBack (s ++ [next])))
    (hres : ∀ s level seed s1 level1, I s → P.Resort s level seed = some (s1, level1) → I s1) :
    ∀ (fuel : Nat) (s : List Nat) (level : List Int) (r : Bool × List Nat × List Int), I s →
      Complete P fuel s level g t fosc fis = .done r → I r.2.1 := by
  intro fuel
  induction fuel with
  | zero => intro s level r _ h; simp [Complete] at h
  | succ k ih =>
    intro s level r hI h
    unfold Complete at h
    split at h
    · simp at h
    · rename_i s0 rest
      simp only at h
      split at h
      · simp at h
      · simp at h
      · simp at h
      · rename_i s1 level1 hl
        simp only [Run.done.injEq] at h
        subst h
        exact Complete.loop_inv P g t fosc fis I happ hswap _ _ _ _ _ _ _ hI hl
      · rename_i s1 level1 hl
        have h1 : I s1 := Complete.loop_inv P g t fosc fis I happ hswap _ _ _ _ _ _ _ hI hl
        split at h
        · simp at h
        · split at h
          · simp at h
          · rename_i s2 level2 hr
            simp only [Run.done.injEq] at h
            subst h
            exact hres _ _ _ _ _ h1 hr
      · rename_i s1 level1 hl
        have h1 : I s1 := Complete.loop_inv P g t fosc fis I happ hswap _ _ _ _ _ _ _ hI hl
        split at h
        · simp at h
        · split at h
          · simp at h
          · rename_i s2 level2 hr
            exact ih _ _ _ (hres _ _ _ _ _ h1 hr) h

/-! ## Cancellation in `Children` -/

theorem Children.onSeed_cases {Aux σ : Type} (P : Problem Aux) (fuel : Nat) (s : List Nat)
    (level : List Int) (cb : Callback σ CommutableNode) (cand : Nat) (sol : List Nat)
    (st : Bool × σ) (seed : Nat) :
    (∃ child lvl, Children.onSeed P fuel s level cb cand sol st seed
        = Children.emit cb st child lvl) ∨
    Children.onSeed P fuel s level cb cand sol st seed = .done (true, st) ∨
    (∀ r, Children.onSeed P fuel s level cb cand sol st seed ≠ .done r) := by
  unfold Children.onSeed
  split
  · exact Or.inr (Or.inr (fun r h => by simp at h))
  · split
    · exact Or.inr (Or.inr (fun r h => by simp at h))
    · simp only []
      split
      · exact Or.inr (Or.inl rfl)
      · repeat' split
        all_goals first
          | exact Or.inr (Or.inl rfl)
          | exact Or.inl ⟨_, _, rfl⟩
          | exact Or.inr (Or.inr (fun r h => by simp at h))

theorem Children.onSeed_step {Aux σ : Type} (P : Problem Aux) (fuel : Nat) (s : List Nat)
    (level : List Int) (cb : Callback σ CommutableNode) (cand : Nat) (sol : List Nat)
    (st : Bool × σ × List (CommutableNode × Bool)) (seed : Nat) (flag : Bool)
    (st1 : Bool × σ × List (CommutableNode × Bool)) (hG : Running st)
    (h : Children.onSeed P fuel s level (record cb) cand sol st seed = .done (flag, st1)) :
    (flag = true ∧ Running st1) ∨ (flag = false ∧ Cancelled st1) := by
  rcases Children.onSeed_cases P fuel s level (record cb) cand sol st seed with
    ⟨child, lvl, he⟩ | he | he
  · rw [he] at h
    obtain ⟨hnd, hlog⟩ := hG
    simp only [Children.emit, record, Run.done.injEq, Prod.mk.injEq] at h
    obtain ⟨h1, h2⟩ := h
    cases hb : (cb st.2.1 (child, lvl)).1 with
    | true =>
      left
      simp only [hb, hnd] at h1 h2
      subst h2
      refine ⟨by simpa using h1.symm, by simp, ?_⟩
      intro e he
      simp only [List.mem_append, List.mem_singleton] at he
      rcases he with he | rfl
      · exact hlog e he
      · rfl
    | false =>
      right
      simp only [hb] at h1 h2
      subst h2
      refine ⟨by simpa using h1.symm, by simp, ?_⟩
      exact ⟨st.2.2, (child, lvl), rfl, hlog⟩
  · rw [he] at h
    simp only [Run.done.injEq, Prod.mk.injEq] at h
    obtain ⟨rfl, rfl⟩ := h
    exact Or.inl ⟨rfl, hG⟩
  · exact absurd h (he _)

theorem ValidSeeds.seeds_loop_cancel {Aux τ : Type} (P : Problem Aux) (sol : List Nat) (cand : Nat)
    (f : RunCallback τ Nat) (G S : τ → Prop)
    (hf : ∀ st a flag st1, G st → f st a = .done (flag, st1) →
      (flag = true ∧ G st1) ∨ (flag = false ∧ S st1)) :
    ∀ (rest : List Nat) (st st1 : τ), G st →
      ValidSeeds.loop P sol cand f rest st = .done st1 → G st1 ∨ S st1 := by
  intro rest
  induction rest with
  | nil =>
    intro st st1 hG h
    simp only [ValidSeeds.loop, Run.done.injEq] at h
    subst h
    exact Or.inl hG
  | cons seed rest ih =>
    intro st st1 hG h
    simp only [ValidSeeds.loop] at h
    split at h
    · exact ih _ _ hG h
    · split at h
      · exact ih _ _ hG h
      · split at h
        · simp at h
        · simp at h
        · simp at h
        · rename_i st2 hc
          rcases hf _ _ _ _ hG hc with ⟨_, h2⟩ | ⟨h1, _⟩
          · exact ih _ _ h2 h
          · simp at h1
        · rename_i st2 hc
          simp only [Run.done.injEq] at h
          subst h
          rcases hf _ _ _ _ hG hc with ⟨h1, _⟩ | ⟨_, h2⟩
          · simp at h1
          · exact Or.inr h2

theorem RestrictedProblem.run_cancel {τ : Type} (f : RunCallback τ (List Nat)) (G S : τ → Prop)
    (hf : ∀ st a flag st1, G st → f st a = .done (flag, st1) →
      (flag = true ∧ G st1) ∨ (flag = false ∧ S st1)) :
    ∀ (rest : List (List Nat)) (st st1 : τ), G st →
      RestrictedProblem.run f rest st = .done st1 → G st1 ∨ S st1 := by
  intro rest
  induction rest with
  | nil =>
    intro st st1 hG h
    simp only [RestrictedProblem.run, Run.done.injEq] at h
    subst h
    exact Or.inl hG
  | cons sol rest ih =>
    intro st st1 hG h
    simp only [RestrictedProblem.run] at h
    split at h
    · simp at h
    · simp at h
    · simp at h
    · rename_i st2 hc
      rcases hf _ _ _ _ hG hc with ⟨_, h2⟩ | ⟨h1, _⟩
      · exact ih _ _ h2 h
      · simp at h1
    · rename_i st2 hc
      simp only [Run.done.injEq] at h
      subst h
      rcases hf _ _ _ _ hG hc with ⟨h1, _⟩ | ⟨_, h2⟩
      · simp at h1
      · exact Or.inr h2

theorem RestrictedCands.cands_loop_cancel {τ : Type} (s : List Nat) (f : RunCallback τ Nat)
    (G S : τ → Prop)
    (hf : ∀ st a flag st1, G st → f st a = .done (flag, st1) →
      (flag = true ∧ G st1) ∨ (flag = false ∧ S st1)) :
    ∀ (rest : List Nat) (st st1 : τ), G st →
      RestrictedCands.loop s f rest st = .done st1 → G st1 ∨ S st1 := by
  intro rest
  induction rest with
  | nil =>
    intro st st1 hG h
    simp only [RestrictedCands.loop, Run.done.injEq] at h
    subst h
    exact Or.inl hG
  | cons i rest ih =>
    intro st st1 hG h
    simp only [RestrictedCands.loop] at h
    split at h
    · exact ih _ _ hG h
    · split at h
      · simp at h
      · simp at h
      · simp at h
      · rename_i st2 hc
        rcases hf _ _ _ _ hG hc with ⟨_, h2⟩ | ⟨h1, _⟩
        · exact ih _ _ h2 h
        · simp at h1
      · rename_i st2 hc
        simp only [Run.done.injEq] at h
        subst h
        rcases hf _ _ _ _ hG hc with ⟨h1, _⟩ | ⟨_, h2⟩
        · simp at h1
        · exact Or.inr h2

theorem Children.onSol_step {Aux σ : Type} (P : Problem Aux) (fuel : Nat) (s : List Nat)
    (level : List Int) (cb : Callback σ CommutableNode) (cand : Nat)
    (st : Bool × σ × List (CommutableNode × Bool)) (sol : List Nat) (flag : Bool)
    (st1 : Bool × σ × List (CommutableNode × Bool)) (hG : Running st)
    (h : Children.onSol P fuel s level (record cb) cand st sol = .done (flag, st1)) :
    (flag = true ∧ Running st1) ∨ (flag = false ∧ Cancelled st1) := by
  unfold Children.onSol at h
  split at h
  · simp at h
  · simp at h
  · simp at h
  · rename_i st2 hv
    simp only [Run.done.injEq, Prod.mk.injEq] at h
    obtain ⟨rfl, rfl⟩ := h
    rcases ValidSeeds.seeds_loop_cancel P sol cand _ Running Cancelled
      (fun a b c d => Children.onSeed_step P fuel s level cb cand sol a b c d) _ _ _ hG hv with
      h1 | h1
    · exact Or.inl ⟨h1.1, h1⟩
    · exact Or.inr ⟨h1.1, h1⟩

theorem Children.onCand_step {Aux σ : Type} (P : Problem Aux) (fuel : Nat) (s : List Nat)
    (level : List Int) (cb : Callback σ CommutableNode)
    (st : Bool × σ × List (CommutableNode × Bool)) (cand : Nat) (flag : Bool)
    (st1 : Bool × σ × List (CommutableNode × Bool)) (hG : Running st)
    (h : Children.onCand P fuel s level (record cb) st cand = .done (flag, st1)) :
    (flag = true ∧ Running st1) ∨ (flag = false ∧ Cancelled st1) := by
  unfold Children.onCand at h
  split at h
  · simp at h
  · simp at h
  · simp at h
  · rename_i st2 hv
    simp only [Run.done.injEq, Prod.mk.injEq] at h
    obtain ⟨rfl, rfl⟩ := h
    rcases RestrictedProblem.run_cancel _ Running Cancelled
      (fun a b c d => Children.onSol_step P fuel s level cb cand a b c d) _ _ _ hG hv with
      h1 | h1
    · exact Or.inl ⟨h1.1, h1⟩
    · exact Or.inr ⟨h1.1, h1⟩

theorem Children_cancel {Aux σ : Type} (P : Problem Aux) (fuel : Nat) (s : List Nat)
    (level : List Int) (cb : Callback σ CommutableNode) (st : σ)
    (r : Bool × σ × List (CommutableNode × Bool))
    (h : Children P fuel s level (record cb) (st, []) = .done r) :
    Running r ∨ Cancelled r := by
  unfold Children RestrictedCands at h
  exact RestrictedCands.cands_loop_cancel s _ Running Cancelled
    (fun a b c d => Children.onCand_step P fuel s level cb a b c d) _ _ _
    ⟨rfl, by simp⟩ h

theorem stops_at_false_of_state {σ α : Type} (r : Bool × σ × List (α × Bool))
    (h : Running r ∨ Cancelled r) (k : Nat) (hk : k < r.2.2.length)
    (hf : (r.2.2[k]).2 = false) : r.2.2.length = k + 1 := by
  rcases h with ⟨_, hall⟩ | ⟨_, pre, a, hlog, hall⟩
  · have := hall _ (List.getElem_mem hk)
    rw [hf] at this
    simp at this
  · by_cases hlt : k < pre.length
    · have h1 : r.2.2[k] = pre[k] := by
        simp only [hlog]
        exact List.getElem_append_left hlt
      have := hall _ (List.getElem_mem hlt)
      rw [← h1, hf] at this
      simp at this
    · have hlen : r.2.2.length = pre.length + 1 := by simp [hlog]
      omega

/-! ## The queue invariant -/

theorem Candidates.consistent_empty {Aux : Type} (P : Problem Aux) (g : Option (List Nat)) :
    Candidates.Consistent P g Candidates.empty := by
  simp [Candidates.Consistent, Candidates.empty]

theorem Candidates.InsertInPQ_consistent {Aux : Type} (P : Problem Aux) (g : Option (List Nat))
    (c : Candidates) (i : Nat) (hc : Candidates.Consistent P g c)
    (hi : ∀ p ∈ c.pq, p.iter ≠ i) :
    Candidates.Consistent P g (Candidates.InsertInPQ P g c i) := by
  unfold Candidates.InsertInPQ
  cases hinf : c.info[i]? with
  | none => simpa using hc
  | some inf =>
    have hlen : i < c.info.length := by
      rcases List.getElem?_eq_some_iff.1 hinf with ⟨h, _⟩
      exact h
    have hold : ∀ p ∈ c.pq, ∃ inf1,
        (c.info.set i { inf with idx := inf.idx + 1 })[p.iter]? = some inf1 ∧ 1 ≤ inf1.idx ∧
        P.CompleteCandNum g inf1.owner p.iter (inf1.idx - 1) = some p.node ∧
        p.level = inf1.lvl + 1 := by
      intro p hp
      obtain ⟨inf1, h1, h2⟩ := hc.1 p hp
      refine ⟨inf1, ?_, h2⟩
      rw [List.getElem?_set_ne (Ne.symm (hi p hp))]
      exact h1
    simp only []
    cases hcand : P.CompleteCandNum g inf.owner i inf.idx with
    | none =>
      simp only []
      exact ⟨hold, hc.2⟩
    | some cand =>
      simp only []
      refine ⟨?_, ?_⟩
      · intro p hp
        rcases List.mem_cons.1 hp with rfl | hp
        · refine ⟨{ inf with idx := inf.idx + 1 }, ?_, by simp, ?_, rfl⟩
          · simp [List.getElem?_set_self hlen]
          · simpa using hcand
        · exact hold p hp
      · simp only [List.map_cons, List.nodup_cons]
        refine ⟨?_, hc.2⟩
        intro hmem
        obtain ⟨p, hp, hpi⟩ := List.mem_map.1 hmem
        exact hi p hp hpi

theorem Candidates.Add_consistent {Aux : Type} (P : Problem Aux) (g : Option (List Nat))
    (c : Candidates) (v : Nat) (lv : Int) (hc : Candidates.Consistent P g c) :
    Candidates.Consistent P g (Candidates.Add P g c v lv) := by
  unfold Candidates.Add
  have hlt : ∀ p ∈ c.pq, p.iter < c.info.length := by
    intro p hp
    obtain ⟨inf1, h1, _⟩ := hc.1 p hp
    rcases List.getElem?_eq_some_iff.1 h1 with ⟨h, _⟩
    exact h
  apply Candidates.InsertInPQ_consistent
  · refine ⟨?_, hc.2⟩
    intro p hp
    obtain ⟨inf1, h1, h2⟩ := hc.1 p hp
    refine ⟨inf1, ?_, h2⟩
    simp only
    rw [List.getElem?_append_left (hlt p hp)]
    exact h1
  · intro p hp
    exact Nat.ne_of_lt (hlt p hp)

theorem Candidates.pop_consistent {Aux : Type} (P : Problem Aux) (g : Option (List Nat))
    (c : Candidates) (p : CandIter) (hc : Candidates.Consistent P g c) (hp : p ∈ c.pq) :
    Candidates.Consistent P g
      (Candidates.InsertInPQ P g { c with pq := c.pq.erase p } p.iter) := by
  have hnd : c.pq.Nodup := List.Nodup.of_map _ hc.2
  apply Candidates.InsertInPQ_consistent
  · refine ⟨?_, ?_⟩
    · intro q hq
      exact hc.1 q (List.mem_of_mem_erase hq)
    · exact List.Nodup.sublist (List.Sublist.map _ (List.erase_sublist p c.pq)) hc.2
  · intro q hq hqi
    have hq1 : q ∈ c.pq := List.mem_of_mem_erase hq
    have hne : q ≠ p := ((List.Nodup.mem_erase_iff hnd).1 hq).1
    exact hne (List.inj_on_of_nodup_map hc.2 hq1 hp hqi)

theorem Candidates.Next_consistent {Aux : Type} (P : Problem Aux) (g : Option (List Nat))
    (s : List Nat) (aux : Aux) : ∀ (fuel : Nat) (c : Candidates) (r : Option (Nat × Int))
    (c1 : Candidates), Candidates.Consistent P g c →
    Candidates.Next P g s aux fuel c = .done (r, c1) → Candidates.Consistent P g c1 := by
  intro fuel
  induction fuel with
  | zero => intro c r c1 _ h; simp [Candidates.Next] at h
  | succ k ih =>
    intro c r c1 hc h
    simp only [Candidates.Next] at h
    split at h
    · simp only [Run.done.injEq, Prod.mk.injEq] at h
      obtain ⟨_, rfl⟩ := h
      exact hc
    · rename_i p hp
      have hc1 := Candidates.pop_consistent P g c p hc (pqTop_mem hp)
      split at h
      · simp only [Run.done.injEq, Prod.mk.injEq] at h
        obtain ⟨_, rfl⟩ := h
        exact hc1
      · exact ih _ _ _ hc1 h

theorem Candidates.Add_eq {Aux : Type} (P : Problem Aux) (g : Option (List Nat))
    (c : Candidates) (v : Nat) (lv : Int) :
    Candidates.Add P g c v lv =
      { pq := (match P.CompleteCandNum g v c.info.length 0 with
               | some cand => [(⟨lv + 1, cand, c.info.length⟩ : CandIter)]
               | none => []) ++ c.pq,
        info := c.info ++ [⟨1, v, lv⟩] } := by
  unfold Candidates.Add Candidates.InsertInPQ
  have h : (c.info ++ [(⟨0, v, lv⟩ : IterInfo)])[c.info.length]? = some ⟨0, v, lv⟩ := by
    simp
  simp only [h]
  cases P.CompleteCandNum g v c.info.length 0 <;> simp

theorem Candidates.pop_eq {Aux : Type} (P : Problem Aux) (g : Option (List Nat))
    (c : Candidates) (p : CandIter) (hc : Candidates.Consistent P g c) (hp : p ∈ c.pq) :
    ∃ inf, c.info[p.iter]? = some inf ∧ 1 ≤ inf.idx ∧
      P.CompleteCandNum g inf.owner p.iter (inf.idx - 1) = some p.node ∧
      p.level = inf.lvl + 1 ∧
      Candidates.InsertInPQ P g { c with pq := c.pq.erase p } p.iter =
        { pq := (match P.CompleteCandNum g inf.owner p.iter inf.idx with
                 | some cand => [(⟨inf.lvl + 1, cand, p.iter⟩ : CandIter)]
                 | none => []) ++ c.pq.erase p,
          info := c.info.set p.iter { inf with idx := inf.idx + 1 } } := by
  obtain ⟨inf, h1, h2, h3, h4⟩ := hc.1 p hp
  refine ⟨inf, h1, h2, h3, h4, ?_⟩
  unfold Candidates.InsertInPQ
  simp only [h1]
  cases P.CompleteCandNum g inf.owner p.iter inf.idx <;> simp

theorem Default.CompleteCandNum_none_eq_some {N o i idx n : Nat}
    (h : Default.CompleteCandNum N none o i idx = some n) : idx < N ∧ n = idx := by
  unfold Default.CompleteCandNum at h
  simp only at h
  split at h
  · simp only [Option.some.injEq] at h
    exact ⟨by assumption, h.symm⟩
  · simp at h

/-! ## The order of the candidates a pass receives -/

theorem Default.CompleteCandNum_none_of_lt {N o i idx : Nat} (h : idx < N) :
    Default.CompleteCandNum N none o i idx = some idx := by
  simp [Default.CompleteCandNum, h]

theorem Candidates.Add_covered {Aux : Type} (P : Problem Aux)
    (hccn : P.CompleteCandNum = Default.CompleteCandNum P.graph_size)
    (s : List Nat) (aux : Aux) (c : Candidates) (v : Nat) (lv : Int) :
    Candidates.Covered P s aux (Candidates.Add P none c v lv) := by
  rw [Candidates.Add_eq]
  refine ⟨c.info.length, ⟨1, v, lv⟩, by simp, by simp, ?_, ?_⟩
  · intro w hw
    simp at hw
  · intro h0
    simp only [Nat.sub_self] at h0 ⊢
    rw [hccn, Default.CompleteCandNum_none_of_lt h0]
    simp

theorem Candidates.pop_covered {Aux : Type} (P : Problem Aux)
    (hccn : P.CompleteCandNum = Default.CompleteCandNum P.graph_size)
    (s : List Nat) (aux : Aux) (c : Candidates) (p : CandIter)
    (hc : Candidates.Consistent P none c) (hcov : Candidates.Covered P s aux c)
    (hp : p ∈ c.pq) (hrej : Candidates.CanReallyAdd P s aux p.node = false) :
    Candidates.Covered P s aux
      (Candidates.InsertInPQ P none { c with pq := c.pq.erase p } p.iter) := by
  obtain ⟨infp, p1, p2, p3, p4, heq⟩ := Candidates.pop_eq P none c p hc hp
  obtain ⟨j, inf, hj, h1, htested, hentry⟩ := hcov
  rw [hccn] at p3
  obtain ⟨p5, p6⟩ := Default.CompleteCandNum_none_eq_some p3
  rw [heq]
  have hjlen : j < c.info.length := (List.getElem?_eq_some_iff.1 hj).1
  by_cases hij : p.iter = j
  · have hinf : infp = inf := by
      rw [hij, hj] at p1
      exact (Option.some.inj p1).symm
    subst hinf
    refine ⟨j, { infp with idx := infp.idx + 1 }, ?_, by simp, ?_, ?_⟩
    · simp only [hij]
      simp [List.getElem?_set_self hjlen]
    · intro w hw hwN
      simp only at hw
      by_cases hw1 : w + 1 < infp.idx
      · exact htested w hw1 hwN
      · have : w = p.node := by omega
        rw [this]
        exact hrej
    · intro hN
      simp only [Nat.add_sub_cancel] at hN ⊢
      rw [hccn, Default.CompleteCandNum_none_of_lt hN, hij]
      simp
  · refine ⟨j, inf, ?_, h1, htested, ?_⟩
    · simp only
      rw [List.getElem?_set_ne hij]
      exact hj
    · intro hN
      have hm := hentry hN
      have hne : (⟨inf.lvl + 1, inf.idx - 1, j⟩ : CandIter) ≠ p := by
        intro hx
        apply hij
        rw [← hx]
      simp only [List.mem_append]
      right
      exact (List.mem_erase_of_ne hne).2 hm

theorem Candidates.Next_covered {Aux : Type} (P : Problem Aux)
    (hccn : P.CompleteCandNum = Default.CompleteCandNum P.graph_size)
    (s : List Nat) (aux : Aux) : ∀ (fuel : Nat) (c c1 : Candidates),
    Candidates.Consistent P none c → Candidates.Covered P s aux c →
    Candidates.Next P none s aux fuel c = .done (none, c1) →
    ∀ v, v < P.graph_size → Candidates.CanReallyAdd P s aux v = false := by
  intro fuel
  induction fuel with
  | zero => intro c c1 _ _ h; simp [Candidates.Next] at h
  | succ k ih =>
    intro c c1 hc hcov h
    simp only [Candidates.Next] at h
    split at h
    · rename_i hn
      have hpq := pqTop_eq_none hn
      obtain ⟨j, inf, hj, h1, htested, hentry⟩ := hcov
      intro v hv
      have hN : ¬ inf.idx - 1 < P.graph_size := by
        intro hx
        have := hentry hx
        rw [hpq] at this
        simp at this
      exact htested v (by omega) hv
    · rename_i p hp
      have hpm := pqTop_mem hp
      split at h
      · simp at h
      · rename_i hrej
        have hrej1 : Candidates.CanReallyAdd P s aux p.node = false := by simpa using hrej
        exact ih _ _ (Candidates.pop_consistent P none c p hc hpm)
          (Candidates.pop_covered P hccn s aux c p hc hcov hpm hrej1) h

theorem Complete.loop_maximal {Aux : Type} (P : Problem Aux)
    (hccn : P.CompleteCandNum = Default.CompleteCandNum P.graph_size)
    (t : Option (List Nat)) (fosc : Bool) (fis : Int × Nat) :
    ∀ (fuel : Nat) (s : List Nat) (level : List Int) (aux : Aux) (c : Candidates) (n : Nat)
      (s1 : List Nat) (level1 : List Int), Candidates.Consistent P none c →
      Candidates.Covered P s aux c →
      Complete.loop P none t fosc fis fuel s level aux c n = .done (.finished s1 level1) →
      ∃ aux1, ∀ v, v < P.graph_size → Candidates.CanReallyAdd P s1 aux1 v = false := by
  intro fuel
  induction fuel with
  | zero => intro s level aux c n s1 level1 _ _ h; simp [Complete.loop] at h
  | succ k ih =>
    intro s level aux c n s1 level1 hc hcov h
    rw [Complete.loop] at h
    split at h
    · simp at h
    · simp at h
    · simp at h
    · rename_i c1 hnext
      simp only [Run.done.injEq, PassExit.finished.injEq] at h
      obtain ⟨rfl, rfl⟩ := h
      exact ⟨aux, Candidates.Next_covered P hccn s aux k c c1 hc hcov hnext⟩
    · rename_i next next_lvl c1 hnext
      have hc1 := Candidates.Next_consistent P none s aux k c _ c1 hc hnext
      have hc2 := Candidates.Add_consistent P none c1 next next_lvl hc1
      split at h
      · split at h
        · simp at h
        · split at h
          · simp at h
          · simp only [] at h
            by_cases hsc : next < (s ++ [next]).headD next
            · rw [if_pos hsc] at h
              split at h <;> simp at h
            · rw [if_neg hsc] at h
              exact ih _ _ _ _ _ _ _ hc2 (Candidates.Add_covered P hccn _ _ c1 next next_lvl) h
      · exact ih _ _ _ _ _ _ _ hc2 (Candidates.Add_covered P hccn _ _ c1 next next_lvl) h

theorem Complete_maximal {Aux : Type} (P : Problem Aux)
    (hccn : P.CompleteCandNum = Default.CompleteCandNum P.graph_size)
    (t : Option (List Nat)) (fosc : Bool) (fis : Int × Nat) :
    ∀ (fuel : Nat) (s : List Nat) (level : List Int) (s2 : List Nat) (level2 : List Int),
      Complete P fuel s level none t fosc fis = .done (true, s2, level2) →
      ∃ s1 level1 aux1 seed, P.Resort s1 level1 seed = some (s2, level2) ∧
        ∀ v, v < P.graph_size → Candidates.CanReallyAdd P s1 aux1 v = false := by
  intro fuel
  induction fuel with
  | zero => intro s level s2 level2 h; simp [Complete] at h
  | succ k ih =>
    intro s level s2 level2 h
    unfold Complete at h
    split at h
    · simp at h
    · rename_i s0 rest
      simp only at h
      have hc0 : Candidates.Consistent P none (Candidates.Add P none Candidates.empty s0 0) :=
        Candidates.Add_consistent P none _ s0 0 (Candidates.consistent_empty P none)
      split at h
      · simp at h
      · simp at h
      · simp at h
      · simp at h
      · rename_i s1 level1 hl
        obtain ⟨aux1, hmax⟩ := Complete.loop_maximal P hccn t fosc fis _ _ _ _ _ _ _ _ hc0
          (Candidates.Add_covered P hccn _ _ _ s0 0) hl
        split at h
        · simp at h
        · rename_i f frest
          split at h
          · simp at h
          · rename_i s3 level3 hr
            simp only [Run.done.injEq, Prod.mk.injEq, true_and] at h
            obtain ⟨rfl, rfl⟩ := h
            exact ⟨_, _, aux1, f, hr, hmax⟩
      · split at h
        · simp at h
        · split at h
          · simp at h
          · exact ih _ _ _ _ h

/-! ## Seed minimality and the target gate -/

theorem seedMin_of_perm_head {s s1 : List Nat} (hp : s1.Perm s) (hh : s1.head? = s.head?)
    (hs : s ≠ [] ∧ SeedMin s) : s1 ≠ [] ∧ SeedMin s1 := by
  obtain ⟨hne, hmin⟩ := hs
  cases s with
  | nil => exact absurd rfl hne
  | cons a t =>
    cases s1 with
    | nil => simp at hh
    | cons a1 t1 =>
      simp only [List.head?_cons, Option.some.injEq] at hh
      subst hh
      refine ⟨by simp, ?_⟩
      have ht : t1.Perm t := (List.perm_cons a1).1 hp
      intro x hx
      exact hmin x (ht.mem_iff.1 hx)

theorem Complete_seedMin {Aux : Type} (P : Problem Aux) (hperm : ResortPermutes P)
    (hfront : ResortKeepsFront P) (fuel : Nat) (s : List Nat) (level : List Int)
    (g t : Option (List Nat)) (fosc : Bool) (fis : Int × Nat) (b : Bool) (s1 : List Nat)
    (level1 : List Int) (hmin : SeedMin s)
    (h : Complete P fuel s level g t fosc fis = .done (b, s1, level1)) :
    s1 ≠ [] ∧ SeedMin s1 := by
  have hne : s ≠ [] := by
    rintro rfl
    cases fuel <;> simp [Complete] at h
  refine Complete_inv P g t fosc fis (fun x => x ≠ [] ∧ SeedMin x) ?_ ?_ ?_
    fuel s level (b, s1, level1) ⟨hne, hmin⟩ h
  · intro x next hx _ _ hlt
    cases x with
    | nil => exact absurd rfl hx.1
    | cons a r =>
      refine ⟨by simp, ?_⟩
      simp only [List.cons_append, List.headD_cons] at hlt
      intro y hy
      rcases List.mem_append.1 hy with hy | hy
      · exact hx.2 y hy
      · simp only [List.mem_singleton] at hy
        omega
  · intro x next hx _ _ hlt
    cases x with
    | nil => exact absurd rfl hx.1
    | cons a r =>
      rw [swapFrontBack_concat]
      refine ⟨by simp, ?_⟩
      simp only [List.cons_append, List.headD_cons] at hlt
      intro y hy
      rcases List.mem_append.1 hy with hy | hy
      · have := hx.2 y hy
        omega
      · simp only [List.mem_singleton] at hy
        omega
  · intro x lv seed x1 lv1 hx hr
    exact seedMin_of_perm_head (hperm _ _ _ _ _ hr) (hfront _ _ _ _ _ hr) hx

theorem Complete_subset_target {Aux : Type} (P : Problem Aux) (hperm : ResortPermutes P)
    (fuel : Nat) (s : List Nat) (level : List Int) (g : Option (List Nat)) (t : List Nat)
    (fosc : Bool) (fis : Int × Nat) (b : Bool) (s1 : List Nat) (level1 : List Int)
    (h : Complete P fuel s level g (some t) fosc fis = .done (b, s1, level1)) :
    ∀ x ∈ s1, x ∈ s ∨ x ∈ t := by
  refine Complete_inv P g (some t) fosc fis (fun y => ∀ x ∈ y, x ∈ s ∨ x ∈ t) ?_ ?_ ?_
    fuel s level (b, s1, level1) (fun x hx => Or.inl hx) h
  · intro y next hy _ htgt _ x hx
    rcases List.mem_append.1 hx with hx | hx
    · exact hy x hx
    · simp only [List.mem_singleton] at hx
      subst hx
      right
      simpa [is_in_target] using htgt
  · intro y next hy _ htgt _ x hx
    have hx1 : x ∈ y ++ [next] := (swapFrontBack_perm _).mem_iff.1 hx
    rcases List.mem_append.1 hx1 with hx | hx
    · exact hy x hx
    · simp only [List.mem_singleton] at hx
      subst hx
      right
      simpa [is_in_target] using htgt
  · intro y lv seed y1 lv1 hy hr x hx
    exact hy x ((hperm _ _ _ _ _ hr).mem_iff.1 hx)

theorem Complete.loop_gate {Aux : Type} (P : Problem Aux) (g : Option (List Nat))
    (t : List Nat) (fosc : Bool) (fis : Int × Nat) (fuel : Nat) (s : List Nat)
    (level : List Int) (aux : Aux) (c : Candidates) (n next : Nat) (lv : Int)
    (c1 : Candidates)
    (hnext : Candidates.Next P g s aux fuel c = .done (some (next, lv), c1))
    (hout : next ∉ t) :
    Complete.loop P g (some t) fosc fis (fuel + 1) s level aux c n
      = .done (.failed s level) := by
  have hns : next ∉ s := ((Next_post P g s aux fuel c _ c1 hnext).1 next lv rfl).1
  have hcond : n ≥ s.length ∨ s[n]? ≠ some next := by
    right
    intro hx
    exact hns (List.getElem?_mem hx)
  rw [Complete.loop]
  simp only [hnext]
  rw [if_pos hcond]
  simp [is_in_target, hout]

/-! ## `GetRoot` -/

theorem GetRoot_log {Aux σ : Type} (P : Problem Aux) (fuel i : Nat)
    (cb : Callback σ CommutableNode) (st st1 : σ) (log log1 : List (CommutableNode × Bool))
    (h : GetRoot P fuel i (record cb) (st, log) = .done (st1, log1)) :
    log1 = log ∨
    ∃ s level, P.IsSeed i none = true ∧
      Complete P fuel [i] [0] none none true (-1, 0) = .done (false, s, level) ∧
      log1 = log ++ [((s, level), (cb st (s, level)).1)] := by
  unfold GetRoot at h
  split at h
  · simp only [Run.done.injEq, Prod.mk.injEq] at h
    exact Or.inl h.2.symm
  · rename_i hseed
    split at h
    · simp at h
    · simp at h
    · simp at h
    · rename_i r root hc
      cases r with
      | true =>
        simp only [Bool.not_true, Bool.false_eq_true, if_false, Run.done.injEq,
          Prod.mk.injEq] at h
        exact Or.inl h.2.symm
      | false =>
        simp only [Bool.not_false, if_true, record, Run.done.injEq, Prod.mk.injEq] at h
        right
        exact ⟨root.1, root.2, by simpa using hseed, hc, h.2.symm⟩

/-! ## The instances -/

theorem resortSpec_perm (s : List Nat) (level : List Int) (seed : Nat) (s1 : List Nat)
    (level1 : List Int) (h : resortSpec s level seed = some (s1, level1)) : s1.Perm s := by
  unfold resortSpec at h
  split at h
  · rename_i s0 st l0 lt
    split at h
    · rename_i hlen
      simp only [Option.some.injEq, Prod.mk.injEq] at h
      obtain ⟨rfl, _⟩ := h
      refine List.Perm.cons _ ?_
      have h1 : ((lt.zip st).insertionSort (fun a b => pairLe a b)).Perm (lt.zip st) :=
        List.perm_insertionSort _ _
      have h2 := h1.map Prod.snd
      rw [List.map_snd_zip _ _ (le_of_eq hlen)] at h2
      exact h2
    · simp only [Option.some.injEq, Prod.mk.injEq] at h
      rw [← h.1]
  · simp only [Option.some.injEq, Prod.mk.injEq] at h
    rw [← h.1]

theorem resortSpec_head (s : List Nat) (level : List Int) (seed : Nat) (s1 : List Nat)
    (level1 : List Int) (h : resortSpec s level seed = some (s1, level1)) :
    s1.head? = s.head? := by
  unfold resortSpec at h
  split at h
  · split at h
    · simp only [Option.some.injEq, Prod.mk.injEq] at h
      rw [← h.1]
      simp
    · simp only [Option.some.injEq, Prod.mk.injEq] at h
      rw [← h.1]
  · simp only [Option.some.injEq, Prod.mk.injEq] at h
    rw [← h.1]

theorem isClique_perm (adj : Nat → Nat → Bool) (a b : List Nat) (h : a.Perm b) :
    isClique adj a = isClique adj b := by
  rw [Bool.eq_iff_iff]
  simp only [isClique, List.all_eq_true]
  constructor
  · intro hx u hu v hv
    exact hx u (h.mem_iff.2 hu) v (h.mem_iff.2 hv)
  · intro hx u hu v hv
    exact hx u (h.mem_iff.1 hu) v (h.mem_iff.1 hv)

theorem cliqueProblem_resortPermutes (N : Nat) (adj : Nat → Nat → Bool) :
    ResortPermutes (cliqueProblem N adj) := by
  intro s level seed s1 level1 h
  exact resortSpec_perm s level seed s1 level1 h

theorem cliqueProblem_resortKeepsFront (N : Nat) (adj : Nat → Nat → Bool) :
    ResortKeepsFront (cliqueProblem N adj) := by
  intro s level seed s1 level1 h
  exact resortSpec_head s level seed s1 level1 h

theorem K3_accessible (s : List Nat) (hs : ∀ x ∈ s, x < 3) (X : List Nat) (aux : Int)
    (hX : ∀ x ∈ X, x ∈ s) (hy : ∃ y ∈ s, y ∉ X) :
    ∃ v, v ∈ s ∧ v ∉ X ∧ v < K3.graph_size ∧ K3.CanAdd X aux v = true := by
  obtain ⟨y, hy1, hy2⟩ := hy
  have hlt : ∀ x ∈ X ++ [y], x < 3 := by
    intro x hx
    rcases List.mem_append.1 hx with hx | hx
    · exact hs x (hX x hx)
    · simp only [List.mem_singleton] at hx
      subst hx
      exact hs x hy1
  refine ⟨y, hy1, hy2, hs y hy1, ?_⟩
  show isClique adjK3 (X ++ [y]) = true
  simp only [isClique, List.all_eq_true]
  intro u hu v hv
  have h1 := hlt u hu
  have h2 := hlt v hv
  by_cases huv : u = v
  · simp [huv]
  · simp [adjK3, huv, h1, h2]

theorem Complete_of_loop_failed {Aux : Type} (P : Problem Aux) (g t : Option (List Nat))
    (fosc : Bool) (fis : Int × Nat) (fuel : Nat) (s0 : Nat) (rest : List Nat)
    (level : List Int) (s1 : List Nat) (level1 : List Int)
    (h : Complete.loop P g t fosc fis fuel (s0 :: rest) level (P.InitAux (s0 :: rest))
      (Candidates.Add P g Candidates.empty s0 0) 1 = .done (.failed s1 level1)) :
    Complete P (fuel + 1) (s0 :: rest) level g t fosc fis = .done (false, s1, level1) := by
  rw [Complete.eq_def]
  simp only [h]

/-! ## More fuel does not change a result -/

theorem Candidates.Next_fuel_succ {Aux : Type} (P : Problem Aux) (g : Option (List Nat))
    (s : List Nat) (aux : Aux) : ∀ (fuel : Nat) (c : Candidates)
    (r : Option (Nat × Int) × Candidates),
    Candidates.Next P g s aux fuel c = .done r →
    Candidates.Next P g s aux (fuel + 1) c = .done r := by
  intro fuel
  induction fuel with
  | zero => intro c r h; simp [Candidates.Next] at h
  | succ k ih =>
    intro c r h
    rw [Candidates.Next] at h ⊢
    split
    · rename_i hn
      simpa [hn] using h
    · rename_i p hp
      simp only [hp] at h
      split
      · rename_i hadd
        simpa [hadd] using h
      · rename_i hadd
        simp only [hadd] at h
        exact ih _ _ h

theorem Complete.loop_fuel_succ {Aux : Type} (P : Problem Aux) (g t : Option (List Nat))
    (fosc : Bool) (fis : Int × Nat) :
    ∀ (fuel : Nat) (s : List Nat) (level : List Int) (aux : Aux) (c : Candidates) (n : Nat)
      (e : PassExit),
      Complete.loop P g t fosc fis fuel s level aux c n = .done e →
      Complete.loop P g t fosc fis (fuel + 1) s level aux c n = .done e := by
  intro fuel
  induction fuel with
  | zero => intro s level aux c n e h; simp [Complete.loop] at h
  | succ k ih =>
    intro s level aux c n e h
    rw [Complete.loop] at h ⊢
    split at h
    · simp at h
    · simp at h
    · simp at h
    · rename_i c1 hnext
      rw [Candidates.Next_fuel_succ P g s aux k c _ hnext]
      simpa using h
    · rename_i next next_lvl c1 hnext
      rw [Candidates.Next_fuel_succ P g s aux k c _ hnext]
      simp only []
      split at h
      · rename_i hcond
        rw [if_pos hcond]
        split at h
        · rename_i h1
          rw [if_pos h1]
          exact h
        · rename_i h1
          rw [if_neg h1]
          split at h
          · rename_i h2
            rw [if_pos h2]
            exact h
          · rename_i h2
            rw [if_neg h2]
            simp only [] at h ⊢
            by_cases hsc : next < (s ++ [next]).headD next
            · rw [if_pos hsc] at h ⊢
              exact h
            · rw [if_neg hsc] at h ⊢
              exact ih _ _ _ _ _ _ h
      · rename_i hcond
        rw [if_neg hcond]
        exact ih _ _ _ _ _ _ h

theorem Complete_fuel_succ {Aux : Type} (P : Problem Aux) (g t : Option (List Nat))
    (fosc : Bool) (fis : Int × Nat) :
    ∀ (fuel : Nat) (s : List Nat) (level : List Int) (r : Bool × List Nat × List Int),
      Complete P fuel s level g t fosc fis = .done r →
      Complete P (fuel + 1) s level g t fosc fis = .done r := by
  intro fuel
  induction fuel with
  | zero => intro s level r h; simp [Complete] at h
  | succ k ih =>
    intro s level r h
    rw [Complete.eq_def] at h ⊢
    simp only [] at h ⊢
    cases s with
    | nil => simp at h
    | cons s0 rest =>
      simp only [] at h ⊢
      split at h
      · simp at h
      · simp at h
      · simp at h
      · rename_i s1 level1 hl
        rw [Complete.loop_fuel_succ P g t fosc fis k _ _ _ _ _ _ hl]
        simpa using h
      · rename_i s1 level1 hl
        rw [Complete.loop_fuel_succ P g t fosc fis k _ _ _ _ _ _ hl]
        simpa using h
      · rename_i s1 level1 hl
        rw [Complete.loop_fuel_succ P g t fosc fis k _ _ _ _ _ _ hl]
        split at h
        · simp at h
        · split at h
          · simp at h
          · rename_i s2 level2 hr
            simp only [hr]
            exact ih _ _ _ h

theorem Complete_fuel_mono {Aux : Type} (P : Problem Aux) (g t : Option (List Nat))
    (fosc : Bool) (fis : Int × Nat) (fuel k : Nat) (s : List Nat) (level : List Int)
    (r : Bool × List Nat × List Int)
    (h : Complete P fuel s level g t fosc fis = .done r) :
    Complete P (fuel + k) s level g t fosc fis = .done r := by
  induction k with
  | zero => exact h
  | succ j ih => exact Complete_fuel_succ P g t fosc fis _ _ _ _ ih

theorem GetRoot_fuel_mono {Aux σ : Type} (P : Problem Aux) (fuel k i : Nat)
    (cb : Callback σ CommutableNode) (st st1 : σ)
    (h : GetRoot P fuel i cb st = .done st1) : GetRoot P (fuel + k) i cb st = .done st1 := by
  unfold GetRoot at h ⊢
  split at h
  · rename_i hs
    rw [if_pos hs]
    exact h
  · rename_i hs
    rw [if_neg hs]
    split at h
    · simp at h
    · simp at h
    · simp at h
    · rename_i r root hc
      rw [Complete_fuel_mono P none none true (-1, 0) fuel k _ _ _ hc]
      exact h

theorem Children.onSeed_fuel_mono {Aux σ : Type} (P : Problem Aux) (fuel k : Nat)
    (s : List Nat) (level : List Int) (cb : Callback σ CommutableNode) (cand : Nat)
    (sol : List Nat) (st : Bool × σ) (seed : Nat) (r : Bool × Bool × σ)
    (h : Children.onSeed P fuel s level cb cand sol st seed = .done r) :
    Children.onSeed P (fuel + k) s level cb cand sol st seed = .done r := by
  unfold Children.onSeed at h ⊢
  split at h
  · simp at h
  · rename_i core clvl hgp
    split at h
    · simp at h
    · rename_i c0 h1
      dsimp only at h
      by_cases hseed : seed ≠ List.foldl (fun m n => if n < m then n else m) c0 core
      · rw [if_pos hseed] at h ⊢
        exact h
      · rw [if_neg hseed] at h ⊢
        split at h
        · rename_i lvl_back child_back h2 h3
          split at h
          · simp at h
          · simp at h
          · simp at h
          · rename_i q1 q2 hc1
            rw [Complete_fuel_mono P none none true _ fuel k _ _ _ hc1]
            exact h
          · rename_i child lvl hc1
            rw [Complete_fuel_mono P none none true _ fuel k _ _ _ hc1]
            simp only []
            split at h
            · simp at h
            · exact h
            · split at h
              · simp at h
              · simp at h
              · simp at h
              · rename_i q1 q2 hc2
                rw [Complete_fuel_mono P none (some s) false _ fuel k _ _ _ hc2]
                exact h
              · rename_i p q2 hc2
                rw [Complete_fuel_mono P none (some s) false _ fuel k _ _ _ hc2]
                simp only []
                split at h
                · rename_i hm
                  rw [if_pos hm]
                  split at h
                  · simp at h
                  · simp at h
                  · simp at h
                  · rename_i q3 q4 hc3
                    rw [Complete_fuel_mono P _ (some sol) false _ fuel k _ _ _ hc3]
                    exact h
                  · rename_i q3 q4 hc3
                    rw [Complete_fuel_mono P _ (some sol) false _ fuel k _ _ _ hc3]
                    exact h
                · rename_i hm
                  rw [if_neg hm]
                  exact h
        · simp at h

theorem ValidSeeds.seeds_loop_congr {Aux τ : Type} (P : Problem Aux) (sol : List Nat) (cand : Nat)
    (f f1 : RunCallback τ Nat) (hf : ∀ st a r, f st a = .done r → f1 st a = .done r) :
    ∀ (rest : List Nat) (st st1 : τ), ValidSeeds.loop P sol cand f rest st = .done st1 →
      ValidSeeds.loop P sol cand f1 rest st = .done st1 := by
  intro rest
  induction rest with
  | nil => intro st st1 h; simpa [ValidSeeds.loop] using h
  | cons seed rest ih =>
    intro st st1 h
    simp only [ValidSeeds.loop] at h ⊢
    split at h
    · rename_i h1
      rw [if_pos h1]
      exact ih _ _ h
    · rename_i h1
      rw [if_neg h1]
      split at h
      · rename_i h2
        rw [if_pos h2]
        exact ih _ _ h
      · rename_i h2
        rw [if_neg h2]
        split at h
        · simp at h
        · simp at h
        · simp at h
        · rename_i st2 hc
          rw [hf _ _ _ hc]
          exact ih _ _ h
        · rename_i st2 hc
          rw [hf _ _ _ hc]
          exact h

theorem RestrictedProblem.run_congr {τ : Type} (f f1 : RunCallback τ (List Nat))
    (hf : ∀ st a r, f st a = .done r → f1 st a = .done r) :
    ∀ (rest : List (List Nat)) (st st1 : τ), RestrictedProblem.run f rest st = .done st1 →
      RestrictedProblem.run f1 rest st = .done st1 := by
  intro rest
  induction rest with
  | nil => intro st st1 h; simpa [RestrictedProblem.run] using h
  | cons sol rest ih =>
    intro st st1 h
    simp only [RestrictedProblem.run] at h ⊢
    split at h
    · simp at h
    · simp at h
    · simp at h
    · rename_i st2 hc
      rw [hf _ _ _ hc]
      exact ih _ _ h
    · rename_i st2 hc
      rw [hf _ _ _ hc]
      exact h

theorem RestrictedCands.cands_loop_congr {τ : Type} (s : List Nat) (f f1 : RunCallback τ Nat)
    (hf : ∀ st a r, f st a = .done r → f1 st a = .done r) :
    ∀ (rest : List Nat) (st st1 : τ), RestrictedCands.loop s f rest st = .done st1 →
      RestrictedCands.loop s f1 rest st = .done st1 := by
  intro rest
  induction rest with
  | nil => intro st st1 h; simpa [RestrictedCands.loop] using h
  | cons i rest ih =>
    intro st st1 h
    simp only [RestrictedCands.loop] at h ⊢
    split at h
    · rename_i h1
      rw [if_pos h1]
      exact ih _ _ h
    · rename_i h1
      rw [if_neg h1]
      split at h
      · simp at h
      · simp at h
      · simp at h
      · rename_i st2 hc
        rw [hf _ _ _ hc]
        exact ih _ _ h
      · rename_i st2 hc
        rw [hf _ _ _ hc]
        exact h

theorem Children_fuel_mono {Aux σ : Type} (P : Problem Aux) (fuel k : Nat) (s : List Nat)
    (level : List Int) (cb : Callback σ CommutableNode) (st : σ) (r : Bool × σ)
    (h : Children P fuel s level cb st = .done r) :
    Children P (fuel + k) s level cb st = .done r := by
  unfold Children RestrictedCands at h ⊢
  refine RestrictedCands.cands_loop_congr s _ _ ?_ _ _ _ h
  intro st1 cand r1 h1
  unfold Children.onCand at h1 ⊢
  split at h1
  · simp at h1
  · simp at h1
  · simp at h1
  · rename_i st2 hrun
    have : RestrictedProblem.run (Children.onSol P (fuel + k) s level cb cand)
        (P.RestrictedProblem s cand) st1 = .done st2 := by
      refine RestrictedProblem.run_congr _ _ ?_ _ _ _ hrun
      intro st3 sol r3 h3
      unfold Children.onSol at h3 ⊢
      split at h3
      · simp at h3
      · simp at h3
      · simp at h3
      · rename_i st4 hv
        have : ValidSeeds P sol cand (Children.onSeed P (fuel + k) s level cb cand sol) st3
            = .done st4 := by
          unfold ValidSeeds at hv ⊢
          exact ValidSeeds.seeds_loop_congr P sol cand _ _
            (fun a b c d => Children.onSeed_fuel_mono P fuel k s level cb cand sol a b c d)
            _ _ _ hv
        rw [this]
        exact h3
    rw [this]
    exact h1

theorem ListChildren_fuel_mono {Aux σ : Type} (P : Problem Aux) (fuel k : Nat)
    (node : CommutableNode) (cb : Callback σ CommutableNode) (st st1 : σ)
    (h : ListChildren P fuel node cb st = .done st1) :
    ListChildren P (fuel + k) node cb st = .done st1 := by
  unfold ListChildren at h ⊢
  split at h
  · simp at h
  · simp at h
  · simp at h
  · rename_i r hc
    rw [Children_fuel_mono P fuel k _ _ _ _ _ hc]
    exact h

/-! ## One iteration of the inner loop -/

theorem Candidates.Next_result {Aux : Type} (P : Problem Aux) (g : Option (List Nat))
    (s : List Nat) (aux : Aux) : ∀ (fuel : Nat) (c : Candidates),
    Candidates.Next P g s aux fuel c = .outOfFuel ∨
      ∃ r, Candidates.Next P g s aux fuel c = .done r := by
  intro fuel
  induction fuel with
  | zero => intro c; left; rfl
  | succ k ih =>
    intro c
    rw [Candidates.Next]
    split
    · exact Or.inr ⟨_, rfl⟩
    · split
      · exact Or.inr ⟨_, rfl⟩
      · exact ih _

theorem Complete.loop_succ_of_Next {Aux : Type} (P : Problem Aux) (g t : Option (List Nat))
    (fosc : Bool) (fis : Int × Nat) (fuel : Nat) (s : List Nat) (level : List Int)
    (aux : Aux) (c : Candidates) (n next : Nat) (lv : Int) (c1 : Candidates)
    (hnext : Candidates.Next P g s aux fuel c = .done (some (next, lv), c1)) :
    Complete.loop P g t fosc fis (fuel + 1) s level aux c n =
      match Complete.onInsert P t fosc fis s level aux next lv with
      | .inl e => .done e
      | .inr (s1, level1, aux1) =>
        Complete.loop P g t fosc fis fuel s1 level1 aux1 (Candidates.Add P g c1 next lv) n := by
  have hns : next ∉ s := ((Next_post P g s aux fuel c _ c1 hnext).1 next lv rfl).1
  have hcond : n ≥ s.length ∨ s[n]? ≠ some next := by
    right
    intro hx
    exact hns (List.getElem?_mem hx)
  rw [Complete.loop]
  simp only [hnext]
  rw [if_pos hcond]
  unfold Complete.onInsert
  by_cases h1 : (!is_in_target t next) = true
  · rw [if_pos h1, if_pos h1]
  · rw [if_neg h1, if_neg h1]
    by_cases h2 : pairLt (lv, next) fis
    · rw [if_pos h2, if_pos h2]
    · rw [if_neg h2, if_neg h2]
      by_cases h3 : next < (s ++ [next]).headD next
      · rw [if_pos h3, if_pos h3]
        by_cases h4 : (fosc || fis.1 != -1) = true
        · rw [if_pos h4, if_pos h4]
        · rw [if_neg h4, if_neg h4]
      · rw [if_neg h3, if_neg h3]

theorem Complete.loop_succ_of_Next_none {Aux : Type} (P : Problem Aux)
    (g t : Option (List Nat)) (fosc : Bool) (fis : Int × Nat) (fuel : Nat) (s : List Nat)
    (level : List Int) (aux : Aux) (c : Candidates) (n : Nat) (c1 : Candidates)
    (hnext : Candidates.Next P g s aux fuel c = .done (none, c1)) :
    Complete.loop P g t fosc fis (fuel + 1) s level aux c n = .done (.finished s level) := by
  rw [Complete.loop]
  simp only [hnext]

theorem Complete.loop_result {Aux : Type} (P : Problem Aux) (g t : Option (List Nat))
    (fosc : Bool) (fis : Int × Nat) : ∀ (fuel : Nat) (s : List Nat) (level : List Int)
    (aux : Aux) (c : Candidates) (n : Nat),
    Complete.loop P g t fosc fis fuel s level aux c n = .outOfFuel ∨
      ∃ e, Complete.loop P g t fosc fis fuel s level aux c n = .done e := by
  intro fuel
  induction fuel with
  | zero => intro s level aux c n; left; rfl
  | succ k ih =>
    intro s level aux c n
    rcases Candidates.Next_result P g s aux k c with h | ⟨⟨r, c1⟩, h⟩
    · left
      rw [Complete.loop]
      simp only [h]
    · cases r with
      | none => exact Or.inr ⟨_, Complete.loop_succ_of_Next_none P g t fosc fis k s level aux c n c1 h⟩
      | some x =>
        obtain ⟨next, lv⟩ := x
        rw [Complete.loop_succ_of_Next P g t fosc fis k s level aux c n next lv c1 h]
        cases Complete.onInsert P t fosc fis s level aux next lv with
        | inl e => exact Or.inr ⟨e, rfl⟩
        | inr x => exact ih _ _ _ _ _

/-! ## Termination -/

theorem Default.CompleteCandNum_some {N : Nat} {g : Option (List Nat)} {o i idx n : Nat}
    (h : Default.CompleteCandNum N g o i idx = some n) :
    idx < Default.streamLength N g ∧ n ∈ Default.candValues N g := by
  unfold Default.CompleteCandNum at h
  cases g with
  | none =>
    simp only at h
    split at h
    · rename_i hlt
      simp only [Option.some.injEq] at h
      subst h
      exact ⟨hlt, by simpa [Default.candValues] using hlt⟩
    · simp at h
  | some l =>
    simp only at h
    split at h
    · rename_i hlt
      exact ⟨hlt, List.getElem?_mem h⟩
    · simp at h

theorem unread_set (L : Nat) : ∀ (l : List IterInfo) (i : Nat) (inf : IterInfo),
    l[i]? = some inf → inf.idx ≤ L →
    ((l.set i { inf with idx := inf.idx + 1 }).map (fun x => L + 1 - x.idx)).sum + 1
      = (l.map (fun x => L + 1 - x.idx)).sum := by
  intro l
  induction l with
  | nil => intro i inf h; simp at h
  | cons a l ih =>
    intro i inf h hle
    cases i with
    | zero =>
      simp only [List.getElem?_cons_zero, Option.some.injEq] at h
      subst h
      simp only [List.set_cons_zero, List.map_cons, List.sum_cons]
      omega
    | succ j =>
      simp only [List.getElem?_cons_succ] at h
      have := ih j inf h hle
      simp only [List.set_cons_succ, List.map_cons, List.sum_cons]
      omega

theorem Candidates.pop_unread {Aux : Type} (P : Problem Aux)
    (hccn : P.CompleteCandNum = Default.CompleteCandNum P.graph_size)
    (g : Option (List Nat)) (c : Candidates) (p : CandIter)
    (hc : Candidates.Consistent P g c) (hp : p ∈ c.pq) :
    Candidates.unread (Default.streamLength P.graph_size g)
        (Candidates.InsertInPQ P g { c with pq := c.pq.erase p } p.iter) + 1
      = Candidates.unread (Default.streamLength P.graph_size g) c := by
  obtain ⟨inf, p1, p2, p3, _, heq⟩ := Candidates.pop_eq P g c p hc hp
  rw [hccn] at p3
  obtain ⟨p5, _⟩ := Default.CompleteCandNum_some p3
  rw [heq]
  unfold Candidates.unread
  simp only
  exact unread_set _ c.info p.iter inf p1 (by omega)

theorem Candidates.Next_terminates {Aux : Type} (P : Problem Aux)
    (hccn : P.CompleteCandNum = Default.CompleteCandNum P.graph_size)
    (g : Option (List Nat)) (s : List Nat) (aux : Aux) :
    ∀ (k : Nat) (c : Candidates), Candidates.Consistent P g c →
      Candidates.unread (Default.streamLength P.graph_size g) c < k →
      ∃ r, Candidates.Next P g s aux k c = .done r := by
  intro k
  induction k with
  | zero => intro c _ h; omega
  | succ k ih =>
    intro c hc hlt
    rw [Candidates.Next]
    split
    · exact ⟨_, rfl⟩
    · rename_i p hp
      have hpm := pqTop_mem hp
      split
      · exact ⟨_, rfl⟩
      · have h1 := Candidates.pop_unread P hccn g c p hc hpm
        exact ih _ (Candidates.pop_consistent P g c p hc hpm) (by omega)

theorem Candidates.Next_mem_values {Aux : Type} (P : Problem Aux)
    (hccn : P.CompleteCandNum = Default.CompleteCandNum P.graph_size)
    (g : Option (List Nat)) (s : List Nat) (aux : Aux) :
    ∀ (fuel : Nat) (c c1 : Candidates) (n : Nat) (lv : Int),
      Candidates.Consistent P g c →
      Candidates.Next P g s aux fuel c = .done (some (n, lv), c1) →
      n ∈ Default.candValues P.graph_size g := by
  intro fuel
  induction fuel with
  | zero => intro c c1 n lv _ h; simp [Candidates.Next] at h
  | succ k ih =>
    intro c c1 n lv hc h
    rw [Candidates.Next] at h
    split at h
    · simp at h
    · rename_i p hp
      have hpm := pqTop_mem hp
      split at h
      · simp only [Run.done.injEq, Prod.mk.injEq, Option.some.injEq] at h
        obtain ⟨⟨rfl, _⟩, _⟩ := h
        obtain ⟨inf, _, _, h3, _⟩ := hc.1 p hpm
        rw [hccn] at h3
        exact (Default.CompleteCandNum_some h3).2
      · exact ih _ _ _ _ (Candidates.pop_consistent P g c p hc hpm) h

theorem Candidates.Next_fuel_mono {Aux : Type} (P : Problem Aux) (g : Option (List Nat))
    (s : List Nat) (aux : Aux) (fuel k : Nat) (c : Candidates)
    (r : Option (Nat × Int) × Candidates)
    (h : Candidates.Next P g s aux fuel c = .done r) :
    Candidates.Next P g s aux (fuel + k) c = .done r := by
  induction k with
  | zero => exact h
  | succ j ih => exact Candidates.Next_fuel_succ P g s aux _ _ _ ih

theorem Complete.loop_fuel_mono {Aux : Type} (P : Problem Aux) (g t : Option (List Nat))
    (fosc : Bool) (fis : Int × Nat) (fuel k : Nat) (s : List Nat) (level : List Int)
    (aux : Aux) (c : Candidates) (n : Nat) (e : PassExit)
    (h : Complete.loop P g t fosc fis fuel s level aux c n = .done e) :
    Complete.loop P g t fosc fis (fuel + k) s level aux c n = .done e := by
  induction k with
  | zero => exact h
  | succ j ih => exact Complete.loop_fuel_succ P g t fosc fis _ _ _ _ _ _ _ ih

theorem notYetIn_append_lt (values s : List Nat) (x : Nat) (hx : x ∈ values) (hs : x ∉ s) :
    notYetIn values (s ++ [x]) < notYetIn values s := by
  unfold notYetIn
  have h1 : values.filter (fun y => decide (y ∉ s ++ [x]))
      = (values.filter (fun y => decide (y ∉ s))).filter (fun y => decide (y ≠ x)) := by
    rw [List.filter_filter]
    congr 1
    funext y
    simp only [List.mem_append, List.mem_singleton, not_or, Bool.decide_and, ne_eq]
    rw [Bool.and_comm]
  rw [h1]
  apply List.length_filter_lt_length_iff_exists.2
  exact ⟨x, List.mem_filter.2 ⟨hx, by simpa using hs⟩, by simp⟩

theorem Complete.onInsert_inr {Aux : Type} (P : Problem Aux) (t : Option (List Nat))
    (fosc : Bool) (fis : Int × Nat) (s : List Nat) (level : List Int) (aux : Aux)
    (next : Nat) (lv : Int) (s1 : List Nat) (level1 : List Int) (aux1 : Aux)
    (h : Complete.onInsert P t fosc fis s level aux next lv = .inr (s1, level1, aux1)) :
    s1 = s ++ [next] ∧ level1 = level ++ [lv] ∧ ¬ next < (s ++ [next]).headD next ∧
      is_in_target t next = true := by
  unfold Complete.onInsert at h
  split at h
  · simp at h
  · rename_i h1
    split at h
    · simp at h
    · split at h
      · split at h <;> simp at h
      · rename_i h3
        simp only [Sum.inr.injEq, Prod.mk.injEq] at h
        exact ⟨h.1.symm, h.2.1.symm, h3, by simpa using h1⟩

theorem Complete.loop_terminates {Aux : Type} (P : Problem Aux)
    (hccn : P.CompleteCandNum = Default.CompleteCandNum P.graph_size)
    (g t : Option (List Nat)) (fosc : Bool) (fis : Int × Nat) :
    ∀ (m : Nat) (s : List Nat) (level : List Int) (aux : Aux) (c : Candidates) (n : Nat),
      Candidates.Consistent P g c →
      notYetIn (Default.candValues P.graph_size g) s ≤ m →
      ∃ fuel e, Complete.loop P g t fosc fis fuel s level aux c n = .done e := by
  intro m
  induction m with
  | zero =>
    intro s level aux c n hc hm
    have hU : ∃ k r, Candidates.Next P g s aux k c = .done r :=
      ⟨_, Candidates.Next_terminates P hccn g s aux _ c hc (Nat.lt_succ_self _)⟩
    obtain ⟨k0, ⟨r, c1⟩, hn⟩ := hU
    cases r with
    | none =>
      exact ⟨k0 + 1, _, Complete.loop_succ_of_Next_none P g t fosc fis _ s level aux c n c1 hn⟩
    | some x =>
      obtain ⟨next, lv⟩ := x
      have hns : next ∉ s := ((Next_post P g s aux _ c _ c1 hn).1 next lv rfl).1
      have hv := Candidates.Next_mem_values P hccn g s aux _ c c1 next lv hc hn
      have := notYetIn_append_lt _ s next hv hns
      omega
  | succ m ih =>
    intro s level aux c n hc hm
    have hU : ∃ k r, Candidates.Next P g s aux k c = .done r :=
      ⟨_, Candidates.Next_terminates P hccn g s aux _ c hc (Nat.lt_succ_self _)⟩
    obtain ⟨k0, ⟨r, c1⟩, hn⟩ := hU
    cases r with
    | none =>
      exact ⟨k0 + 1, _, Complete.loop_succ_of_Next_none P g t fosc fis _ s level aux c n c1 hn⟩
    | some x =>
      obtain ⟨next, lv⟩ := x
      have hns : next ∉ s := ((Next_post P g s aux _ c _ c1 hn).1 next lv rfl).1
      have hv := Candidates.Next_mem_values P hccn g s aux _ c c1 next lv hc hn
      have hlt := notYetIn_append_lt _ s next hv hns
      have hc1 := Candidates.Next_consistent P g s aux _ c _ c1 hc hn
      cases hins : Complete.onInsert P t fosc fis s level aux next lv with
      | inl e =>
        refine ⟨k0 + 1, e, ?_⟩
        rw [Complete.loop_succ_of_Next P g t fosc fis _ s level aux c n next lv c1 hn, hins]
      | inr x =>
        obtain ⟨s1, level1, aux1⟩ := x
        obtain ⟨rfl, _, _, _⟩ :=
          Complete.onInsert_inr P t fosc fis s level aux next lv s1 level1 aux1 hins
        obtain ⟨f1, e, he⟩ := ih (s ++ [next]) level1 aux1 (Candidates.Add P g c1 next lv) n
          (Candidates.Add_consistent P g c1 next lv hc1) (by omega)
        refine ⟨k0 + f1 + 1, e, ?_⟩
        have hn1 := Candidates.Next_fuel_mono P g s aux k0 f1 c _ hn
        rw [Complete.loop_succ_of_Next P g t fosc fis _ s level aux c n next lv c1 hn1, hins]
        simp only
        have he1 := Complete.loop_fuel_mono P g t fosc fis f1 k0 _ _ _ _ _ _ he
        rw [Nat.add_comm f1] at he1
        exact he1

theorem Complete_succ_cons {Aux : Type} (P : Problem Aux) (fuel : Nat) (s0 : Nat)
    (rest : List Nat) (level : List Int) (g t : Option (List Nat)) (fosc : Bool)
    (fis : Int × Nat) :
    Complete P (fuel + 1) (s0 :: rest) level g t fosc fis =
      Complete.afterPass P (fun s2 level2 => Complete P fuel s2 level2 g t fosc fis)
        (Complete.loop P g t fosc fis fuel (s0 :: rest) level (P.InitAux (s0 :: rest))
          (Candidates.Add P g Candidates.empty s0 0) 1) := by
  rw [Complete.eq_def]
  simp only []
  unfold Complete.afterPass
  rfl

theorem Complete.onInsert_seedChange {Aux : Type} (P : Problem Aux) (t : Option (List Nat))
    (fosc : Bool) (fis : Int × Nat) (s : List Nat) (level : List Int) (aux : Aux)
    (next : Nat) (lv : Int) (s1 : List Nat) (level1 : List Int)
    (h : Complete.onInsert P t fosc fis s level aux next lv = .inl (.seedChange s1 level1)) :
    s1 = swapFrontBack (s ++ [next]) ∧ level1 = level ++ [lv] ∧
      next < (s ++ [next]).headD next ∧ (fosc || fis.1 != -1) = false := by
  unfold Complete.onInsert at h
  split at h
  · simp at h
  · split at h
    · simp at h
    · split at h
      · rename_i h3
        split at h
        · simp at h
        · rename_i h4
          simp only [Sum.inl.injEq, PassExit.seedChange.injEq] at h
          exact ⟨h.1.symm, h.2.symm, h3, by simpa using h4⟩
      · simp at h

theorem Complete.loop_seedChange_head {Aux : Type} (P : Problem Aux)
    (g t : Option (List Nat)) (fosc : Bool) (fis : Int × Nat) :
    ∀ (fuel : Nat) (s0 : Nat) (rest : List Nat) (level : List Int) (aux : Aux)
      (c : Candidates) (n : Nat) (s1 : List Nat) (level1 : List Int),
      Complete.loop P g t fosc fis fuel (s0 :: rest) level aux c n
        = .done (.seedChange s1 level1) →
      (fosc || fis.1 != -1) = false ∧ ∃ x r, s1 = x :: r ∧ x < s0 := by
  intro fuel
  induction fuel with
  | zero => intro s0 rest level aux c n s1 level1 h; simp [Complete.loop] at h
  | succ k ih =>
    intro s0 rest level aux c n s1 level1 h
    rcases Candidates.Next_result P g (s0 :: rest) aux k c with hn | ⟨⟨r, c1⟩, hn⟩
    · rw [Complete.loop] at h
      simp [hn] at h
    · cases r with
      | none =>
        rw [Complete.loop_succ_of_Next_none P g t fosc fis k _ level aux c n c1 hn] at h
        simp at h
      | some x =>
        obtain ⟨next, lv⟩ := x
        rw [Complete.loop_succ_of_Next P g t fosc fis k _ level aux c n next lv c1 hn] at h
        cases hins : Complete.onInsert P t fosc fis (s0 :: rest) level aux next lv with
        | inl e =>
          rw [hins] at h
          simp only [Run.done.injEq] at h
          subst h
          obtain ⟨h1, _, h3, h4⟩ :=
            Complete.onInsert_seedChange P t fosc fis _ level aux next lv s1 level1 hins
          refine ⟨h4, next, rest ++ [s0], ?_, ?_⟩
          · rw [h1, swapFrontBack_concat]
          · simpa using h3
        | inr x =>
          obtain ⟨s2, level2, aux2⟩ := x
          rw [hins] at h
          simp only at h
          obtain ⟨rfl, _, _, _⟩ :=
            Complete.onInsert_inr P t fosc fis _ level aux next lv s2 level2 aux2 hins
          exact ih s0 (rest ++ [next]) _ _ _ _ _ _ h

theorem Complete.loop_nonempty {Aux : Type} (P : Problem Aux) (g t : Option (List Nat))
    (fosc : Bool) (fis : Int × Nat) (fuel : Nat) (s : List Nat) (level : List Int)
    (aux : Aux) (c : Candidates) (n : Nat) (e : PassExit) (hs : s ≠ [])
    (h : Complete.loop P g t fosc fis fuel s level aux c n = .done e) : e.s ≠ [] := by
  refine Complete.loop_inv P g t fosc fis (fun x => x ≠ []) ?_ ?_ fuel s level aux c n e hs h
  · intro x next _ _ _ _
    simp
  · intro x next _ _ _ _ hx
    have := (swapFrontBack_perm (x ++ [next])).length_eq
    rw [hx] at this
    simp at this

theorem Complete_fuel_succ_any {Aux : Type} (P : Problem Aux) (g t : Option (List Nat))
    (fosc : Bool) (fis : Int × Nat) :
    ∀ (fuel : Nat) (s : List Nat) (level : List Int),
      Complete P fuel s level g t fosc fis ≠ .outOfFuel →
      Complete P (fuel + 1) s level g t fosc fis = Complete P fuel s level g t fosc fis := by
  intro fuel
  induction fuel with
  | zero => intro s level h; simp [Complete] at h
  | succ k ih =>
    intro s level h
    cases s with
    | nil => simp [Complete]
    | cons s0 rest =>
      rw [Complete_succ_cons] at h ⊢
      rw [Complete_succ_cons P k]
      rcases Complete.loop_result P g t fosc fis k (s0 :: rest) level (P.InitAux (s0 :: rest))
        (Candidates.Add P g Candidates.empty s0 0) 1 with hl | ⟨e, hl⟩
      · rw [hl] at h
        simp [Complete.afterPass] at h
      · rw [Complete.loop_fuel_succ P g t fosc fis k _ _ _ _ _ _ hl]
        rw [hl] at h ⊢
        cases e with
        | finished s1 level1 => rfl
        | failed s1 level1 => rfl
        | seedChange s1 level1 =>
          cases s1 with
          | nil => rfl
          | cons f r =>
            simp only [Complete.afterPass] at h ⊢
            cases hr : P.Resort (f :: r) level1 f with
            | none => rfl
            | some x =>
              obtain ⟨s2, level2⟩ := x
              rw [hr] at h
              simp only at h ⊢
              exact ih s2 level2 h

theorem Complete_fuel_mono_any {Aux : Type} (P : Problem Aux) (g t : Option (List Nat))
    (fosc : Bool) (fis : Int × Nat) (fuel k : Nat) (s : List Nat) (level : List Int)
    (h : Complete P fuel s level g t fosc fis ≠ .outOfFuel) :
    Complete P (fuel + k) s level g t fosc fis = Complete P fuel s level g t fosc fis := by
  induction k with
  | zero => rfl
  | succ j ih =>
    have h1 : Complete P (fuel + j) s level g t fosc fis ≠ .outOfFuel := by rw [ih]; exact h
    rw [← ih]
    exact Complete_fuel_succ_any P g t fosc fis (fuel + j) s level h1

theorem Complete_terminates {Aux : Type} (P : Problem Aux)
    (hccn : P.CompleteCandNum = Default.CompleteCandNum P.graph_size)
    (hfront : ResortKeepsFront P) (g t : Option (List Nat)) (fosc : Bool) (fis : Int × Nat) :
    ∀ (m s0 : Nat) (rest : List Nat) (level : List Int), s0 ≤ m →
      ∃ fuel, (∃ r, Complete P fuel (s0 :: rest) level g t fosc fis = .done r) ∨
        (Complete P fuel (s0 :: rest) level g t fosc fis = .thrown ∧
          ∃ a b c, P.Resort a b c = none) := by
  intro m
  induction m with
  | zero =>
    intro s0 rest level hm
    obtain ⟨f1, e, hl⟩ := Complete.loop_terminates P hccn g t fosc fis _ (s0 :: rest) level
      (P.InitAux (s0 :: rest)) (Candidates.Add P g Candidates.empty s0 0) 1
      (Candidates.Add_consistent P g _ s0 0 (Candidates.consistent_empty P g)) (le_refl _)
    have hne := Complete.loop_nonempty P g t fosc fis f1 _ _ _ _ _ e (by simp) hl
    refine ⟨f1 + 1, ?_⟩
    rw [Complete_succ_cons, hl]
    cases e with
    | failed s1 level1 => exact Or.inl ⟨_, rfl⟩
    | finished s1 level1 =>
      cases s1 with
      | nil => simp [PassExit.s] at hne
      | cons f r =>
        simp only [Complete.afterPass]
        cases hr : P.Resort (f :: r) level1 f with
        | none => exact Or.inr ⟨rfl, _, _, _, hr⟩
        | some x => exact Or.inl ⟨_, rfl⟩
    | seedChange s1 level1 =>
      obtain ⟨_, x, r, _, hx⟩ :=
        Complete.loop_seedChange_head P g t fosc fis f1 s0 rest level _ _ _ s1 level1 hl
      omega
  | succ m ih =>
    intro s0 rest level hm
    obtain ⟨f1, e, hl⟩ := Complete.loop_terminates P hccn g t fosc fis _ (s0 :: rest) level
      (P.InitAux (s0 :: rest)) (Candidates.Add P g Candidates.empty s0 0) 1
      (Candidates.Add_consistent P g _ s0 0 (Candidates.consistent_empty P g)) (le_refl _)
    have hne := Complete.loop_nonempty P g t fosc fis f1 _ _ _ _ _ e (by simp) hl
    cases e with
    | failed s1 level1 =>
      refine ⟨f1 + 1, ?_⟩
      rw [Complete_succ_cons, hl]
      exact Or.inl ⟨_, rfl⟩
    | finished s1 level1 =>
      refine ⟨f1 + 1, ?_⟩
      rw [Complete_succ_cons, hl]
      cases s1 with
      | nil => simp [PassExit.s] at hne
      | cons f r =>
        simp only [Complete.afterPass]
        cases hr : P.Resort (f :: r) level1 f with
        | none => exact Or.inr ⟨rfl, _, _, _, hr⟩
        | some x => exact Or.inl ⟨_, rfl⟩
    | seedChange s1 level1 =>
      obtain ⟨_, x, r, hs1, hx⟩ :=
        Complete.loop_seedChange_head P g t fosc fis f1 s0 rest level _ _ _ s1 level1 hl
      subst hs1
      cases hr : P.Resort (x :: r) level1 x with
      | none =>
        refine ⟨f1 + 1, ?_⟩
        rw [Complete_succ_cons, hl]
        simp only [Complete.afterPass, hr]
        exact Or.inr ⟨trivial, _, _, _, hr⟩
      | some y =>
        obtain ⟨s2, level2⟩ := y
        have hh := hfront _ _ _ _ _ hr
        cases s2 with
        | nil => simp at hh
        | cons x2 r2 =>
          simp only [List.head?_cons, Option.some.injEq] at hh
          subst hh
          obtain ⟨f2, h2⟩ := ih x2 r2 level2 (by omega)
          have hno : Complete P f2 (x2 :: r2) level2 g t fosc fis ≠ .outOfFuel := by
            rcases h2 with ⟨r3, h3⟩ | ⟨h3, _⟩ <;> rw [h3] <;> simp
          refine ⟨f2 + f1 + 1, ?_⟩
          rw [Complete_succ_cons]
          have hl1 := Complete.loop_fuel_mono P g t fosc fis f1 f2 _ _ _ _ _ _ hl
          rw [Nat.add_comm f1] at hl1
          rw [hl1]
          simp only [Complete.afterPass, hr]
          rw [Complete_fuel_mono_any P g t fosc fis f2 f1 _ _ hno]
          exact h2

/-! ## Distinct nodes and the seed-change guard -/

theorem Complete_nodup {Aux : Type} (P : Problem Aux) (hperm : ResortPermutes P)
    (fuel : Nat) (s : List Nat) (level : List Int) (g t : Option (List Nat)) (fosc : Bool)
    (fis : Int × Nat) (b : Bool) (s1 : List Nat) (level1 : List Int) (hs : s.Nodup)
    (h : Complete P fuel s level g t fosc fis = .done (b, s1, level1)) : s1.Nodup := by
  refine Complete_inv P g t fosc fis List.Nodup ?_ ?_ ?_ fuel s level (b, s1, level1) hs h
  · intro x next hx hn _ _
    exact (List.perm_append_singleton next x).nodup_iff.2 (List.nodup_cons.2 ⟨hn, hx⟩)
  · intro x next hx hn _ _
    exact (swapFrontBack_perm _).nodup_iff.2
      ((List.perm_append_singleton next x).nodup_iff.2 (List.nodup_cons.2 ⟨hn, hx⟩))
  · intro x lv seed x1 lv1 hx hr
    exact (hperm _ _ _ _ _ hr).nodup_iff.2 hx

theorem Complete.loop_finished_appended {Aux : Type} (P : Problem Aux)
    (g t : Option (List Nat)) (fosc : Bool) (fis : Int × Nat) :
    ∀ (fuel : Nat) (s0 : Nat) (rest : List Nat) (level : List Int) (aux : Aux)
      (c : Candidates) (n : Nat) (s1 : List Nat) (level1 : List Int),
      Complete.loop P g t fosc fis fuel (s0 :: rest) level aux c n
        = .done (.finished s1 level1) →
      ∃ app, s1 = (s0 :: rest) ++ app ∧ ∀ x ∈ app, s0 < x := by
  intro fuel
  induction fuel with
  | zero => intro s0 rest level aux c n s1 level1 h; simp [Complete.loop] at h
  | succ k ih =>
    intro s0 rest level aux c n s1 level1 h
    rcases Candidates.Next_result P g (s0 :: rest) aux k c with hn | ⟨⟨r, c1⟩, hn⟩
    · rw [Complete.loop] at h
      simp [hn] at h
    · cases r with
      | none =>
        rw [Complete.loop_succ_of_Next_none P g t fosc fis k _ level aux c n c1 hn] at h
        simp only [Run.done.injEq, PassExit.finished.injEq] at h
        exact ⟨[], by simp [h.1], by simp⟩
      | some x =>
        obtain ⟨next, lv⟩ := x
        have hns : next ∉ s0 :: rest :=
          ((Next_post P g _ aux k c _ c1 hn).1 next lv rfl).1
        rw [Complete.loop_succ_of_Next P g t fosc fis k _ level aux c n next lv c1 hn] at h
        cases hins : Complete.onInsert P t fosc fis (s0 :: rest) level aux next lv with
        | inl e =>
          rw [hins] at h
          simp only [Run.done.injEq] at h
          subst h
          unfold Complete.onInsert at hins
          split at hins
          · simp at hins
          · split at hins
            · simp at hins
            · split at hins
              · split at hins <;> simp at hins
              · simp at hins
        | inr x =>
          obtain ⟨s2, level2, aux2⟩ := x
          rw [hins] at h
          simp only at h
          obtain ⟨rfl, _, hge, _⟩ :=
            Complete.onInsert_inr P t fosc fis _ level aux next lv s2 level2 aux2 hins
          obtain ⟨app, h1, h2⟩ := ih s0 (rest ++ [next]) _ _ _ _ _ _ h
          refine ⟨next :: app, by simp [h1], ?_⟩
          intro y hy
          rcases List.mem_cons.1 hy with rfl | hy
          · simp only [List.cons_append, List.headD_cons, not_lt] at hge
            have : y ≠ s0 := fun hx => hns (by simp [hx])
            omega
          · exact h2 y hy

theorem Complete.loop_guard_fails {Aux : Type} (P : Problem Aux) (g t : Option (List Nat))
    (fosc : Bool) (fis : Int × Nat) (hguard : (fosc || fis.1 != -1) = true) (fuel : Nat)
    (s0 : Nat) (rest : List Nat) (level : List Int) (aux : Aux) (c : Candidates)
    (n next : Nat) (lv : Int) (c1 : Candidates)
    (hnext : Candidates.Next P g (s0 :: rest) aux fuel c = .done (some (next, lv), c1))
    (htgt : is_in_target t next = true) (hfis : ¬ pairLt (lv, next) fis) (hlt : next < s0) :
    Complete.loop P g t fosc fis (fuel + 1) (s0 :: rest) level aux c n
      = .done (.failed (next :: (rest ++ [s0])) (level ++ [lv])) := by
  rw [Complete.loop_succ_of_Next P g t fosc fis fuel _ level aux c n next lv c1 hnext]
  unfold Complete.onInsert
  have h1 : ¬ (!is_in_target t next) = true := by simp [htgt]
  have h3 : next < ((s0 :: rest) ++ [next]).headD next := by simpa using hlt
  rw [if_neg h1, if_neg hfis, if_pos h3, if_pos hguard, swapFrontBack_concat]

theorem Complete_guard_true {Aux : Type} (P : Problem Aux) (g t : Option (List Nat))
    (fosc : Bool) (fis : Int × Nat) (hguard : (fosc || fis.1 != -1) = true) (fuel : Nat)
    (s0 : Nat) (rest : List Nat) (level : List Int) (s2 : List Nat) (level2 : List Int)
    (h : Complete P fuel (s0 :: rest) level g t fosc fis = .done (true, s2, level2)) :
    ∃ app level1, P.Resort ((s0 :: rest) ++ app) level1 s0 = some (s2, level2) ∧
      ∀ x ∈ app, s0 < x := by
  cases fuel with
  | zero => simp [Complete] at h
  | succ k =>
    rw [Complete_succ_cons] at h
    rcases Complete.loop_result P g t fosc fis k (s0 :: rest) level (P.InitAux (s0 :: rest))
      (Candidates.Add P g Candidates.empty s0 0) 1 with hl | ⟨e, hl⟩
    · rw [hl] at h
      simp [Complete.afterPass] at h
    · rw [hl] at h
      cases e with
      | failed s1 level1 => simp [Complete.afterPass] at h
      | seedChange s1 level1 =>
        have := (Complete.loop_seedChange_head P g t fosc fis k s0 rest level _ _ _ s1 level1
          hl).1
        rw [hguard] at this
        simp at this
      | finished s1 level1 =>
        obtain ⟨app, h1, h2⟩ :=
          Complete.loop_finished_appended P g t fosc fis k s0 rest level _ _ _ s1 level1 hl
        subst h1
        simp only [Complete.afterPass, List.cons_append] at h
        cases hr : P.Resort (s0 :: (rest ++ app)) level1 s0 with
        | none => simp [hr] at h
        | some x =>
          obtain ⟨s3, level3⟩ := x
          simp only [hr, Run.done.injEq, Prod.mk.injEq, true_and] at h
          obtain ⟨rfl, rfl⟩ := h
          exact ⟨app, level1, by simpa using hr, h2⟩

/-! ## Streams and their outstanding items -/

theorem Candidates.outstanding_empty {Aux : Type} (P : Problem Aux) (g : Option (List Nat)) :
    Candidates.Outstanding P g Candidates.empty := by
  intro j inf h
  simp [Candidates.empty] at h

theorem Candidates.Add_outstanding {Aux : Type} (P : Problem Aux) (g : Option (List Nat))
    (c : Candidates) (v : Nat) (lv : Int) (ho : Candidates.Outstanding P g c) :
    Candidates.Outstanding P g (Candidates.Add P g c v lv) := by
  rw [Candidates.Add_eq]
  intro j inf h
  simp only at h
  by_cases hj : j < c.info.length
  · rw [List.getElem?_append_left hj] at h
    obtain ⟨h1, h2⟩ := ho j inf h
    refine ⟨h1, ?_⟩
    intro cand hc
    simp only [List.mem_append]
    exact Or.inr (h2 cand hc)
  · have hj1 : c.info.length ≤ j := Nat.le_of_not_lt hj
    rw [List.getElem?_append_right hj1] at h
    have hj2 : j - c.info.length = 0 := by
      by_contra hne
      have : (([⟨1, v, lv⟩] : List IterInfo))[j - c.info.length]? = none := by
        apply List.getElem?_eq_none
        simp only [List.length_singleton]
        omega
      rw [this] at h
      simp at h
    rw [hj2] at h
    simp only [List.getElem?_cons_zero, Option.some.injEq] at h
    subst h
    have hje : j = c.info.length := by omega
    subst hje
    refine ⟨by simp, ?_⟩
    intro cand hc
    simp only [Nat.sub_self] at hc
    simp [hc]

theorem Candidates.pop_outstanding {Aux : Type} (P : Problem Aux) (g : Option (List Nat))
    (c : Candidates) (p : CandIter) (hc : Candidates.Consistent P g c)
    (ho : Candidates.Outstanding P g c) (hp : p ∈ c.pq) :
    Candidates.Outstanding P g
      (Candidates.InsertInPQ P g { c with pq := c.pq.erase p } p.iter) := by
  obtain ⟨infp, p1, p2, _, _, heq⟩ := Candidates.pop_eq P g c p hc hp
  rw [heq]
  have hplen : p.iter < c.info.length := (List.getElem?_eq_some_iff.1 p1).1
  intro j inf h
  simp only at h
  by_cases hij : p.iter = j
  · subst hij
    rw [List.getElem?_set_self hplen] at h
    simp only [Option.some.injEq] at h
    subst h
    refine ⟨by simp, ?_⟩
    intro cand hcn
    simp only [Nat.add_sub_cancel] at hcn
    simp [hcn]
  · rw [List.getElem?_set_ne hij] at h
    obtain ⟨h1, h2⟩ := ho j inf h
    refine ⟨h1, ?_⟩
    intro cand hcn
    have hm := h2 cand hcn
    have hne : (⟨inf.lvl + 1, cand, j⟩ : CandIter) ≠ p := by
      intro hx
      apply hij
      rw [← hx]
    simp only [List.mem_append]
    exact Or.inr ((List.mem_erase_of_ne hne).2 hm)

theorem Candidates.Next_outstanding {Aux : Type} (P : Problem Aux) (g : Option (List Nat))
    (s : List Nat) (aux : Aux) : ∀ (fuel : Nat) (c : Candidates) (r : Option (Nat × Int))
    (c1 : Candidates), Candidates.Consistent P g c → Candidates.Outstanding P g c →
    Candidates.Next P g s aux fuel c = .done (r, c1) → Candidates.Outstanding P g c1 := by
  intro fuel
  induction fuel with
  | zero => intro c r c1 _ _ h; simp [Candidates.Next] at h
  | succ k ih =>
    intro c r c1 hc ho h
    simp only [Candidates.Next] at h
    split at h
    · simp only [Run.done.injEq, Prod.mk.injEq] at h
      obtain ⟨_, rfl⟩ := h
      exact ho
    · rename_i p hp
      have hpm := pqTop_mem hp
      have hc1 := Candidates.pop_consistent P g c p hc hpm
      have ho1 := Candidates.pop_outstanding P g c p hc ho hpm
      split at h
      · simp only [Run.done.injEq, Prod.mk.injEq] at h
        obtain ⟨_, rfl⟩ := h
        exact ho1
      · exact ih _ _ _ hc1 ho1 h

theorem Candidates.reachable_inv {Aux : Type} (P : Problem Aux) (g : Option (List Nat))
    (c : Candidates) (h : Candidates.Reachable P g c) :
    Candidates.Consistent P g c ∧ Candidates.Outstanding P g c := by
  induction h with
  | empty => exact ⟨Candidates.consistent_empty P g, Candidates.outstanding_empty P g⟩
  | add c v lv _ _ _ ih =>
    exact ⟨Candidates.Add_consistent P g c v lv ih.1, Candidates.Add_outstanding P g c v lv ih.2⟩
  | next c s aux fuel r c1 _ hn ih =>
    exact ⟨Candidates.Next_consistent P g s aux fuel c r c1 ih.1 hn,
      Candidates.Next_outstanding P g s aux fuel c r c1 ih.1 ih.2 hn⟩

theorem Candidates.Next_succ_of_top {Aux : Type} (P : Problem Aux) (g : Option (List Nat))
    (s : List Nat) (aux : Aux) (fuel : Nat) (c : Candidates) (p : CandIter)
    (hp : pqTop c.pq = some p) :
    Candidates.Next P g s aux (fuel + 1) c =
      if Candidates.CanReallyAdd P s aux p.node then
        .done (some (p.node, p.level),
          Candidates.InsertInPQ P g { c with pq := c.pq.erase p } p.iter)
      else Candidates.Next P g s aux fuel
        (Candidates.InsertInPQ P g { c with pq := c.pq.erase p } p.iter) := by
  rw [Candidates.Next]
  simp only [hp]

theorem owners_set (l : List IterInfo) (i : Nat) (inf : IterInfo) (k : Nat)
    (h : l[i]? = some inf) :
    (l.set i { inf with idx := k }).map IterInfo.owner = l.map IterInfo.owner := by
  induction l generalizing i with
  | nil => simp
  | cons a l ih =>
    cases i with
    | zero =>
      simp only [List.getElem?_cons_zero, Option.some.injEq] at h
      subst h
      simp
    | succ j =>
      simp only [List.getElem?_cons_succ] at h
      simp [ih j h]

theorem Candidates.InsertInPQ_owners {Aux : Type} (P : Problem Aux) (g : Option (List Nat))
    (c : Candidates) (i : Nat) :
    (Candidates.InsertInPQ P g c i).owners = c.owners := by
  unfold Candidates.InsertInPQ Candidates.owners
  cases hinf : c.info[i]? with
  | none => rfl
  | some inf =>
    simp only []
    cases P.CompleteCandNum g inf.owner i inf.idx <;>
      exact owners_set c.info i inf _ hinf

theorem Candidates.Add_owners {Aux : Type} (P : Problem Aux) (g : Option (List Nat))
    (c : Candidates) (v : Nat) (lv : Int) :
    (Candidates.Add P g c v lv).owners = c.owners ++ [v] := by
  rw [Candidates.Add_eq]
  simp [Candidates.owners]

theorem Candidates.Next_owners {Aux : Type} (P : Problem Aux) (g : Option (List Nat))
    (s : List Nat) (aux : Aux) : ∀ (fuel : Nat) (c : Candidates) (r : Option (Nat × Int))
    (c1 : Candidates), Candidates.Next P g s aux fuel c = .done (r, c1) →
    c1.owners = c.owners := by
  intro fuel
  induction fuel with
  | zero => intro c r c1 h; simp [Candidates.Next] at h
  | succ k ih =>
    intro c r c1 h
    simp only [Candidates.Next] at h
    split at h
    · simp only [Run.done.injEq, Prod.mk.injEq] at h
      obtain ⟨_, rfl⟩ := h
      rfl
    · rename_i p hp
      have h0 : (Candidates.InsertInPQ P g { c with pq := c.pq.erase p } p.iter).owners
          = c.owners := by
        rw [Candidates.InsertInPQ_owners]
        rfl
      split at h
      · simp only [Run.done.injEq, Prod.mk.injEq] at h
        obtain ⟨_, rfl⟩ := h
        exact h0
      · rw [ih _ _ _ h, h0]

/-! ## The owner levels of the streams -/

theorem ownerLevels_set (l : List IterInfo) (i : Nat) (inf : IterInfo) (k : Nat)
    (h : l[i]? = some inf) :
    (l.set i { inf with idx := k }).map IterInfo.lvl = l.map IterInfo.lvl := by
  induction l generalizing i with
  | nil => simp
  | cons a l ih =>
    cases i with
    | zero =>
      simp only [List.getElem?_cons_zero, Option.some.injEq] at h
      subst h
      simp
    | succ j =>
      simp only [List.getElem?_cons_succ] at h
      simp [ih j h]

theorem Candidates.InsertInPQ_ownerLevels {Aux : Type} (P : Problem Aux)
    (g : Option (List Nat)) (c : Candidates) (i : Nat) :
    (Candidates.InsertInPQ P g c i).ownerLevels = c.ownerLevels := by
  unfold Candidates.InsertInPQ Candidates.ownerLevels
  cases hinf : c.info[i]? with
  | none => rfl
  | some inf =>
    simp only []
    cases P.CompleteCandNum g inf.owner i inf.idx <;>
      exact ownerLevels_set c.info i inf _ hinf

theorem Candidates.Add_ownerLevels {Aux : Type} (P : Problem Aux) (g : Option (List Nat))
    (c : Candidates) (v : Nat) (lv : Int) :
    (Candidates.Add P g c v lv).ownerLevels = c.ownerLevels ++ [lv] := by
  rw [Candidates.Add_eq]
  simp [Candidates.ownerLevels]

theorem Candidates.Next_ownerLevels {Aux : Type} (P : Problem Aux) (g : Option (List Nat))
    (s : List Nat) (aux : Aux) : ∀ (fuel : Nat) (c : Candidates) (r : Option (Nat × Int))
    (c1 : Candidates), Candidates.Next P g s aux fuel c = .done (r, c1) →
    c1.ownerLevels = c.ownerLevels := by
  intro fuel
  induction fuel with
  | zero => intro c r c1 h; simp [Candidates.Next] at h
  | succ k ih =>
    intro c r c1 h
    simp only [Candidates.Next] at h
    split at h
    · simp only [Run.done.injEq, Prod.mk.injEq] at h
      obtain ⟨_, rfl⟩ := h
      rfl
    · rename_i p hp
      have h0 : (Candidates.InsertInPQ P g { c with pq := c.pq.erase p } p.iter).ownerLevels
          = c.ownerLevels := by
        rw [Candidates.InsertInPQ_ownerLevels]
        rfl
      split at h
      · simp only [Run.done.injEq, Prod.mk.injEq] at h
        obtain ⟨_, rfl⟩ := h
        exact h0
      · rw [ih _ _ _ h, h0]

theorem Candidates.reachable_ownerLevels {Aux : Type} (P : Problem Aux)
    (g : Option (List Nat)) (c : Candidates) (h : Candidates.Reachable P g c) :
    ∀ l ∈ c.ownerLevels, int32Min ≤ l ∧ l < int32Max := by
  induction h with
  | empty => intro l hl; simp [Candidates.ownerLevels, Candidates.empty] at hl
  | add c v lv hlo hhi _ ih =>
    intro l hl
    rw [Candidates.Add_ownerLevels, List.mem_append] at hl
    rcases hl with hl | hl
    · exact ih l hl
    · simp only [List.mem_singleton] at hl
      subst hl
      exact ⟨hlo, hhi⟩
  | next c s aux fuel r c1 _ hn ih =>
    intro l hl
    rw [Candidates.Next_ownerLevels P g s aux fuel c r c1 hn] at hl
    exact ih l hl

theorem Candidates.reachable_lvl {Aux : Type} (P : Problem Aux)
    (g : Option (List Nat)) (c : Candidates) (h : Candidates.Reachable P g c)
    (j : Nat) (inf : IterInfo) (hj : c.info[j]? = some inf) :
    int32Min ≤ inf.lvl ∧ inf.lvl < int32Max := by
  apply Candidates.reachable_ownerLevels P g c h
  unfold Candidates.ownerLevels
  obtain ⟨hlt, he⟩ := List.getElem?_eq_some_iff.1 hj
  refine List.mem_map.2 ⟨inf, ?_, rfl⟩
  rw [← he]
  apply List.getElem_mem

/-! ## The vectors `Children` hands to `Complete` -/

theorem resize_length {α : Type} (l : List α) (n : Nat) (d : α) :
    (resize l n d).length = n := by
  unfold resize
  simp only [List.length_append, List.length_take, List.length_replicate]
  omega

theorem GetPrefix_some {Aux : Type} (P : Problem Aux) (sol : List Nat) (level : List Int)
    (seed cand : Nat) (core : List Nat) (clvl : List Int)
    (h : GetPrefix P sol level seed cand = some (core, clvl)) :
    ∃ s1 level1, P.Resort sol level seed = some (s1, level1) ∧
      core = resize s1 (s1.findIdx (fun x => x == cand) + 1) 0 ∧
      clvl = resize level1 (s1.findIdx (fun x => x == cand) + 1) 0 := by
  unfold GetPrefix at h
  split at h
  · simp at h
  · rename_i s1 level1 hr
    simp only [Option.some.injEq, Prod.mk.injEq] at h
    exact ⟨s1, level1, hr, h.1.symm, h.2.symm⟩

theorem GetPrefix_lengths {Aux : Type} (P : Problem Aux) (sol : List Nat) (level : List Int)
    (seed cand : Nat) (core : List Nat) (clvl : List Int)
    (h : GetPrefix P sol level seed cand = some (core, clvl)) :
    core.length = clvl.length ∧ 1 ≤ core.length := by
  obtain ⟨s1, level1, _, rfl, rfl⟩ := GetPrefix_some P sol level seed cand core clvl h
  rw [resize_length, resize_length]
  exact ⟨rfl, by omega⟩

theorem GetPrefix_two {Aux : Type} (P : Problem Aux) (hlen : ResortKeepsLength P)
    (sol : List Nat) (level : List Int) (seed cand : Nat) (core : List Nat) (clvl : List Int)
    (hmem : seed ∈ sol) (hlt : seed < cand)
    (h : GetPrefix P sol level seed cand = some (core, clvl)) (c0 : Nat)
    (hc0 : core.head? = some c0) (hseed : seed = correctSeed c0 core) :
    2 ≤ core.length := by
  obtain ⟨s1, level1, hr, rfl, rfl⟩ := GetPrefix_some P sol level seed cand core clvl h
  rw [resize_length]
  by_contra hcon
  have hi : s1.findIdx (fun x => x == cand) = 0 := by omega
  have hl := hlen _ _ _ _ _ hr
  cases s1 with
  | nil =>
    simp only [List.length_nil] at hl
    have : sol = [] := List.length_eq_zero.1 hl.symm
    rw [this] at hmem
    simp at hmem
  | cons a t =>
    have ha : (a == cand) = true := by
      by_contra hne
      simp only [List.findIdx_cons, hne, cond_false] at hi
      omega
    have ha1 : a = cand := by simpa using ha
    subst ha1
    rw [hi] at hc0 hseed
    have hcore : resize (a :: t) (0 + 1) 0 = [a] := by simp [resize]
    rw [hcore] at hc0 hseed
    simp only [List.head?_cons, Option.some.injEq] at hc0
    subst hc0
    simp [correctSeed] at hseed
    omega

theorem Complete_ne_undefined {Aux : Type} (P : Problem Aux) (hlen : ResortKeepsLength P)
    (g t : Option (List Nat)) (fosc : Bool) (fis : Int × Nat) :
    ∀ (fuel : Nat) (s : List Nat) (level : List Int), s ≠ [] →
      Complete P fuel s level g t fosc fis ≠ .undefined := by
  intro fuel
  induction fuel with
  | zero => intro s level _; simp [Complete]
  | succ k ih =>
    intro s level hs
    cases s with
    | nil => exact absurd rfl hs
    | cons s0 rest =>
      rw [Complete_succ_cons]
      rcases Complete.loop_result P g t fosc fis k (s0 :: rest) level (P.InitAux (s0 :: rest))
        (Candidates.Add P g Candidates.empty s0 0) 1 with hl | ⟨e, hl⟩
      · rw [hl]
        simp [Complete.afterPass]
      · have hne := Complete.loop_nonempty P g t fosc fis k _ _ _ _ _ e (by simp) hl
        rw [hl]
        cases e with
        | failed s1 level1 => simp [Complete.afterPass]
        | finished s1 level1 =>
          cases s1 with
          | nil => simp [PassExit.s] at hne
          | cons f r =>
            simp only [Complete.afterPass]
            cases hr : P.Resort (f :: r) level1 f with
            | none => simp
            | some x => simp
        | seedChange s1 level1 =>
          cases s1 with
          | nil => simp [PassExit.s] at hne
          | cons f r =>
            simp only [Complete.afterPass]
            cases hr : P.Resort (f :: r) level1 f with
            | none => simp
            | some x =>
              obtain ⟨s2, level2⟩ := x
              simp only
              apply ih
              intro h2
              have := hlen _ _ _ _ _ hr
              rw [h2] at this
              simp at this

theorem Complete_length_le {Aux : Type} (P : Problem Aux) (hlen : ResortKeepsLength P)
    (fuel : Nat) (s : List Nat) (level : List Int) (g t : Option (List Nat)) (fosc : Bool)
    (fis : Int × Nat) (b : Bool) (s1 : List Nat) (level1 : List Int)
    (h : Complete P fuel s level g t fosc fis = .done (b, s1, level1)) :
    s.length ≤ s1.length := by
  refine Complete_inv P g t fosc fis (fun x => s.length ≤ x.length) ?_ ?_ ?_
    fuel s level (b, s1, level1) (le_refl _) h
  · intro x next hx _ _ _
    simp only [List.length_append, List.length_singleton]
    omega
  · intro x next hx _ _ _
    rw [(swapFrontBack_perm _).length_eq]
    simp only [List.length_append, List.length_singleton]
    omega
  · intro x lv seed x1 lv1 hx hr
    rw [hlen _ _ _ _ _ hr]
    exact hx

theorem startsWithCore_isSome : ∀ (core child : List Nat), core.length ≤ child.length →
    startsWithCore core child ≠ none := by
  intro core
  induction core with
  | nil => intro child _; simp [startsWithCore]
  | cons a core ih =>
    intro child h
    cases child with
    | nil => simp at h
    | cons b child =>
      simp only [startsWithCore]
      split
      · simp
      · exact ih child (by simpa using h)

theorem Children.onSeed_ne_undefined {Aux σ : Type} (P : Problem Aux)
    (hlen : ResortKeepsLength P) (fuel : Nat) (s : List Nat) (level : List Int)
    (cb : Callback σ CommutableNode) (cand : Nat) (sol : List Nat) (st : Bool × σ)
    (seed : Nat) (hmem : seed ∈ sol) (hlt : seed < cand) :
    Children.onSeed P fuel s level cb cand sol st seed ≠ .undefined := by
  unfold Children.onSeed
  split
  · simp
  · rename_i core clvl hgp
    obtain ⟨hl1, hl2⟩ := GetPrefix_lengths P sol level seed cand core clvl hgp
    split
    · rename_i hh
      cases core with
      | nil => simp at hl2
      | cons a r => simp at hh
    · rename_i c0 hc0
      dsimp only
      by_cases hseed : seed ≠ List.foldl (fun m n => if n < m then n else m) c0 core
      · rw [if_pos hseed]
        simp
      · rw [if_neg hseed]
        have hseed1 : seed = correctSeed c0 core := by
          unfold correctSeed
          exact not_not.1 hseed
        have h2 := GetPrefix_two P hlen sol level seed cand core clvl hmem hlt hgp c0 hc0 hseed1
        have hcore : core ≠ [] := by
          intro hx
          rw [hx] at h2
          simp at h2
        have hdrop : core.dropLast ≠ [] := by
          intro hx
          have := congrArg List.length hx
          simp only [List.length_dropLast, List.length_nil] at this
          omega
        split
        · rename_i lvl_back child_back hb1 hb2
          have hC1 := Complete_ne_undefined P hlen none none true (lvl_back, child_back)
            fuel core clvl hcore
          split
          · simp
          · simp
          · rename_i hx
            exact absurd hx hC1
          · simp
          · rename_i child lvl hc1
            have hle := Complete_length_le P hlen fuel core clvl none none true _ true
              child lvl hc1
            have hsw := startsWithCore_isSome core child hle
            split
            · rename_i hx
              exact absurd hx hsw
            · simp
            · have hC2 := Complete_ne_undefined P hlen none (some s) false (-1, 0)
                fuel core.dropLast clvl.dropLast hdrop
              split
              · simp
              · simp
              · rename_i hx
                exact absurd hx hC2
              · simp
              · rename_i p q hc2
                split
                · have hC3 := Complete_ne_undefined P hlen (some (p ++ [cand])) (some sol)
                    false (-1, 0) fuel core clvl hcore
                  split
                  · simp
                  · simp
                  · rename_i hx
                    exact absurd hx hC3
                  · simp
                  · simp [Children.emit]
                · simp [Children.emit]
        · rename_i hnone
          exfalso
          have hcl : clvl ≠ [] := by
            intro hx
            rw [hx] at hl1
            simp only [List.length_nil] at hl1
            omega
          cases h1 : clvl.getLast? with
          | none => exact hcl (List.getLast?_eq_none_iff.1 h1)
          | some lb =>
            cases h2 : core.getLast? with
            | none => exact hcore (List.getLast?_eq_none_iff.1 h2)
            | some cbk => exact hnone lb cbk h1 h2

/-! ## A ground set of one node -/

theorem GetRoots_range_one {Aux σ : Type} (P : Problem Aux) (hN : P.graph_size = 1)
    (fuel : Nat) (cb : Callback σ CommutableNode) (st st1 : σ)
    (log log1 : List (CommutableNode × Bool))
    (h : GetRoots P fuel (record cb) (List.range (MaxRoots P)) (st, log) = .done (st1, log1)) :
    log1.length ≤ log.length + 1 := by
  unfold MaxRoots at h
  rw [hN] at h
  have hr : List.range 1 = [0] := by decide
  rw [hr] at h
  simp only [GetRoots] at h
  split at h
  · simp at h
  · simp at h
  · simp at h
  · rename_i st2 hg
    simp only [Run.done.injEq] at h
    subst h
    rcases GetRoot_log P fuel 0 cb st st1 log log1 hg with rfl | ⟨s, level, _, _, rfl⟩
    · omega
    · simp

theorem ValidSeeds.loop_cand_zero {Aux τ : Type} (P : Problem Aux) (sol : List Nat)
    (f : RunCallback τ Nat) : ∀ (rest : List Nat) (st : τ),
    ValidSeeds.loop P sol 0 f rest st = .done st := by
  intro rest
  induction rest with
  | nil => intro st; rfl
  | cons seed rest ih =>
    intro st
    simp only [ValidSeeds.loop]
    split
    · exact ih st
    · rw [if_pos (Nat.zero_le seed)]
      exact ih st

theorem Children.onSol_cand_zero {Aux σ : Type} (P : Problem Aux) (fuel : Nat) (s : List Nat)
    (level : List Int) (cb : Callback σ CommutableNode) (st : Bool × σ) (sol : List Nat) :
    Children.onSol P fuel s level cb 0 st sol = .done (st.1, st) := by
  unfold Children.onSol ValidSeeds
  rw [ValidSeeds.loop_cand_zero]

theorem RestrictedProblem.run_cand_zero {Aux σ : Type} (P : Problem Aux) (fuel : Nat)
    (s : List Nat) (level : List Int) (cb : Callback σ CommutableNode) (u : σ) :
    ∀ (sols : List (List Nat)),
    RestrictedProblem.run (Children.onSol P fuel s level cb 0) sols (true, u)
      = .done (true, u) := by
  intro sols
  induction sols with
  | nil => rfl
  | cons sol rest ih =>
    simp only [RestrictedProblem.run, Children.onSol_cand_zero]
    exact ih

theorem Children_graph_size_one {Aux σ : Type} (P : Problem Aux) (hN : P.graph_size = 1)
    (fuel : Nat) (s : List Nat) (level : List Int) (cb : Callback σ CommutableNode) (st : σ) :
    Children P fuel s level cb st = .done (true, st) := by
  unfold Children RestrictedCands
  rw [hN]
  have hr : List.range 1 = [0] := by decide
  rw [hr]
  simp only [RestrictedCands.loop]
  split
  · rfl
  · unfold Children.onCand
    rw [RestrictedProblem.run_cand_zero]

theorem Complete.onInsert_inl {Aux : Type} (P : Problem Aux) (t : Option (List Nat))
    (fosc : Bool) (fis : Int × Nat) (s : List Nat) (level : List Int) (aux : Aux)
    (next : Nat) (lv : Int) (e : PassExit)
    (h : Complete.onInsert P t fosc fis s level aux next lv = .inl e) :
    e = .failed s level ∨ e.s = swapFrontBack (s ++ [next]) := by
  unfold Complete.onInsert at h
  split at h
  · simp only [Sum.inl.injEq] at h
    exact Or.inl h.symm
  · split at h
    · simp only [Sum.inl.injEq] at h
      exact Or.inl h.symm
    · split at h
      · split at h
        · simp only [Sum.inl.injEq] at h
          subst h
          exact Or.inr rfl
        · simp only [Sum.inl.injEq] at h
          subst h
          exact Or.inr rfl
      · simp at h

theorem cliqueProblem_resortKeepsLength (N : Nat) (adj : Nat → Nat → Bool) :
    ResortKeepsLength (cliqueProblem N adj) := by
  intro s level seed s1 level1 h
  exact (resortSpec_perm s level seed s1 level1 h).length_eq

/-! ## The claims -/

/-- C1, where the code departs from the claim. On the triangle,
`GetRoot(0, cb)` never invokes `cb` although `IsSeed(0, null)` holds and the
completion of `({0}, {0})` ends without a seed change, and `GetRoot(1, cb)`
invokes `cb` although the completion of `({1}, {0})` is stopped by a seed
change: the callback is reached exactly when `Complete` returns `false`. -/
theorem getRoot_emits_when_completion_fails :
    (K3.IsSeed 0 none = true ∧
      Complete K3 20 [0] [0] none none true (-1, 0) = .done (true, [0, 1, 2], [0, 1, 1]) ∧
      GetRoot K3 20 0 (record cbTrue) ((), []) = .done ((), [])) ∧
    (K3.IsSeed 1 none = true ∧
      Complete K3 20 [1] [0] none none true (-1, 0) = .done (false, [0, 1], [0, 1]) ∧
      GetRoot K3 20 1 (record cbTrue) ((), []) = .done ((), [(([0, 1], [0, 1]), true)])) := by
  refine ⟨⟨?_, ?_, ?_⟩, ?_, ?_, ?_⟩ <;> rfl

/-- C2, where the code departs from the claim. On the triangle the three
calls `GetRoot(0)`, `GetRoot(1)`, `GetRoot(2)` invoke the callback twice in
total, with the nodes `({0,1}, {0,1})` and `({0,2}, {0,1})`; the node
`({0,1,2}, {0,1,1})` is never passed. `ListChildren` of that node emits
nothing. -/
theorem triangle_roots_emitted_by_getRoot :
    GetRoot K3 20 0 (record cbTrue) ((), []) = .done ((), []) ∧
    GetRoot K3 20 1 (record cbTrue) ((), []) = .done ((), [(([0, 1], [0, 1]), true)]) ∧
    GetRoot K3 20 2 (record cbTrue) ((), [(([0, 1], [0, 1]), true)])
      = .done ((), [(([0, 1], [0, 1]), true), (([0, 2], [0, 1]), true)]) ∧
    ListChildren K3 20 ([0, 1, 2], [0, 1, 1]) (record cbTrue) ((), []) = .done ((), []) := by
  refine ⟨?_, ?_, ?_, ?_⟩ <;> rfl

/-- C3 as stated fails: for `sol = {0, 1, 2}` and `cand = 1` on the triangle,
`ValidSeeds` passes the seed 0, which is not greater than `cand`, and does
not pass the seed 2, which is a seed greater than `cand`. -/
theorem validSeeds_passes_seed_below_cand :
    ValidSeeds K3 [0, 1, 2] 1 (Callback.toRun (record cbTrue)) ((), [])
      = .done ((), [(0, true)]) ∧
    ¬ (0 > 1) ∧ K3.IsSeed 2 (some [0, 1, 2]) = true ∧ 2 > 1 := by
  refine ⟨?_, ?_, ?_, ?_⟩ <;> decide

/-- C3 as amended: `ValidSeeds(sol, cand, cb)` always returns, and the nodes
it passes to `cb` are, in the order of `sol`, the nodes `seed` of `sol` with
`IsSeed(seed, sol)` and `seed < cand`, up to and including the first one for
which `cb` returns `false` (all of them when `cb` never returns `false`); no
seed with `seed ≥ cand` is passed. -/
theorem validSeeds_passes_seeds_below_cand {Aux σ : Type} (P : Problem Aux) (sol : List Nat)
    (cand : Nat) (cb : Callback σ Nat) (st : σ) :
    ∃ st1 log,
      ValidSeeds P sol cand (Callback.toRun (record cb)) (st, []) = .done (st1, log) ∧
      log.map Prod.fst <+: validSeedsOf P sol cand ∧
      (∀ e ∈ log.dropLast, e.2 = true) ∧
      ((∀ e ∈ log, e.2 = true) → log.map Prod.fst = validSeedsOf P sol cand) ∧
      (∀ e ∈ log, e.1 ∈ sol ∧ P.IsSeed e.1 (some sol) = true ∧ e.1 < cand) := by
  obtain ⟨st1, new, e1, e2, e3, e4⟩ := ValidSeeds_loop_record P sol cand cb sol st []
  refine ⟨st1, new, by simpa [ValidSeeds] using e1, e2, e3, e4, ?_⟩
  intro e he
  have hm : e.1 ∈ validSeedsOf P sol cand :=
    e2.subset (List.mem_map_of_mem Prod.fst he)
  simpa [validSeedsOf, List.mem_filter] using hm

/-- C4 as stated fails: in the set system whose good sets are the sets of at
most one node and `{0, 1, 2}`, the solution `s = {0, 1, 2}` and its part
`p = {0}` make `Complete(p, plvl, null, s)` return `true` with `p = {0}`,
and the node 1 of `s` is missing from it. -/
theorem parent_check_can_stop_below_target :
    gapProblem.IsGood [0, 1, 2] = true ∧ (∀ x ∈ [0], x ∈ [0, 1, 2]) ∧
    Complete gapProblem 20 [0] [0] none (some [0, 1, 2]) false (-1, 0)
      = .done (true, [0], [0]) ∧
    1 ∈ [0, 1, 2] ∧ 1 ∉ [0] := by
  refine ⟨?_, ?_, ?_, ?_, ?_⟩ <;> decide

/-- C4 as amended: with the default `CompleteCandNum`, a `Resort` that
permutes, and a set system in which every list `X` of nodes of `s` that
misses a node of `s` admits (whatever `aux`) some node `v < N` of `s` outside
`X`, for every `p` whose nodes all lie in `s`, if
`Complete(p, plvl, null, s)` returns `true` then the completed `p` has
exactly the node set of `s`. -/
theorem parent_check_reproduces_target {Aux : Type} (P : Problem Aux)
    (hccn : P.CompleteCandNum = Default.CompleteCandNum P.graph_size)
    (hperm : ResortPermutes P) (s p : List Nat) (plvl : List Int) (fuel : Nat)
    (p1 : List Nat) (plvl1 : List Int)
    (hsub : ∀ x ∈ p, x ∈ s)
    (hacc : ∀ (X : List Nat) (aux : Aux), (∀ x ∈ X, x ∈ s) → (∃ y ∈ s, y ∉ X) →
      ∃ v, v ∈ s ∧ v ∉ X ∧ v < P.graph_size ∧ P.CanAdd X aux v = true)
    (h : Complete P fuel p plvl none (some s) false (-1, 0) = .done (true, p1, plvl1)) :
    ∀ x, x ∈ p1 ↔ x ∈ s := by
  have hin : ∀ x ∈ p1, x ∈ s := by
    intro x hx
    rcases Complete_subset_target P hperm fuel p plvl none s false (-1, 0) true p1 plvl1 h x hx
      with h1 | h1
    · exact hsub x h1
    · exact h1
  obtain ⟨s0, level0, aux0, seed, hr, hmax⟩ :=
    Complete_maximal P hccn (some s) false (-1, 0) fuel p plvl p1 plvl1 h
  have hp0 : p1.Perm s0 := hperm _ _ _ _ _ hr
  intro x
  refine ⟨hin x, ?_⟩
  intro hx
  by_contra hnx
  obtain ⟨v, _, hv2, hv3, hv4⟩ := hacc s0 aux0
    (fun y hy => hin y (hp0.mem_iff.2 hy)) ⟨x, hx, fun hy => hnx (hp0.mem_iff.2 hy)⟩
  have := hmax v hv3
  simp [Candidates.CanReallyAdd, hv2, hv4] at this

/-- Witness of C4 as amended: the triangle, `s = {2, 1, 0}` and `p = {1}`. -/
theorem parent_check_reproduces_target_witness :
    (∀ x ∈ [1], x ∈ [2, 1, 0]) ∧
    Complete K3 20 [1] [0] none (some [2, 1, 0]) false (-1, 0)
      = .done (true, [0, 1, 2], [0, 1, 1]) ∧
    (∀ x, x ∈ [0, 1, 2] ↔ x ∈ [2, 1, 0]) :=
  ⟨by decide, by decide,
    parent_check_reproduces_target K3 rfl (cliqueProblem_resortPermutes 3 adjK3)
      [2, 1, 0] [1] [0] 20 [0, 1, 2] [0, 1, 1] (by decide)
      (K3_accessible [2, 1, 0] (by decide)) (by decide)⟩

/-- C5: with no ground set, the default `CompleteCandNum`, the default
`CanAdd` and an `IsGood` that does not depend on the order of the elements
(`Resort` returning a permutation), when `Complete` returns `true` no node of
`[0, N)` outside the returned `s` can be added: every `v < N` is in `s` or
has `IsGood(s ++ [v])` false. -/
theorem complete_result_is_maximal {Aux : Type} (P : Problem Aux)
    (hccn : P.CompleteCandNum = Default.CompleteCandNum P.graph_size)
    (hadd : P.CanAdd = Default.CanAdd P.IsGood)
    (hperm : ResortPermutes P)
    (hord : ∀ a b : List Nat, a.Perm b → P.IsGood a = P.IsGood b)
    (fuel : Nat) (s : List Nat) (level : List Int) (t : Option (List Nat)) (fosc : Bool)
    (fis : Int × Nat) (s1 : List Nat) (level1 : List Int)
    (h : Complete P fuel s level none t fosc fis = .done (true, s1, level1)) :
    ∀ v, v < P.graph_size → v ∈ s1 ∨ P.IsGood (s1 ++ [v]) = false := by
  obtain ⟨s0, level0, aux0, seed, hr, hmax⟩ :=
    Complete_maximal P hccn t fosc fis fuel s level s1 level1 h
  have hp0 : s1.Perm s0 := hperm _ _ _ _ _ hr
  intro v hv
  have h1 := hmax v hv
  unfold Candidates.CanReallyAdd at h1
  by_cases hmem : v ∈ s0
  · exact Or.inl (hp0.mem_iff.2 hmem)
  · right
    rw [if_neg hmem, hadd] at h1
    rw [hord (s1 ++ [v]) (s0 ++ [v]) (List.Perm.append_right [v] hp0)]
    exact h1

/-- Witness of C5: the star, completed from the leaf 1. -/
theorem complete_result_is_maximal_witness :
    Complete star4 20 [1] [0] none none false (-1, 0) = .done (true, [0, 1], [0, 1]) ∧
    ∀ v, v < star4.graph_size → v ∈ [0, 1] ∨ star4.IsGood ([0, 1] ++ [v]) = false :=
  ⟨by decide,
    complete_result_is_maximal star4 rfl rfl (cliqueProblem_resortPermutes 4 adjStar)
      (isClique_perm adjStar) 20 [1] [0] none false (-1, 0) [0, 1] [0, 1] (by decide)⟩

/-- C6: when `Resort` returns a permutation that keeps position 0, every
return of `Complete`, `true` or `false`, on an input with `s[0] = min(s)`
leaves a non-empty `s` with `s[0] = min(s)`, whatever the ground set, the
target and the flags; and every node `GetRoot` passes to its callback has
`nodes[0] = min(nodes)`. -/
theorem complete_keeps_seed_minimal {Aux σ : Type} (P : Problem Aux)
    (hperm : ResortPermutes P) (hfront : ResortKeepsFront P) :
    (∀ (fuel : Nat) (s : List Nat) (level : List Int) (g t : Option (List Nat))
      (fosc : Bool) (fis : Int × Nat) (b : Bool) (s1 : List Nat) (level1 : List Int),
      SeedMin s → Complete P fuel s level g t fosc fis = .done (b, s1, level1) →
      s1 ≠ [] ∧ SeedMin s1) ∧
    (∀ (fuel i : Nat) (cb : Callback σ CommutableNode) (st st1 : σ)
      (log : List (CommutableNode × Bool)),
      GetRoot P fuel i (record cb) (st, []) = .done (st1, log) →
      ∀ e ∈ log, e.1.1 ≠ [] ∧ SeedMin e.1.1) := by
  refine ⟨?_, ?_⟩
  · intro fuel s level g t fosc fis b s1 level1 hmin h
    exact Complete_seedMin P hperm hfront fuel s level g t fosc fis b s1 level1 hmin h
  · intro fuel i cb st st1 log h e he
    rcases GetRoot_log P fuel i cb st st1 [] log h with rfl | ⟨s, level, _, hc, rfl⟩
    · simp at he
    · simp only [List.nil_append, List.mem_singleton] at he
      subst he
      exact Complete_seedMin P hperm hfront fuel [i] [0] none none true (-1, 0) false s level
        (by simp [SeedMin]) hc

/-- Witness of C6: the triangle, a completion from `{2}` that restarts and
returns `true`, one from `{2}` that returns `false`, and `GetRoot(2)`. -/
theorem complete_keeps_seed_minimal_witness :
    ResortPermutes K3 ∧ ResortKeepsFront K3 ∧
    (SeedMin [2] ∧
      Complete K3 20 [2] [0] none none false (-1, 0) = .done (true, [0, 1, 2], [0, 1, 1]) ∧
      ([0, 1, 2] ≠ [] ∧ SeedMin [0, 1, 2])) ∧
    (Complete K3 20 [2] [0] none none true (-1, 0) = .done (false, [0, 2], [0, 1]) ∧
      ([0, 2] ≠ [] ∧ SeedMin [0, 2])) ∧
    (GetRoot K3 20 2 (record cbTrue) ((), []) = .done ((), [(([0, 2], [0, 1]), true)]) ∧
      ∀ e ∈ [((([0, 2], [0, 1]) : CommutableNode), true)], e.1.1 ≠ [] ∧ SeedMin e.1.1) :=
  ⟨cliqueProblem_resortPermutes 3 adjK3, cliqueProblem_resortKeepsFront 3 adjK3,
    ⟨by decide, by decide,
      (@complete_keeps_seed_minimal Int Unit K3 (cliqueProblem_resortPermutes 3 adjK3)
        (cliqueProblem_resortKeepsFront 3 adjK3)).1 20 [2] [0] none none false (-1, 0)
        true [0, 1, 2] [0, 1, 1] (by decide) (by decide)⟩,
    ⟨by decide,
      (@complete_keeps_seed_minimal Int Unit K3 (cliqueProblem_resortPermutes 3 adjK3)
        (cliqueProblem_resortKeepsFront 3 adjK3)).1 20 [2] [0] none none true (-1, 0)
        false [0, 2] [0, 1] (by decide) (by decide)⟩,
    ⟨rfl,
      (complete_keeps_seed_minimal K3 (cliqueProblem_resortPermutes 3 adjK3)
        (cliqueProblem_resortKeepsFront 3 adjK3)).2 20 2 cbTrue () ()
        [(([0, 2], [0, 1]), true)] rfl⟩⟩

/-- C7: when `Resort` returns a permutation, a call of `Complete` with a
target that returns `true` leaves in `s` only nodes of the initial `s` and
members of the target (hence a subset of the target when the initial `s` is
one); at the iteration where the queue yields an admissible node outside the
target the inner loop stops with `return false`, `s` and `level` as they
were; and a pass stopped by `return false` makes the call return `false`. -/
theorem complete_target_gate {Aux : Type} (P : Problem Aux) (hperm : ResortPermutes P) :
    (∀ (fuel : Nat) (s : List Nat) (level : List Int) (g : Option (List Nat)) (t : List Nat)
      (fosc : Bool) (fis : Int × Nat) (s1 : List Nat) (level1 : List Int),
      Complete P fuel s level g (some t) fosc fis = .done (true, s1, level1) →
      (∀ x ∈ s1, x ∈ s ∨ x ∈ t) ∧ ((∀ x ∈ s, x ∈ t) → ∀ x ∈ s1, x ∈ t)) ∧
    (∀ (fuel : Nat) (s : List Nat) (level : List Int) (aux : Aux) (c : Candidates)
      (n : Nat) (g : Option (List Nat)) (t : List Nat) (fosc : Bool) (fis : Int × Nat)
      (next : Nat) (lv : Int) (c1 : Candidates),
      Candidates.Next P g s aux fuel c = .done (some (next, lv), c1) → next ∉ t →
      Complete.loop P g (some t) fosc fis (fuel + 1) s level aux c n
        = .done (.failed s level)) ∧
    (∀ (fuel : Nat) (s0 : Nat) (rest : List Nat) (level : List Int) (g : Option (List Nat))
      (t : List Nat) (fosc : Bool) (fis : Int × Nat) (s1 : List Nat) (level1 : List Int),
      Complete.loop P g (some t) fosc fis fuel (s0 :: rest) level (P.InitAux (s0 :: rest))
        (Candidates.Add P g Candidates.empty s0 0) 1 = .done (.failed s1 level1) →
      Complete P (fuel + 1) (s0 :: rest) level g (some t) fosc fis
        = .done (false, s1, level1)) := by
  refine ⟨?_, ?_, ?_⟩
  · intro fuel s level g t fosc fis s1 level1 h
    have h1 := Complete_subset_target P hperm fuel s level g t fosc fis true s1 level1 h
    refine ⟨h1, ?_⟩
    intro hs x hx
    rcases h1 x hx with h2 | h2
    · exact hs x h2
    · exact h2
  · intro fuel s level aux c n g t fosc fis next lv c1 hnext hout
    exact Complete.loop_gate P g t fosc fis fuel s level aux c n next lv c1 hnext hout
  · intro fuel s0 rest level g t fosc fis s1 level1 h
    exact Complete_of_loop_failed P g (some t) fosc fis fuel s0 rest level s1 level1 h

/-- Witness of C7: on the triangle, the completion of `{1}` inside the target
`{2, 1, 0}` returns `true`; the pass from `{0, 1}` inside the target `{0, 1}`
receives the node 2 from the queue and fails, and so does the call. -/
theorem complete_target_gate_witness :
    ResortPermutes K3 ∧
    (Complete K3 20 [1] [0] none (some [2, 1, 0]) false (-1, 0)
        = .done (true, [0, 1, 2], [0, 1, 1]) ∧
      ((∀ x ∈ [0, 1, 2], x ∈ [1] ∨ x ∈ [2, 1, 0]) ∧
        ((∀ x ∈ [1], x ∈ [2, 1, 0]) → ∀ x ∈ [0, 1, 2], x ∈ [2, 1, 0]))) ∧
    (Candidates.Next K3 none [0, 1] 0 10 (Candidates.Add K3 none Candidates.empty 0 0)
        = .done (some (2, 1), ⟨[], [⟨4, 0, 0⟩]⟩) ∧ 2 ∉ [0, 1] ∧
      Complete.loop K3 none (some [0, 1]) false (-1, 0) (10 + 1) [0, 1] [0, 1] 0
        (Candidates.Add K3 none Candidates.empty 0 0) 1 = .done (.failed [0, 1] [0, 1])) ∧
    (Complete.loop K3 none (some [0, 1]) false (-1, 0) 11 (0 :: [1]) [0, 1]
        (K3.InitAux (0 :: [1])) (Candidates.Add K3 none Candidates.empty 0 0) 1
        = .done (.failed [0, 1] [0, 1]) ∧
      Complete K3 (11 + 1) (0 :: [1]) [0, 1] none (some [0, 1]) false (-1, 0)
        = .done (false, [0, 1], [0, 1])) :=
  ⟨cliqueProblem_resortPermutes 3 adjK3,
    ⟨by decide,
      (complete_target_gate K3 (cliqueProblem_resortPermutes 3 adjK3)).1 20 [1] [0] none
        [2, 1, 0] false (-1, 0) [0, 1, 2] [0, 1, 1] (by decide)⟩,
    ⟨by decide, by decide,
      (complete_target_gate K3 (cliqueProblem_resortPermutes 3 adjK3)).2.1 10 [0, 1] [0, 1] 0
        (Candidates.Add K3 none Candidates.empty 0 0) 1 none [0, 1] false (-1, 0) 2 1
        ⟨[], [⟨4, 0, 0⟩]⟩ (by decide) (by decide)⟩,
    ⟨by decide,
      (complete_target_gate K3 (cliqueProblem_resortPermutes 3 adjK3)).2.2 11 0 [1] [0, 1]
        none [0, 1] false (-1, 0) [0, 1] [0, 1] (by decide)⟩⟩

/-- C8: in a run of `Children`, and so of `ListChildren`, that returns, if
the emission callback returned `false` at its call number `k + 1` then it was
called `k + 1` times in all: no child is emitted after the first `false`. -/
theorem children_stop_at_first_false {Aux σ : Type} (P : Problem Aux) (fuel : Nat)
    (cb : Callback σ CommutableNode) (st st1 : σ) (log : List (CommutableNode × Bool)) :
    (∀ (s : List Nat) (level : List Int) (b : Bool),
      Children P fuel s level (record cb) (st, []) = .done (b, st1, log) →
      ∀ (k : Nat) (hk : k < log.length), (log.get ⟨k, hk⟩).2 = false → log.length = k + 1) ∧
    (∀ (node : CommutableNode),
      ListChildren P fuel node (record cb) (st, []) = .done (st1, log) →
      ∀ (k : Nat) (hk : k < log.length), (log.get ⟨k, hk⟩).2 = false → log.length = k + 1) := by
  refine ⟨?_, ?_⟩
  · intro s level b h k hk hf
    exact stops_at_false_of_state (b, st1, log)
      (Children_cancel P fuel s level cb st _ h) k hk hf
  · intro node h k hk hf
    unfold ListChildren at h
    split at h
    · simp at h
    · simp at h
    · simp at h
    · rename_i r hc
      simp only [Run.done.injEq] at h
      have h1 := Children_cancel P fuel node.1 node.2 cb st r hc
      have h2 : r = (r.1, st1, log) := by rw [← h]
      rw [h2] at h1
      exact stops_at_false_of_state (r.1, st1, log) h1 k hk hf

/-- Witness of C8: on the star, the node `({0, 1}, {0, 1})` has the two
children `{0, 2}` and `{0, 3}`; a callback that returns `false` at its first
call is called once. -/
theorem children_stop_at_first_false_witness :
    ListChildren star4 30 ([0, 1], [0, 1]) (record cbTrue) ((), [])
      = .done ((), [(([0, 2], [0, 1]), true), (([0, 3], [0, 1]), true)]) ∧
    ListChildren star4 30 ([0, 1], [0, 1]) (record (cbStopAt 1)) ((0 : Nat), [])
      = .done ((1 : Nat), [(([0, 2], [0, 1]), false)]) ∧
    [((([0, 2], [0, 1]) : CommutableNode), false)].length = 0 + 1 :=
  ⟨rfl, rfl,
    (children_stop_at_first_false star4 30 (cbStopAt 1) 0 1 [(([0, 2], [0, 1]), false)]).2
      ([0, 1], [0, 1]) rfl 0 (by decide) rfl⟩

/-- C10: when `Next` returns `true` with `(n, lv)`, the node `n` is not in
the current solution `s` and `CanAdd(s, aux, n)` holds; when `Next` returns
`false`, the heap is empty. -/
theorem next_postcondition {Aux : Type} (P : Problem Aux) (g : Option (List Nat))
    (s : List Nat) (aux : Aux) (fuel : Nat) (c : Candidates) (r : Option (Nat × Int))
    (c1 : Candidates) (h : Candidates.Next P g s aux fuel c = .done (r, c1)) :
    (∀ n lv, r = some (n, lv) → n ∉ s ∧ P.CanAdd s aux n = true) ∧
    (r = none → c1.pq = []) :=
  Next_post P g s aux fuel c r c1 h

/-- Witness of C10: on the star with `s = {0, 1}`, the queue of the seed 0
yields nothing and ends empty; with `s = {0}` it yields the node 1. -/
theorem next_postcondition_witness :
    (Candidates.Next star4 none [0, 1] 0 10 (Candidates.Add star4 none Candidates.empty 0 0)
        = .done (none, ⟨[], [⟨5, 0, 0⟩]⟩) ∧
      ((∀ n lv, (none : Option (Nat × Int)) = some (n, lv) →
          n ∉ [0, 1] ∧ star4.CanAdd [0, 1] 0 n = true) ∧
        ((none : Option (Nat × Int)) = none → (⟨[], [⟨5, 0, 0⟩]⟩ : Candidates).pq = []))) ∧
    (Candidates.Next star4 none [0] 0 10 (Candidates.Add star4 none Candidates.empty 0 0)
        = .done (some (1, 1), ⟨[⟨1, 2, 0⟩], [⟨3, 0, 0⟩]⟩) ∧
      ((∀ n lv, some ((1 : Nat), (1 : Int)) = some (n, lv) →
          n ∉ [0] ∧ star4.CanAdd [0] 0 n = true) ∧
        (some ((1 : Nat), (1 : Int)) = none →
          (⟨[⟨1, 2, 0⟩], [⟨3, 0, 0⟩]⟩ : Candidates).pq = []))) :=
  ⟨⟨by decide,
      next_postcondition star4 none [0, 1] 0 10
        (Candidates.Add star4 none Candidates.empty 0 0) none ⟨[], [⟨5, 0, 0⟩]⟩ (by decide)⟩,
    ⟨by decide,
      next_postcondition star4 none [0] 0 10
        (Candidates.Add star4 none Candidates.empty 0 0) (some (1, 1))
        ⟨[⟨1, 2, 0⟩], [⟨3, 0, 0⟩]⟩ (by decide)⟩⟩

/-- C11: with the default `CompleteCandNum` (no ground set or a ground set)
and a `Resort` that keeps position 0, `Complete` terminates on every
non-empty input: every pass ends after finitely many pops; a pass left by a
seed change hands to the next pass a node vector whose `s[0]` is strictly
smaller than the `s[0]` it started with; and with enough fuel the call
returns, or ends with the exception `Resort` throws. -/
theorem complete_terminates {Aux : Type} (P : Problem Aux)
    (hccn : P.CompleteCandNum = Default.CompleteCandNum P.graph_size)
    (hfront : ResortKeepsFront P) :
    (∀ (s0 : Nat) (rest : List Nat) (level : List Int) (g t : Option (List Nat))
      (fosc : Bool) (fis : Int × Nat),
      ∃ fuel e, Complete.loop P g t fosc fis fuel (s0 :: rest) level (P.InitAux (s0 :: rest))
        (Candidates.Add P g Candidates.empty s0 0) 1 = .done e) ∧
    (∀ (fuel : Nat) (s0 : Nat) (rest : List Nat) (level : List Int) (g t : Option (List Nat))
      (fosc : Bool) (fis : Int × Nat) (s1 : List Nat) (level1 : List Int) (s2 : List Nat)
      (level2 : List Int) (seed : Nat),
      Complete.loop P g t fosc fis fuel (s0 :: rest) level (P.InitAux (s0 :: rest))
        (Candidates.Add P g Candidates.empty s0 0) 1 = .done (.seedChange s1 level1) →
      P.Resort s1 level1 seed = some (s2, level2) →
      ∃ x r, s2 = x :: r ∧ x < s0) ∧
    (∀ (s0 : Nat) (rest : List Nat) (level : List Int) (g t : Option (List Nat))
      (fosc : Bool) (fis : Int × Nat),
      ∃ fuel, (∃ r, Complete P fuel (s0 :: rest) level g t fosc fis = .done r) ∨
        (Complete P fuel (s0 :: rest) level g t fosc fis = .thrown ∧
          ∃ a b c, P.Resort a b c = none)) := by
  refine ⟨?_, ?_, ?_⟩
  · intro s0 rest level g t fosc fis
    exact Complete.loop_terminates P hccn g t fosc fis _ (s0 :: rest) level _ _ 1
      (Candidates.Add_consistent P g _ s0 0 (Candidates.consistent_empty P g)) (le_refl _)
  · intro fuel s0 rest level g t fosc fis s1 level1 s2 level2 seed hl hr
    obtain ⟨_, x, r, hs1, hx⟩ :=
      Complete.loop_seedChange_head P g t fosc fis fuel s0 rest level _ _ _ s1 level1 hl
    subst hs1
    have hh := hfront _ _ _ _ _ hr
    cases s2 with
    | nil => simp at hh
    | cons x2 r2 =>
      simp only [List.head?_cons, Option.some.injEq] at hh
      subst hh
      exact ⟨x2, r2, rfl, hx⟩
  · intro s0 rest level g t fosc fis
    exact Complete_terminates P hccn hfront g t fosc fis s0 s0 rest level (le_refl _)

/-- Witness of C11: on the triangle the pass from `{2}` is left by a seed
change with `s = {0, 2}`, and the call from `{2}` returns. -/
theorem complete_terminates_witness :
    K3.CompleteCandNum = Default.CompleteCandNum K3.graph_size ∧ ResortKeepsFront K3 ∧
    (∃ fuel e, Complete.loop K3 none none false (-1, 0) fuel (2 :: []) [0]
      (K3.InitAux (2 :: [])) (Candidates.Add K3 none Candidates.empty 2 0) 1 = .done e) ∧
    (Complete.loop K3 none none false (-1, 0) 10 (2 :: []) [0] (K3.InitAux (2 :: []))
        (Candidates.Add K3 none Candidates.empty 2 0) 1 = .done (.seedChange [0, 2] [0, 1]) ∧
      K3.Resort [0, 2] [0, 1] 0 = some ([0, 2], [0, 1]) ∧
      ∃ x r, [0, 2] = x :: r ∧ x < 2) ∧
    (∃ fuel, (∃ r, Complete K3 fuel (2 :: []) [0] none none false (-1, 0) = .done r) ∨
      (Complete K3 fuel (2 :: []) [0] none none false (-1, 0) = .thrown ∧
        ∃ a b c, K3.Resort a b c = none)) :=
  ⟨rfl, cliqueProblem_resortKeepsFront 3 adjK3,
    (complete_terminates K3 rfl (cliqueProblem_resortKeepsFront 3 adjK3)).1 2 [] [0] none none
      false (-1, 0),
    ⟨by decide, by decide,
      (complete_terminates K3 rfl (cliqueProblem_resortKeepsFront 3 adjK3)).2.1 10 2 [] [0]
        none none false (-1, 0) [0, 2] [0, 1] [0, 2] [0, 1] 0 (by decide) (by decide)⟩,
    (complete_terminates K3 rfl (cliqueProblem_resortKeepsFront 3 adjK3)).2.2 2 [] [0] none none
      false (-1, 0)⟩

/-- C12: when `Resort` returns a permutation, every return of `Complete`,
`true` or `false`, on an input whose nodes are pairwise distinct leaves the
nodes of `s` pairwise distinct, whatever the ground set, the target and the
flags. -/
theorem complete_keeps_nodes_distinct {Aux : Type} (P : Problem Aux)
    (hperm : ResortPermutes P) (fuel : Nat) (s : List Nat) (level : List Int)
    (g t : Option (List Nat)) (fosc : Bool) (fis : Int × Nat) (b : Bool) (s1 : List Nat)
    (level1 : List Int) (hs : s.Nodup)
    (h : Complete P fuel s level g t fosc fis = .done (b, s1, level1)) : s1.Nodup :=
  Complete_nodup P hperm fuel s level g t fosc fis b s1 level1 hs h

/-- Witness of C12: on the triangle, the completion of `{2}` that returns
`false` at the seed change. -/
theorem complete_keeps_nodes_distinct_witness :
    ResortPermutes K3 ∧ [2].Nodup ∧
    Complete K3 20 [2] [0] none none true (-1, 0) = .done (false, [0, 2], [0, 1]) ∧
    [0, 2].Nodup :=
  ⟨cliqueProblem_resortPermutes 3 adjK3, by decide, by decide,
    complete_keeps_nodes_distinct K3 (cliqueProblem_resortPermutes 3 adjK3) 20 [2] [0] none none
      true (-1, 0) false [0, 2] [0, 1] (by decide) (by decide)⟩

/-- C13: when `fail_on_seed_change` is set or the first component of
`fail_if_smaller_than` is not -1, the inner loop of `Complete` is never left
by the `break` of a seed change, so no pass is restarted; at the insertion
of a node smaller than `s[0]` it returns `false`, the node swapped to the
front; and when `Complete` returns `true`, the result is what `Resort` makes
of the initial `s` followed by nodes all greater than `s[0]`: with a `Resort`
that permutes and keeps position 0, `s[0]` is the initial `s[0]`. -/
theorem seed_change_guard {Aux : Type} (P : Problem Aux) (fosc : Bool) (fis : Int × Nat)
    (hguard : (fosc || fis.1 != -1) = true) :
    (∀ (fuel : Nat) (s0 : Nat) (rest : List Nat) (level : List Int) (aux : Aux)
      (c : Candidates) (n : Nat) (g t : Option (List Nat)) (s1 : List Nat) (level1 : List Int),
      Complete.loop P g t fosc fis fuel (s0 :: rest) level aux c n
        ≠ .done (.seedChange s1 level1)) ∧
    (∀ (fuel : Nat) (s0 : Nat) (rest : List Nat) (level : List Int) (aux : Aux)
      (c : Candidates) (n : Nat) (g t : Option (List Nat)) (next : Nat) (lv : Int)
      (c1 : Candidates),
      Candidates.Next P g (s0 :: rest) aux fuel c = .done (some (next, lv), c1) →
      is_in_target t next = true → ¬ pairLt (lv, next) fis → next < s0 →
      Complete.loop P g t fosc fis (fuel + 1) (s0 :: rest) level aux c n
        = .done (.failed (next :: (rest ++ [s0])) (level ++ [lv]))) ∧
    (∀ (fuel : Nat) (s0 : Nat) (rest : List Nat) (level : List Int) (g t : Option (List Nat))
      (s2 : List Nat) (level2 : List Int),
      Complete P fuel (s0 :: rest) level g t fosc fis = .done (true, s2, level2) →
      ∃ app level1, P.Resort ((s0 :: rest) ++ app) level1 s0 = some (s2, level2) ∧
        (∀ x ∈ app, s0 < x) ∧
        (ResortPermutes P → s2.Perm ((s0 :: rest) ++ app)) ∧
        (ResortKeepsFront P → s2.head? = some s0)) := by
  refine ⟨?_, ?_, ?_⟩
  · intro fuel s0 rest level aux c n g t s1 level1 h
    have := (Complete.loop_seedChange_head P g t fosc fis fuel s0 rest level aux c n s1 level1
      h).1
    rw [hguard] at this
    simp at this
  · intro fuel s0 rest level aux c n g t next lv c1 hnext htgt hfis hlt
    exact Complete.loop_guard_fails P g t fosc fis hguard fuel s0 rest level aux c n next lv c1
      hnext htgt hfis hlt
  · intro fuel s0 rest level g t s2 level2 h
    obtain ⟨app, level1, hr, happ⟩ :=
      Complete_guard_true P g t fosc fis hguard fuel s0 rest level s2 level2 h
    refine ⟨app, level1, hr, happ, ?_, ?_⟩
    · intro hperm
      exact hperm _ _ _ _ _ hr
    · intro hfront
      rw [hfront _ _ _ _ _ hr]
      rfl

/-- Witness of C13: on the triangle with `fail_on_seed_change` set, the pass
from `{1}` receives the node 0 and returns `false` with `s = {0, 1}`, and
the call from `{0}` returns `true` with `s[0] = 0`. -/
theorem seed_change_guard_witness :
    (true || ((-1 : Int), (0 : Nat)).1 != -1) = true ∧
    (Complete.loop K3 none none true (-1, 0) 10 (1 :: []) [0] 0
        (Candidates.Add K3 none Candidates.empty 1 0) 1
        ≠ .done (.seedChange [0, 1] [0, 1])) ∧
    (Candidates.Next K3 none (1 :: []) 0 10 (Candidates.Add K3 none Candidates.empty 1 0)
        = .done (some (0, 1), ⟨[⟨1, 1, 0⟩], [⟨2, 1, 0⟩]⟩) ∧
      Complete.loop K3 none none true (-1, 0) (10 + 1) (1 :: []) [0] 0
        (Candidates.Add K3 none Candidates.empty 1 0) 1
        = .done (.failed (0 :: ([] ++ [1])) ([0] ++ [1]))) ∧
    (Complete K3 20 (0 :: []) [0] none none true (-1, 0) = .done (true, [0, 1, 2], [0, 1, 1]) ∧
      ∃ app level1, K3.Resort ((0 :: []) ++ app) level1 0 = some ([0, 1, 2], [0, 1, 1]) ∧
        (∀ x ∈ app, 0 < x) ∧
        (ResortPermutes K3 → [0, 1, 2].Perm ((0 :: []) ++ app)) ∧
        (ResortKeepsFront K3 → [0, 1, 2].head? = some 0)) :=
  ⟨by decide,
    (seed_change_guard K3 true (-1, 0) (by decide)).1 10 1 [] [0] 0
      (Candidates.Add K3 none Candidates.empty 1 0) 1 none none [0, 1] [0, 1],
    ⟨by decide,
      (seed_change_guard K3 true (-1, 0) (by decide)).2.1 10 1 [] [0] 0
        (Candidates.Add K3 none Candidates.empty 1 0) 1 none none 0 1
        ⟨[⟨1, 1, 0⟩], [⟨2, 1, 0⟩]⟩ (by decide) (by decide) (by decide) (by decide)⟩,
    ⟨by decide,
      (seed_change_guard K3 true (-1, 0) (by decide)).2.2 20 0 [] [0] none none
        [0, 1, 2] [0, 1, 1] (by decide)⟩⟩

/-- C14: when the ground set has one node, 0 is the only index below
`MaxRoots()` and a call of `GetRoot` invokes the callback at most once, so
the calls `GetRoot(i, cb)` for all `i` below `MaxRoots()` invoke it at most
once in total; and `ListChildren` returns without invoking its callback, for
every node. -/
theorem one_node_ground_set {Aux σ : Type} (P : Problem Aux) (hN : P.graph_size = 1) :
    ((∀ i, i < MaxRoots P → i = 0) ∧
      ∀ (fuel i : Nat) (cb : Callback σ CommutableNode) (st st1 : σ)
        (log log1 : List (CommutableNode × Bool)),
        GetRoot P fuel i (record cb) (st, log) = .done (st1, log1) →
        log1.length ≤ log.length + 1) ∧
    (∀ (fuel : Nat) (cb : Callback σ CommutableNode) (st st1 : σ)
      (log : List (CommutableNode × Bool)),
      GetRoots P fuel (record cb) (List.range (MaxRoots P)) (st, []) = .done (st1, log) →
      log.length ≤ 1) ∧
    (∀ (fuel : Nat) (node : CommutableNode) (cb : Callback σ CommutableNode) (st : σ),
      ListChildren P fuel node (record cb) (st, []) = .done (st, [])) := by
  refine ⟨⟨?_, ?_⟩, ?_, ?_⟩
  · intro i hi
    unfold MaxRoots at hi
    omega
  · intro fuel i cb st st1 log log1 h
    rcases GetRoot_log P fuel i cb st st1 log log1 h with rfl | ⟨s, level, _, _, rfl⟩
    · omega
    · simp
  · intro fuel cb st st1 log h
    have := GetRoots_range_one P hN fuel cb st st1 [] log h
    simpa using this
  · intro fuel node cb st
    unfold ListChildren
    rw [Children_graph_size_one P hN]

/-- Witness of C14: the graph on one node. -/
theorem one_node_ground_set_witness :
    oneNode.graph_size = 1 ∧
    (GetRoot oneNode 20 0 (record cbTrue) ((), []) = .done ((), []) ∧
      ([] : List (CommutableNode × Bool)).length
        ≤ ([] : List (CommutableNode × Bool)).length + 1) ∧
    (GetRoots oneNode 20 (record cbTrue) (List.range (MaxRoots oneNode)) ((), [])
        = .done ((), []) ∧
      ([] : List (CommutableNode × Bool)).length ≤ 1) ∧
    ListChildren oneNode 20 ([0], [0]) (record cbTrue) ((), []) = .done ((), []) :=
  ⟨rfl,
    ⟨rfl, (@one_node_ground_set Int Unit oneNode rfl).1.2 20 0 cbTrue () () [] [] rfl⟩,
    ⟨rfl, (@one_node_ground_set Int Unit oneNode rfl).2.1 20 cbTrue () () [] rfl⟩,
    (@one_node_ground_set Int Unit oneNode rfl).2.2 20 ([0], [0]) cbTrue ()⟩

/-- C15: when `IsSeed(i, null)` is false, `GetRoot(i, cb)` returns without
invoking `cb` and without calling `Complete` (it returns even with no fuel
at all). -/
theorem getRoot_skips_non_seed {Aux σ : Type} (P : Problem Aux) (i : Nat)
    (hseed : P.IsSeed i none = false) (fuel : Nat) (cb : Callback σ CommutableNode)
    (st : σ) :
    GetRoot P fuel i cb st = .done st ∧
    GetRoot P 0 i cb st = .done st ∧
    ∀ log : List (CommutableNode × Bool),
      GetRoot P fuel i (record cb) (st, log) = .done (st, log) := by
  refine ⟨?_, ?_, ?_⟩
  · simp [GetRoot, hseed]
  · simp [GetRoot, hseed]
  · intro log
    simp [GetRoot, hseed]

/-- Witness of C15: the odd node 1 of `evens4`. -/
theorem getRoot_skips_non_seed_witness :
    evens4.IsSeed 1 none = false ∧
    GetRoot evens4 20 1 cbTrue () = .done () ∧
    GetRoot evens4 0 1 cbTrue () = .done () ∧
    ∀ log : List (CommutableNode × Bool),
      GetRoot evens4 20 1 (record cbTrue) ((), log) = .done ((), log) :=
  ⟨by decide, getRoot_skips_non_seed evens4 1 (by decide) 20 cbTrue ()⟩

/-- C16, where the code departs from the claim. Given `s = []`,
`OldComplete` and `CompleteInside` throw, but `Complete` has no such test:
it goes on to read `s[0]` of the empty vector, which is undefined behaviour
and not an error that ends the call. -/
theorem complete_has_no_empty_check {Aux : Type} (P : Problem Aux) (fuel : Nat)
    (level : List Int) (g t : Option (List Nat)) (fosc : Bool) (fis : Int × Nat)
    (stop_on_seed_change : Bool) (inside : List Nat) (change_seed : Bool) :
    OldComplete P fuel [] level stop_on_seed_change = .thrown ∧
    CompleteInside P fuel [] level inside change_seed = .thrown ∧
    Complete P (fuel + 1) [] level g t fosc fis = .undefined := by
  refine ⟨?_, ?_, ?_⟩
  · simp [OldComplete]
  · simp [CompleteInside]
  · simp [Complete]

/-- C17, where the code departs from the claim. On the star, `Children` of
`({0, 1}, {0, 1})` returns `true` when the callback never returns `false`
and every child was tried, and returns `false` when it stopped because the
callback returned `false`: it returns `not_done`. -/
theorem children_returns_not_done :
    Children star4 30 [0, 1] [0, 1] (record cbTrue) ((), [])
      = .done (true, (), [(([0, 2], [0, 1]), true), (([0, 3], [0, 1]), true)]) ∧
    Children star4 30 [0, 1] [0, 1] (record (cbStopAt 1)) ((0 : Nat), [])
      = .done (false, (1 : Nat), [(([0, 2], [0, 1]), false)]) :=
  ⟨rfl, rfl⟩

/-- C18: in every queue that calls of `Add` and `Next` produce from a fresh
one, the levels given to `Add` being `int32_t` values below `INT32_MAX` (so
that the `+ 1` of line 343 does not overflow), no stream has two entries in
the heap; every entry is the item of its stream (one level above the owner,
which is again an `int32_t`, the candidate `CompleteCandNum` gave at the last
consumed index, the stream's number); and a stream whose last consumed index
gave a candidate has that item in the heap, so a stream has an entry exactly
when it is not exhausted. Every pop of `Next` moves the index of the popped
entry's stream by one and leaves the other streams as they were, before the
popped node is tested, whatever the test gives. -/
theorem queue_one_item_per_stream {Aux : Type} (P : Problem Aux) (g : Option (List Nat)) :
    (∀ c, Candidates.Reachable P g c →
      (c.pq.map CandIter.iter).Nodup ∧
      (∀ p ∈ c.pq, ∃ inf, c.info[p.iter]? = some inf ∧ 1 ≤ inf.idx ∧
        P.CompleteCandNum g inf.owner p.iter (inf.idx - 1) = some p.node ∧
        p.level = inf.lvl + 1 ∧ int32Min < p.level ∧ p.level ≤ int32Max) ∧
      (∀ j inf, c.info[j]? = some inf → 1 ≤ inf.idx ∧
        (int32Min ≤ inf.lvl ∧ inf.lvl < int32Max) ∧
        ∀ cand, P.CompleteCandNum g inf.owner j (inf.idx - 1) = some cand →
          (⟨inf.lvl + 1, cand, j⟩ : CandIter) ∈ c.pq)) ∧
    (∀ c p, Candidates.Reachable P g c → pqTop c.pq = some p →
      ∃ inf, c.info[p.iter]? = some inf ∧
        (Candidates.InsertInPQ P g { c with pq := c.pq.erase p } p.iter).info
          = c.info.set p.iter { inf with idx := inf.idx + 1 } ∧
        ∀ (s : List Nat) (aux : Aux) (fuel : Nat),
          Candidates.Next P g s aux (fuel + 1) c =
            if Candidates.CanReallyAdd P s aux p.node then
              .done (some (p.node, p.level),
                Candidates.InsertInPQ P g { c with pq := c.pq.erase p } p.iter)
            else Candidates.Next P g s aux fuel
              (Candidates.InsertInPQ P g { c with pq := c.pq.erase p } p.iter)) := by
  refine ⟨?_, ?_⟩
  · intro c hc
    obtain ⟨h1, h2⟩ := Candidates.reachable_inv P g c hc
    refine ⟨h1.2, ?_, ?_⟩
    · intro p hp
      obtain ⟨inf, e1, e2, e3, e4⟩ := h1.1 p hp
      obtain ⟨b1, b2⟩ := Candidates.reachable_lvl P g c hc p.iter inf e1
      refine ⟨inf, e1, e2, e3, e4, ?_, ?_⟩
      · rw [e4]; omega
      · rw [e4]; omega
    · intro j inf hj
      exact ⟨(h2 j inf hj).1, Candidates.reachable_lvl P g c hc j inf hj, (h2 j inf hj).2⟩
  · intro c p hc hp
    obtain ⟨h1, _⟩ := Candidates.reachable_inv P g c hc
    obtain ⟨inf, p1, _, _, _, heq⟩ := Candidates.pop_eq P g c p h1 (pqTop_mem hp)
    refine ⟨inf, p1, by rw [heq], ?_⟩
    intro s aux fuel
    exact Candidates.Next_succ_of_top P g s aux fuel c p hp

/-- Witness of C18: on the triangle, the queue after `Add(0, 2147483646)`
holds the one entry `(2147483647, 0, 0)`, of the stream of owner 0 at
index 1; the queue after `Add(0, 0)` holds the one entry `(1, 0, 0)`, and
popping it moves stream 0 from index 1 to index 2. -/
theorem queue_one_item_per_stream_witness :
    (Candidates.Reachable K3 none (Candidates.Add K3 none Candidates.empty 0 2147483646) ∧
      Candidates.Add K3 none Candidates.empty 0 2147483646
        = ⟨[⟨2147483647, 0, 0⟩], [⟨1, 0, 2147483646⟩]⟩ ∧
      ((Candidates.Add K3 none Candidates.empty 0 2147483646).pq.map CandIter.iter).Nodup) ∧
    Candidates.Reachable K3 none (Candidates.Add K3 none Candidates.empty 0 0) ∧
    Candidates.Add K3 none Candidates.empty 0 0 = ⟨[⟨1, 0, 0⟩], [⟨1, 0, 0⟩]⟩ ∧
    pqTop (Candidates.Add K3 none Candidates.empty 0 0).pq = some ⟨1, 0, 0⟩ ∧
    (∃ inf, (Candidates.Add K3 none Candidates.empty 0 0).info[(⟨1, 0, 0⟩ : CandIter).iter]?
        = some inf ∧
      (Candidates.InsertInPQ K3 none
          { Candidates.Add K3 none Candidates.empty 0 0 with
            pq := (Candidates.Add K3 none Candidates.empty 0 0).pq.erase ⟨1, 0, 0⟩ }
          (⟨1, 0, 0⟩ : CandIter).iter).info
        = (Candidates.Add K3 none Candidates.empty 0 0).info.set (⟨1, 0, 0⟩ : CandIter).iter
            { inf with idx := inf.idx + 1 } ∧
      ∀ (s : List Nat) (aux : Int) (fuel : Nat),
        Candidates.Next K3 none s aux (fuel + 1) (Candidates.Add K3 none Candidates.empty 0 0) =
          if Candidates.CanReallyAdd K3 s aux (⟨1, 0, 0⟩ : CandIter).node then
            .done (some ((⟨1, 0, 0⟩ : CandIter).node, (⟨1, 0, 0⟩ : CandIter).level),
              Candidates.InsertInPQ K3 none
                { Candidates.Add K3 none Candidates.empty 0 0 with
                  pq := (Candidates.Add K3 none Candidates.empty 0 0).pq.erase ⟨1, 0, 0⟩ }
                (⟨1, 0, 0⟩ : CandIter).iter)
          else Candidates.Next K3 none s aux fuel
            (Candidates.InsertInPQ K3 none
              { Candidates.Add K3 none Candidates.empty 0 0 with
                pq := (Candidates.Add K3 none Candidates.empty 0 0).pq.erase ⟨1, 0, 0⟩ }
              (⟨1, 0, 0⟩ : CandIter).iter)) :=
  ⟨⟨Candidates.Reachable.add _ 0 2147483646 (by decide) (by decide) Candidates.Reachable.empty,
      by decide,
      ((queue_one_item_per_stream K3 none).1
        (Candidates.Add K3 none Candidates.empty 0 2147483646)
        (Candidates.Reachable.add _ 0 2147483646 (by decide) (by decide)
          Candidates.Reachable.empty)).1⟩,
    Candidates.Reachable.add _ 0 0 (by decide) (by decide) Candidates.Reachable.empty,
    by decide, by decide,
    (queue_one_item_per_stream K3 none).2 (Candidates.Add K3 none Candidates.empty 0 0)
      ⟨1, 0, 0⟩
      (Candidates.Reachable.add _ 0 0 (by decide) (by decide) Candidates.Reachable.empty)
      (by decide)⟩

/-- C19: a node returned by `Next` is never `s[next_in_s]`, whatever
`next_in_s`, so the branch `next_in_s++` is never taken: an iteration of
the inner loop that receives a node either leaves the loop or goes on with
the same `next_in_s`, the node appended to `s` and a stream opened for it;
a pass starts with the one stream of `s[0]`, and the owners of the streams
are then `s[0]` followed by the appended nodes. -/
theorem already_present_branch_never_taken {Aux : Type} (P : Problem Aux)
    (g t : Option (List Nat)) (fosc : Bool) (fis : Int × Nat) :
    (∀ (fuel : Nat) (s : List Nat) (aux : Aux) (c : Candidates) (next : Nat) (lv : Int)
      (c1 : Candidates) (n : Nat),
      Candidates.Next P g s aux fuel c = .done (some (next, lv), c1) →
      n ≥ s.length ∨ s[n]? ≠ some next) ∧
    (∀ (fuel : Nat) (s : List Nat) (level : List Int) (aux : Aux) (c : Candidates) (n : Nat)
      (next : Nat) (lv : Int) (c1 : Candidates),
      Candidates.Next P g s aux fuel c = .done (some (next, lv), c1) →
      Complete.loop P g t fosc fis (fuel + 1) s level aux c n =
        match Complete.onInsert P t fosc fis s level aux next lv with
        | .inl e => .done e
        | .inr (s1, level1, aux1) =>
          Complete.loop P g t fosc fis fuel s1 level1 aux1 (Candidates.Add P g c1 next lv) n) ∧
    (∀ (s : List Nat) (level : List Int) (aux : Aux) (next : Nat) (lv : Int),
      (∀ s1 level1 aux1,
        Complete.onInsert P t fosc fis s level aux next lv = .inr (s1, level1, aux1) →
        s1 = s ++ [next] ∧ level1 = level ++ [lv]) ∧
      (∀ e, Complete.onInsert P t fosc fis s level aux next lv = .inl e →
        e = .failed s level ∨ e.s = swapFrontBack (s ++ [next]))) ∧
    (∀ s0 : Nat, (Candidates.Add P g Candidates.empty s0 0).owners = [s0]) ∧
    (∀ (fuel : Nat) (s : List Nat) (aux : Aux) (c : Candidates) (next : Nat) (lv : Int)
      (c1 : Candidates) (s0 : Nat) (app : List Nat), c.owners = s0 :: app →
      Candidates.Next P g s aux fuel c = .done (some (next, lv), c1) →
      (Candidates.Add P g c1 next lv).owners = s0 :: (app ++ [next])) := by
  refine ⟨?_, ?_, ?_, ?_, ?_⟩
  · intro fuel s aux c next lv c1 n hnext
    have hns : next ∉ s := ((Next_post P g s aux fuel c _ c1 hnext).1 next lv rfl).1
    right
    intro hx
    exact hns (List.getElem?_mem hx)
  · intro fuel s level aux c n next lv c1 hnext
    exact Complete.loop_succ_of_Next P g t fosc fis fuel s level aux c n next lv c1 hnext
  · intro s level aux next lv
    refine ⟨?_, ?_⟩
    · intro s1 level1 aux1 h
      obtain ⟨h1, h2, _, _⟩ :=
        Complete.onInsert_inr P t fosc fis s level aux next lv s1 level1 aux1 h
      exact ⟨h1, h2⟩
    · intro e h
      exact Complete.onInsert_inl P t fosc fis s level aux next lv e h
  · intro s0
    rw [Candidates.Add_owners]
    rfl
  · intro fuel s aux c next lv c1 s0 app ho hnext
    rw [Candidates.Add_owners, Candidates.Next_owners P g s aux fuel c _ c1 hnext, ho]
    rfl

/-- Witness of C19: on the triangle with `s = {0, 1}` the queue of the seed
returns the node 2, which is not `s[1]`, and the pass appends it. -/
theorem already_present_branch_never_taken_witness :
    Candidates.Next K3 none [0, 1] 0 10 (Candidates.Add K3 none Candidates.empty 0 0)
      = .done (some (2, 1), ⟨[], [⟨4, 0, 0⟩]⟩) ∧
    (1 ≥ [0, 1].length ∨ [0, 1][1]? ≠ some 2) ∧
    (Candidates.Add K3 none Candidates.empty 0 0).owners = 0 :: [] ∧
    (Candidates.Add K3 none ⟨[], [⟨4, 0, 0⟩]⟩ 2 1).owners = 0 :: ([] ++ [2]) ∧
    Complete.loop K3 none none false (-1, 0) (10 + 1) [0, 1] [0, 1] 0
        (Candidates.Add K3 none Candidates.empty 0 0) 1 =
      match Complete.onInsert K3 none false (-1, 0) [0, 1] [0, 1] 0 2 1 with
      | .inl e => .done e
      | .inr (s1, level1, aux1) =>
        Complete.loop K3 none none false (-1, 0) 10 s1 level1 aux1
          (Candidates.Add K3 none ⟨[], [⟨4, 0, 0⟩]⟩ 2 1) 1 :=
  ⟨by decide,
    (already_present_branch_never_taken K3 none none false (-1, 0)).1 10 [0, 1] 0
      (Candidates.Add K3 none Candidates.empty 0 0) 2 1 ⟨[], [⟨4, 0, 0⟩]⟩ 1 (by decide),
    by decide,
    (already_present_branch_never_taken K3 none none false (-1, 0)).2.2.2.2 10 [0, 1] 0
      (Candidates.Add K3 none Candidates.empty 0 0) 2 1 ⟨[], [⟨4, 0, 0⟩]⟩ 0 [] (by decide)
      (by decide),
    (already_present_branch_never_taken K3 none none false (-1, 0)).2.1 10 [0, 1] [0, 1] 0
      (Candidates.Add K3 none Candidates.empty 0 0) 1 2 1 ⟨[], [⟨4, 0, 0⟩]⟩ (by decide)⟩

/-- C20: when `Resort` keeps the length of the node vector, for a seed that
`ValidSeeds` passes (a node of `sol` below `cand`) the vectors `core` and
`clvl` that `GetPrefix` leaves are non-empty and of the same length; when
the correct-seed filter passes, `core` has at least two elements, so `p`,
the `core` without its last element, is non-empty and as long as `plvl`; and
the lambda of `Children` run on that seed never reads outside a vector. -/
theorem children_calls_complete_on_nonempty {Aux σ : Type} (P : Problem Aux)
    (hlen : ResortKeepsLength P) (s : List Nat) (level : List Int) (cand : Nat)
    (sol : List Nat) (seed : Nat) (core : List Nat) (clvl : List Int)
    (hmem : seed ∈ sol) (hlt : seed < cand)
    (hgp : GetPrefix P sol level seed cand = some (core, clvl)) :
    core ≠ [] ∧ clvl ≠ [] ∧ core.length = clvl.length ∧
    (∀ c0, core.head? = some c0 → seed = correctSeed c0 core →
      2 ≤ core.length ∧ core.dropLast ≠ [] ∧
        core.dropLast.length = clvl.dropLast.length) ∧
    (∀ (fuel : Nat) (cb : Callback σ CommutableNode) (st : Bool × σ),
      Children.onSeed P fuel s level cb cand sol st seed ≠ .undefined) := by
  obtain ⟨hl1, hl2⟩ := GetPrefix_lengths P sol level seed cand core clvl hgp
  refine ⟨?_, ?_, hl1, ?_, ?_⟩
  · intro hx
    rw [hx] at hl2
    simp at hl2
  · intro hx
    rw [hx] at hl1
    simp only [List.length_nil] at hl1
    omega
  · intro c0 hc0 hseed
    have h2 := GetPrefix_two P hlen sol level seed cand core clvl hmem hlt hgp c0 hc0 hseed
    refine ⟨h2, ?_, ?_⟩
    · intro hx
      have := congrArg List.length hx
      simp only [List.length_dropLast, List.length_nil] at this
      omega
    · simp only [List.length_dropLast]
      omega
  · intro fuel cb st
    exact Children.onSeed_ne_undefined P hlen fuel s level cb cand sol st seed hmem hlt

/-- Witness of C20: on the star, the parent `({0, 1}, {0, 1})`, the
candidate 2, the restricted solution `{0, 2}` and its seed 0. -/
theorem children_calls_complete_on_nonempty_witness :
    ResortKeepsLength star4 ∧ 0 ∈ [0, 2] ∧ 0 < 2 ∧
    GetPrefix star4 [0, 2] [0, 1] 0 2 = some ([0, 2], [0, 1]) ∧
    ([0, 2] ≠ [] ∧ ([0, 1] : List Int) ≠ [] ∧ [0, 2].length = ([0, 1] : List Int).length ∧
      (∀ c0, [0, 2].head? = some c0 → 0 = correctSeed c0 [0, 2] →
        2 ≤ [0, 2].length ∧ [0, 2].dropLast ≠ [] ∧
          [0, 2].dropLast.length = ([0, 1] : List Int).dropLast.length) ∧
      (∀ (fuel : Nat) (cb : Callback Unit CommutableNode) (st : Bool × Unit),
        Children.onSeed star4 fuel [0, 1] [0, 1] cb 2 [0, 2] st 0 ≠ .undefined)) :=
  ⟨cliqueProblem_resortKeepsLength 4 adjStar, by decide, by decide, by decide,
    children_calls_complete_on_nonempty star4 (cliqueProblem_resortKeepsLength 4 adjStar)
      [0, 1] [0, 1] 2 [0, 2] 0 [0, 2] [0, 1] (by decide) (by decide) (by decide)⟩

end CommutableSystem
